import Mathlib

/-!
Verification of the Hatch-Validator dependency engine.

This file is a shallow embedding, in Lean 4, of the core algorithms of the
Hatch-Validator repository:

* `hatch_validator/utils/dependency_graph.py` — the `DependencyGraph` class
  (three-colour DFS cycle detection, Kahn topological sort);
* `hatch_validator/dependency_resolver.py` — the `DependencyResolver` class
  (differential reconstruction of dependency records, version-chain walking,
  queue-based dependency validation and transitive graph building);
* `hatch_validator/utils/registry_client.py` — `RegistryAccessorV1_1_0`
  (list-based reconstruction, `find_compatible_version`);
* `hatch_validator/schemas/v1_1_0/schema_validators.py` and
  `hatch_validator/core/validator_base.py` — the chain-of-responsibility
  schema-version dispatch;
* `hatch_validator/schemas/v1_1_0/dependency_validation_strategy.py` and
  `hatch_validator/package/v1_2_0/dependency_validation.py` — the dependency
  validation strategies (with an explicit ledger of filesystem accesses).

Python `dict`s are modelled as association lists in insertion order with
overwrite-in-place assignment; Python set iteration (whose order is
unspecified) is modelled by one fixed linearization; unbounded Python loops
and recursion are modelled with an explicit fuel parameter, `none`/an `ok`
flag marking fuel exhaustion (i.e. divergence of the unbounded original).
The external `packaging` library (version parsing and specifier sets) is not
part of the repository and is modelled, restricted to plain numeric
dot-separated versions, after the specification of the version-constraint
engine.
-/

namespace HatchProof

/-! ### Python dict model: association lists in insertion order -/

/-- `d[k] = v` on a Python dict: overwrite in place if the key is present,
append otherwise. -/
def dictSet {α : Type} (d : List (String × α)) (k : String) (v : α) :
    List (String × α) :=
  if d.any (fun p => p.1 = k) then
    d.map (fun p => if p.1 = k then (k, v) else p)
  else d ++ [(k, v)]

/-- `k in d` on a Python dict. -/
def dictMem {α : Type} (d : List (String × α)) (k : String) : Bool :=
  d.any (fun p => p.1 = k)

/-- `d.get(k, default)` on a Python dict (first binding wins, as in a dict
whose keys are unique). -/
def dictGetD {α : Type} (d : List (String × α)) (k : String) (v₀ : α) : α :=
  match d.find? (fun p => p.1 = k) with
  | some p => p.2
  | none => v₀

/-- `del d[k]` on a Python dict. -/
def dictDel {α : Type} (d : List (String × α)) (k : String) :
    List (String × α) :=
  d.filter (fun p => ¬ p.1 = k)

/-! ### The dependency graph (`utils/dependency_graph.py`)

`DependencyGraph.adjacency_list` is a Python dict mapping a package name to
the list of its direct dependencies. -/

/-- Embedding of `DependencyGraph`: the adjacency list, keys in insertion
order. A Python dict never has two bindings for one key; graphs built by
`add_dependency`/`add_package` satisfy `(adj.map Prod.fst).Nodup`. -/
structure Graph where
  adj : List (String × List String)
  deriving Repr, DecidableEq

/-- `self.adjacency_list.get(node, [])`. -/
def adjGet (g : Graph) (n : String) : List String :=
  dictGetD g.adj n []

/-- `add_dependency(package, dependency)`: ensure the key exists, then append
the dependency if it is not already listed. -/
def addDependency (g : Graph) (pkg dep : String) : Graph :=
  let g₁ : Graph :=
    if dictMem g.adj pkg then g else ⟨g.adj ++ [(pkg, [])]⟩
  if dep ∈ adjGet g₁ pkg then g₁
  else ⟨dictSet g₁.adj pkg (adjGet g₁ pkg ++ [dep])⟩

/-- `add_package(package)`: ensure the key exists with no edges. -/
def addPackage (g : Graph) (pkg : String) : Graph :=
  if dictMem g.adj pkg then g else ⟨g.adj ++ [(pkg, [])]⟩

/-- `get_all_packages`: the keys plus every edge endpoint. The Python
original returns a `set`, whose iteration order is unspecified; this model
fixes one linearization (`List.dedup` of keys then edge endpoints). -/
def getAllPackages (g : Graph) : List String :=
  ((g.adj.map Prod.fst) ++
    g.adj.foldr (fun (p : String × List String) acc => p.2 ++ acc) []).dedup

/-- State of the `detect_cycles` DFS: `colors` is the
`defaultdict(int)` (0 = white, 1 = gray, 2 = black), `cycles` the cycles
recorded so far, `path` the current DFS path. `fin` records the order in
which nodes were coloured black (implicit in the Python execution, made
explicit here), and `ok` is cleared when the fuel runs out, i.e. the model
lost step-for-step correspondence with the unbounded Python recursion. -/
structure DfsState where
  colors : List (String × Nat)
  cycles : List (List String)
  path : List String
  fin : List String
  ok : Bool
  deriving Repr, DecidableEq

/-- `colors[node]` of the `defaultdict(int)`. -/
def colorOf (s : DfsState) (n : String) : Nat :=
  dictGetD s.colors n 0

/-- The inner `dfs` helper of `detect_cycles`.  Its Python return value is
discarded by every caller (`if dfs(dep): pass` and the bare `dfs(package)` in
the root loop), so the embedding returns only the state.  On a gray node the
slice of `path` from the node's first occurrence, plus the node, is recorded
as a cycle; on a white node the node is grayed, pushed, its dependencies are
visited in order, and it is blackened and popped. -/
def dfsVisit : Nat → Graph → String → DfsState → DfsState
  | 0, _, _, s => { s with ok := false }
  | Nat.succ f, g, node, s =>
    if colorOf s node = 1 then
      { s with cycles :=
          s.cycles ++ [s.path.drop (s.path.indexOf node) ++ [node]] }
    else if colorOf s node = 2 then
      s
    else
      let s₁ : DfsState :=
        { s with colors := dictSet s.colors node 1, path := s.path ++ [node] }
      let s₂ := (adjGet g node).foldl (fun st d => dfsVisit f g d st) s₁
      { s₂ with colors := dictSet s₂.colors node 2,
                path := s₂.path.dropLast,
                fin := s₂.fin ++ [node] }

/-- The root loop of `detect_cycles`: visit every package still white. -/
def dfsRoots (g : Graph) (fuel : Nat) : DfsState :=
  (getAllPackages g).foldl
    (fun s p => if colorOf s p = 0 then dfsVisit fuel g p s else s)
    ⟨[], [], [], [], true⟩

/-- Fuel sufficient for the DFS: the recursion depth grays a fresh node per
level, so `|packages| + 1` levels never run out (proved below). -/
def dfsFuel (g : Graph) : Nat :=
  (getAllPackages g).length + 1

/-- `detect_cycles()`: `(len(cycles) > 0, cycles)`. -/
def detectCycles (g : Graph) : Bool × List (List String) :=
  let s := dfsRoots g (dfsFuel g)
  (decide (0 < s.cycles.length), s.cycles)

/-- The in-degree dict of `topological_sort`: every package gets an entry 0,
then one increment per occurrence as an edge target.  Python ints, so the
values live in `Int`. -/
def degStart (g : Graph) : List (String × Int) :=
  let base := (getAllPackages g).foldl
    (fun d p => if dictMem d p then d else dictSet d p 0) []
  g.adj.foldl
    (fun d p => p.2.foldl (fun d' v => dictSet d' v (dictGetD d' v 0 + 1)) d)
    base

/-- One pop of Kahn's queue: decrement the in-degree of each dependency of
`current` (one decrement per occurrence), collecting the dependencies whose
in-degree reaches exactly 0 at their decrement, in order. -/
def kahnStep (g : Graph) (deg : List (String × Int)) (current : String) :
    List (String × Int) × List String :=
  (adjGet g current).foldl
    (fun (p : List (String × Int) × List String) dep =>
      let d' := dictSet p.1 dep (dictGetD p.1 dep 0 - 1)
      if dictGetD d' dep 0 = 0 then (d', p.2 ++ [dep]) else (d', p.2))
    (deg, [])

/-- The `while queue` loop of Kahn's algorithm, fuelled; `none` is fuel
exhaustion (the fuel chosen in `topologicalSort` is proved sufficient). -/
def kahnLoop : Nat → Graph → List String → List (String × Int) →
    List String → Option (List String)
  | 0, _, _, _, _ => none
  | Nat.succ f, g, queue, deg, result =>
    match queue with
    | [] => some result
    | current :: rest =>
      let (deg', pushes) := kahnStep g deg current
      kahnLoop f g (rest ++ pushes) deg' (result ++ [current])

/-- Total positive in-degree mass, used only to size the Kahn fuel. -/
def degMass (deg : List (String × Int)) : Nat :=
  (deg.map (fun p => p.2.toNat)).sum

/-- `topological_sort()`: return `(false, [])` on a cyclic graph, otherwise
run Kahn's algorithm and report whether every package was output. -/
def topologicalSort (g : Graph) : Bool × List String :=
  if (detectCycles g).1 then (false, [])
  else
    let all := getAllPackages g
    let deg := degStart g
    let q₀ := all.filter (fun p => dictGetD deg p 0 = 0)
    match kahnLoop (q₀.length + degMass deg + 1) g q₀ deg [] with
    | some result => (decide (result.length = all.length), result)
    | none => (false, [])

/-- One directed edge of the graph. -/
def Step (g : Graph) (a b : String) : Prop :=
  b ∈ adjGet g a

/-- The graph has a directed cycle: some node reaches itself in at least one
step. -/
def HasCycle (g : Graph) : Prop :=
  ∃ a, Relation.TransGen (Step g) a a

/-! ### Version model

Modelled from the spec: the version-constraint engine (§4.2) delegates to the
external `packaging` library, which is not part of the repository.  The model
covers plain numeric dot-separated versions (`1.2.0`) compared by numeric
dot-separated precedence with zero padding, and comma-separated comparator
sets over `==, !=, <=, >=, <, >`; anything else fails to parse, standing for
the exceptions the library raises on malformed input. -/

/-- Kernel-computable primitives standing in for Python string operations
(`str.split`, `str.strip`, `startswith`, slicing): the standard library's
`String` functions are compiled code the kernel cannot reduce, so the model
works on the character list of the string. -/
def strStartsWith (s pre : String) : Bool :=
  pre.data.isPrefixOf s.data

/-- Drop the first `n` characters (`s[n:]`). -/
def strDrop (s : String) (n : Nat) : String :=
  ⟨s.data.drop n⟩

/-- Strip leading and trailing spaces (Python `strip()`, restricted to the
space character). -/
def trimChars (l : List Char) : List Char :=
  ((l.dropWhile (fun c => c = ' ')).reverse.dropWhile (fun c => c = ' ')).reverse

/-- Split a character list at every occurrence of the separator
(`str.split(sep)`: an empty input yields one empty part). -/
def splitChar (c : Char) : List Char → List (List Char)
  | [] => [[]]
  | x :: xs =>
    match splitChar c xs with
    | [] => [[]]
    | h :: t => if x = c then [] :: h :: t else (x :: h) :: t

/-- A decimal digit. -/
def isDigitCh (c : Char) : Bool :=
  48 ≤ c.toNat ∧ c.toNat ≤ 57

/-- The number a digit string denotes. -/
def digitsToNat (l : List Char) : Nat :=
  l.foldl (fun acc c => acc * 10 + (c.toNat - 48)) 0

/-- Modelled from the spec: parse a numeric dot-separated version string. -/
def parseVersion (s : String) : Option (List Nat) :=
  let parts := splitChar (Char.ofNat 46) s.data
  if parts.all (fun p => ¬ p = [] ∧ p.all isDigitCh) then
    some (parts.map digitsToNat)
  else none

/-- Every component is zero (the padded remainder of a version). -/
def allZero : List Nat → Bool
  | [] => true
  | x :: xs => x = 0 && allZero xs

/-- Modelled from the spec: numeric dot-separated comparison, missing
components reading as zero (`1.0 == 1.0.0`). -/
def vcmp : List Nat → List Nat → Ordering
  | [], bs => if allZero bs then Ordering.eq else Ordering.lt
  | a :: as, [] => if a = 0 then vcmp as [] else Ordering.gt
  | a :: as, b :: bs =>
    if a < b then Ordering.lt else if b < a then Ordering.gt else vcmp as bs

/-- Comparator operator of one specifier. -/
inductive VOp
  | veq | vne | vle | vge | vlt | vgt
  deriving Repr, DecidableEq

/-- Modelled from the spec: parse one comparator expression such as
`>=1.0.0`, spaces around the operator and version ignored. -/
def parseSpecOne (s : String) : Option (VOp × List Nat) :=
  let parseRest (op : VOp) (rest : List Char) : Option (VOp × List Nat) :=
    (parseVersion ⟨trimChars rest⟩).map (fun v => (op, v))
  match trimChars s.data with
  | '>' :: '=' :: rest => parseRest VOp.vge rest
  | '<' :: '=' :: rest => parseRest VOp.vle rest
  | '=' :: '=' :: rest => parseRest VOp.veq rest
  | '!' :: '=' :: rest => parseRest VOp.vne rest
  | '>' :: rest => parseRest VOp.vgt rest
  | '<' :: rest => parseRest VOp.vlt rest
  | _ => none

/-- Modelled from the spec: parse a comma-separated comparator set
(`>=1.0.0,<2.0.0`); `none` stands for the exception raised on malformed
syntax. -/
def parseSpecSet (s : String) : Option (List (VOp × List Nat)) :=
  if trimChars s.data = [] then some []
  else
    (splitChar (Char.ofNat 44) s.data).foldr
      (fun part acc =>
        match acc, parseSpecOne ⟨part⟩ with
        | some l, some sp => some (sp :: l)
        | _, _ => none)
      (some [])

/-- One comparator applied to a concrete version. -/
def specHolds (v : List Nat) (sp : VOp × List Nat) : Bool :=
  match sp.1 with
  | VOp.veq => vcmp v sp.2 = Ordering.eq
  | VOp.vne => ¬ vcmp v sp.2 = Ordering.eq
  | VOp.vle => ¬ vcmp v sp.2 = Ordering.gt
  | VOp.vge => ¬ vcmp v sp.2 = Ordering.lt
  | VOp.vlt => vcmp v sp.2 = Ordering.lt
  | VOp.vgt => vcmp v sp.2 = Ordering.gt

/-- Modelled from the spec: `SpecifierSet.contains(version)`; `none` stands
for the exception raised when the candidate version does not parse. -/
def specContains (specs : List (VOp × List Nat)) (v : String) : Option Bool :=
  (parseVersion v).map (fun vv => specs.all (specHolds vv))

/-- A Python falsy test on an optional string: `None` and `""` are falsy. -/
def isTruthy : Option String → Bool
  | none => false
  | some s => ¬ s = ""

/-! ### Registry data model

The registry wire format (§6): `repositories[] / packages[] / versions[]`,
each version entry carrying diffs against its `base_version`. -/

/-- A dependency dict as stored in a version entry's diff lists (and as
returned wholesale by the v1.1.0 accessor's reconstruction): `name`,
optional `version_constraint`, optional `package_manager`. -/
structure RDep where
  name : String
  version_constraint : Option String
  package_manager : Option String
  deriving Repr, DecidableEq

/-- A version entry: the differential storage unit. -/
structure VersionEntry where
  version : String
  base_version : Option String
  hatch_dependencies_added : List RDep
  hatch_dependencies_removed : List String
  hatch_dependencies_modified : List RDep
  python_dependencies_added : List RDep
  python_dependencies_removed : List String
  python_dependencies_modified : List RDep
  compatibility_changes : List (String × String)
  deriving Repr, DecidableEq

/-- A package of the registry. -/
structure Package where
  name : String
  latest_version : Option String
  versions : List VersionEntry
  deriving Repr, DecidableEq

/-- A repository of the registry. -/
structure Repository where
  name : String
  packages : List Package
  deriving Repr, DecidableEq

/-- The registry document. -/
structure Registry where
  repositories : List Repository
  deriving Repr, DecidableEq

/-- `current.get("base_version")` under Python truthiness: an absent or empty
base version reads as none. -/
def baseOf (e : VersionEntry) : Option String :=
  match e.base_version with
  | none => none
  | some b => if b = "" then none else some b

/-! ### `DependencyResolver` registry lookups (`dependency_resolver.py`) -/

/-- `find_package_in_registry`: first package of any repository whose name
matches (repositories and packages scanned in order).  The resolver's
registry data is `Option`al: `none` models `if not self.registry_data`. -/
def findPackageInRegistry (reg : Option Registry) (pname : String) :
    Option Package :=
  match reg with
  | none => none
  | some r =>
    (r.repositories.foldr (fun repo acc => repo.packages ++ acc) []).find?
      (fun p => p.name = pname)

/-- Insertion step of a stable descending sort: the inserted entry (earlier
in the original list) stops at the first entry whose key is not greater, so
equal keys keep their original relative order, as Python's stable
`sort(reverse=True)`. -/
def insertDescBy {α : Type} (key : α → List Nat) (x : α) :
    List α → List α
  | [] => [x]
  | y :: ys =>
    if ¬ vcmp (key y) (key x) = Ordering.gt then x :: y :: ys
    else y :: insertDescBy key x ys

/-- Stable descending sort by a version key. -/
def sortDescBy {α : Type} (key : α → List Nat) (l : List α) : List α :=
  l.foldr (insertDescBy key) []

/-- Insertion step of a stable ascending sort: the inserted entry (earlier
in the original list) stops at the first entry whose key is not smaller, as
Python's stable `sort()`. -/
def insertAscBy {α : Type} (key : α → List Nat) (x : α) :
    List α → List α
  | [] => [x]
  | y :: ys =>
    if ¬ vcmp (key y) (key x) = Ordering.lt then x :: y :: ys
    else y :: insertAscBy key x ys

/-- Stable ascending sort by a version key. -/
def sortAscBy {α : Type} (key : α → List Nat) (l : List α) : List α :=
  l.foldr (insertAscBy key) []

/-- The filtering loop of `get_package_version`: keep the entries whose
version satisfies the specifier set, pairing each with its parsed version;
`none` stands for the exception raised when some entry's version string does
not parse (the whole lookup then returns `None`). -/
def collectSatisfying (specs : List (VOp × List Nat)) :
    List VersionEntry → Option (List (VersionEntry × List Nat))
  | [] => some []
  | v :: vs =>
    match parseVersion v.version, collectSatisfying specs vs with
    | some pv, some rest =>
      if specs.all (specHolds pv) then some ((v, pv) :: rest) else some rest
    | _, _ => none

/-- `get_package_version(package_name, version_constraint)`: with a falsy
constraint, the entry named by the package's `latest_version` marker (`None`
when the marker is absent or unlisted); with a constraint, the
highest-version satisfying entry (stable descending sort, first element);
`None` on a malformed constraint or an unparseable listed version (the
caught exception). -/
def getPackageVersion (reg : Option Registry) (pname : String)
    (constraint : Option String) : Option VersionEntry :=
  match findPackageInRegistry reg pname with
  | none => none
  | some pkg =>
    if ¬ isTruthy constraint then
      match pkg.latest_version with
      | none => none
      | some lv => pkg.versions.find? (fun v => v.version = lv)
    else
      match parseSpecSet (constraint.getD "") with
      | none => none
      | some specs =>
        match collectSatisfying specs pkg.versions with
        | none => none
        | some valid =>
          if valid.isEmpty then none
          else (sortDescBy Prod.snd valid).head?.map Prod.fst

/-! ### Differential reconstruction, resolver flavour
(`_reconstruct_dependencies` / `_get_version_chain`) -/

/-- The dict state of `_reconstruct_dependencies`: hatch dependencies
(name → constraint), python dependencies (name → (constraint, package
manager)), compatibility. -/
structure ReconState where
  dependencies : List (String × String)
  python_dependencies : List (String × (String × String))
  compatibility : List (String × String)
  deriving Repr, DecidableEq

/-- Replay of one version entry onto the dict state: added inserts or
overwrites by name, removed deletes when present, modified overwrites only
when the name is present (an absent name is a no-op), and the
`hatchling`/`python` compatibility keys are overwritten when present in the
entry's `compatibility_changes`. -/
def applyEntry (st : ReconState) (ver : VersionEntry) : ReconState :=
  let d₁ := ver.hatch_dependencies_added.foldl
    (fun d dep => dictSet d dep.name (dep.version_constraint.getD "")) st.dependencies
  let d₂ := ver.hatch_dependencies_removed.foldl
    (fun d nm => if dictMem d nm then dictDel d nm else d) d₁
  let d₃ := ver.hatch_dependencies_modified.foldl
    (fun d dep => if dictMem d dep.name then
        dictSet d dep.name (dep.version_constraint.getD "") else d) d₂
  let p₁ := ver.python_dependencies_added.foldl
    (fun d dep => dictSet d dep.name
      (dep.version_constraint.getD "", dep.package_manager.getD "pip"))
    st.python_dependencies
  let p₂ := ver.python_dependencies_removed.foldl
    (fun d nm => if dictMem d nm then dictDel d nm else d) p₁
  let p₃ := ver.python_dependencies_modified.foldl
    (fun d dep => if dictMem d dep.name then
        dictSet d dep.name
          (dep.version_constraint.getD "",
           dep.package_manager.getD (dictGetD d dep.name ("", "pip")).2)
      else d) p₂
  let c₁ :=
    match (ver.compatibility_changes.find? (fun p => p.1 = "hatchling")) with
    | some kv => dictSet st.compatibility "hatchling" kv.2
    | none => st.compatibility
  let c₂ :=
    match (ver.compatibility_changes.find? (fun p => p.1 = "python")) with
    | some kv => dictSet c₁ "python" kv.2
    | none => c₁
  ⟨d₃, p₃, c₂⟩

/-- Output shape of `get_full_package_dependencies`: the dicts converted back
to ordered lists. -/
structure FullDeps where
  dependencies : List (String × String)
  python_dependencies : List (String × String × String)
  compatibility : List (String × String)
  deriving Repr, DecidableEq

/-- `_reconstruct_dependencies`: empty dicts, replay the chain oldest first,
convert back to lists. -/
def reconstructDependencies (chain : List VersionEntry) : FullDeps :=
  let st := chain.foldl applyEntry ⟨[], [], []⟩
  ⟨st.dependencies,
   st.python_dependencies.map (fun p => (p.1, p.2.1, p.2.2)),
   st.compatibility⟩

/-- How the resolver's version-chain walk ended: at a rootless entry, or at
a `base_version` absent from the package (logged, then `break`). -/
inductive ChainExit
  | root
  | missing (b : String)
  deriving Repr, DecidableEq

/-- The error the walk logs when a base version is absent. -/
def baseNotFoundMsg (b pkgName : String) : String :=
  "Base version " ++ b ++ " not found in package " ++ pkgName

/-- `_get_version_chain`'s while loop, fuelled: collect entries newest first
by following `base_version`, stopping at an entry with a falsy base or at a
base absent from the package's versions (which only logs an error).  `none`
is fuel exhaustion: the unbounded Python loop diverges on data whose base
chain revisits an entry. -/
def chainWalk : Nat → Package → VersionEntry →
    Option (List VersionEntry × ChainExit × List String)
  | 0, _, _ => none
  | Nat.succ f, pkg, cur =>
    match baseOf cur with
    | none => some ([cur], ChainExit.root, [])
    | some b =>
      match pkg.versions.find? (fun v => v.version = b) with
      | none => some ([cur], ChainExit.missing b, [baseNotFoundMsg b pkg.name])
      | some nxt =>
        (chainWalk f pkg nxt).map (fun r => (cur :: r.1, r.2.1, r.2.2))

/-- Fuel sufficient for every terminating walk: a walk longer than
`|versions| + 1` hops revisits an entry and hence diverges. -/
def chainFuel (pkg : Package) : Nat :=
  pkg.versions.length + 2

/-- `_get_version_chain`: the walk's entries reversed to oldest-first order,
with the exit kind and the log. -/
def getVersionChain (pkg : Package) (start : VersionEntry) :
    Option (List VersionEntry × ChainExit × List String) :=
  (chainWalk (chainFuel pkg) pkg start).map
    (fun r => (r.1.reverse, r.2.1, r.2.2))

/-- `get_full_package_dependencies`: locate the package and version entry
(an absent one yields the empty record, not an error), then reconstruct
along the chain.  The outer `none` is the walk's divergence; the
missing-registry exception is out of scope here because every caller in the
claims supplies registry data. -/
def getFullPackageDependencies (reg : Option Registry) (pname pver : String) :
    Option FullDeps :=
  match findPackageInRegistry reg pname with
  | none => some ⟨[], [], []⟩
  | some pkg =>
    match pkg.versions.find? (fun v => v.version = pver) with
    | none => some ⟨[], [], []⟩
    | some ver =>
      (getVersionChain pkg ver).map (fun r => reconstructDependencies r.1)

/-! ### The v1.1.0 registry accessor (`utils/registry_client.py`,
`RegistryAccessorV1_1_0`) -/

/-- `get_all_package_names`: names in repository order, first occurrence
kept. -/
def getAllPackageNames (reg : Registry) : List String :=
  reg.repositories.foldl
    (fun acc repo => repo.packages.foldl
      (fun acc' p =>
        if ¬ p.name = "" ∧ p.name ∉ acc' then acc' ++ [p.name] else acc')
      acc)
    []

/-- `package_exists(registry_data, package_name)`. -/
def packageExists (reg : Registry) (pname : String) : Bool :=
  pname ∈ getAllPackageNames reg

/-- `get_package_versions`: the version strings of the first package whose
name matches, empty-string versions dropped (`if v.get('version')`). -/
def getPackageVersions (reg : Registry) (pname : String) : List String :=
  match (reg.repositories.foldr (fun repo acc => repo.packages ++ acc)
      []).find? (fun p => p.name = pname) with
  | some pkg => (pkg.versions.map VersionEntry.version).filter (fun v => ¬ v = "")
  | none => []

/-- `get_package_metadata`: the first package whose name matches (`{}`,
modelled `none`, otherwise). -/
def getPackageMetadata (reg : Registry) (pname : String) : Option Package :=
  (reg.repositories.foldr (fun repo acc => repo.packages ++ acc) []).find?
    (fun p => p.name = pname)

/-- Output of `_reconstruct_package_version`: complete metadata with
dependency lists (dependency dicts carried wholesale). -/
structure ReconMeta where
  name : String
  version : String
  hatch_dependencies : List RDep
  python_dependencies : List RDep
  compatibility : List (String × String)
  deriving Repr, DecidableEq

/-- The accessor's chain walk (`while current_version:`): collect entries
newest first; at an absent base version the lookup leaves `current_version`
as `None` and the loop silently ends with the truncated chain.  `none` is
fuel exhaustion, i.e. divergence of the unbounded loop. -/
def rcChainWalk : Nat → Package → VersionEntry → Option (List VersionEntry)
  | 0, _, _ => none
  | Nat.succ f, pkg, cur =>
    match baseOf cur with
    | none => some [cur]
    | some b =>
      match pkg.versions.find? (fun v => v.version = b) with
      | none => some [cur]
      | some nxt => (rcChainWalk f pkg nxt).map (fun r => cur :: r)

/-- Replace the first list entry whose name matches `mod`'s name
(`for i, dep in enumerate(...): if match: l[i] = mod; break`). -/
def replaceFirstByName (l : List RDep) (mod : RDep) : List RDep :=
  match l with
  | [] => []
  | d :: ds =>
    if d.name = mod.name then mod :: ds
    else d :: replaceFirstByName ds mod

/-- Replay of one version entry onto the accessor's list state: added
appends the dict wholesale (no overwrite), removed filters out every entry
of that name, modified replaces the first matching entry. -/
def rcApplyEntry (st : ReconMeta) (ver : VersionEntry) : ReconMeta :=
  let h₁ := st.hatch_dependencies ++ ver.hatch_dependencies_added
  let h₂ := ver.hatch_dependencies_removed.foldl
    (fun l nm => l.filter (fun d => ¬ d.name = nm)) h₁
  let h₃ := ver.hatch_dependencies_modified.foldl replaceFirstByName h₂
  let p₁ := st.python_dependencies ++ ver.python_dependencies_added
  let p₂ := ver.python_dependencies_removed.foldl
    (fun l nm => l.filter (fun d => ¬ d.name = nm)) p₁
  let p₃ := ver.python_dependencies_modified.foldl replaceFirstByName p₂
  let c := ver.compatibility_changes.foldl
    (fun m kv => dictSet m kv.1 kv.2) st.compatibility
  ⟨st.name, st.version, h₃, p₃, c⟩

/-- `_reconstruct_package_version`: walk the chain, then replay it oldest
first onto empty metadata. -/
def reconstructPackageVersion (pkg : Package) (start : VersionEntry) :
    Option ReconMeta :=
  (rcChainWalk (chainFuel pkg) pkg start).map
    (fun chain => chain.reverse.foldl rcApplyEntry
      ⟨pkg.name, start.version, [], [], []⟩)

/-- `get_package_dependencies(registry_data, package_name, version)`: locate
the package, pick the named version (or the last listed one when `version`
is falsy), reconstruct.  The outer `none` is the chain walk's divergence;
`some none` models the `{}` returns (absent package, empty version list,
unknown version). -/
def getPackageDependenciesRC (reg : Registry) (pname : String)
    (pver : Option String) : Option (Option ReconMeta) :=
  match getPackageMetadata reg pname with
  | none => some none
  | some pkg =>
    if pkg.versions.isEmpty then some none
    else
      match (if isTruthy pver then
               pkg.versions.find? (fun v => v.version = pver.getD "")
             else pkg.versions.getLast?) with
      | none => some none
      | some ver => (reconstructPackageVersion pkg ver).map some

/-- `find_compatible_version(registry_data, package_name, constraint)`:
`None` without versions; the last listed version on a falsy constraint; else
the last element of the stable ascending sort of the satisfying versions;
`None` when nothing satisfies or on any parse failure (the caught
exception). -/
def findCompatibleVersion (reg : Registry) (pname : String)
    (constraint : Option String) : Option String :=
  let versions := getPackageVersions reg pname
  if versions.isEmpty then none
  else if ¬ isTruthy constraint then versions.getLast?
  else
    match parseSpecSet (constraint.getD "") with
    | none => none
    | some specs =>
      match (versions.foldr
          (fun v acc =>
            match acc, parseVersion v with
            | some l, some pv =>
              if specs.all (specHolds pv) then some ((v, pv) :: l) else some l
            | _, _ => none)
          (some [])) with
      | none => none
      | some compatible =>
        if compatible.isEmpty then none
        else (sortAscBy Prod.snd compatible).getLast?.map Prod.fst

/-! ### The schema-version dispatch
(`schemas/v1_1_0/schema_validators.py` `SchemaValidator.validate`,
`core/validator_base.py`, `core/validator_factory.py`)

The four strategy hooks perform I/O (JSON-schema check, registry and
filesystem lookups, AST parsing), so at this level each hook is an oracle:
the pair it would return for the one `(metadata, context)` of the call.
`validate` is embedded exactly as written: dispatch on the declared schema
version, schema hook first with short-circuit, then dependencies, then —
only when a package directory was provided — the entry-point hook, then —
only when that succeeded — the tools hook. -/

/-- The hook outcomes of one call: what each strategy would return. -/
structure HookRuns where
  schemaRun : Bool × List String
  depsRun : Bool × List String
  entryRun : Bool × List String
  toolsRun : Bool × List String

/-- The body of `SchemaValidator.validate` once `can_handle` accepted. -/
def v110ValidateBody (pkgDirPresent : Bool) (h : HookRuns) :
    Bool × List String :=
  if ¬ h.schemaRun.1 then (false, h.schemaRun.2)
  else
    let afterDeps : Bool × List String :=
      if ¬ h.depsRun.1 then (false, h.depsRun.2) else (true, [])
    if pkgDirPresent then
      let afterEntry : Bool × List String :=
        if ¬ h.entryRun.1 then (false, afterDeps.2 ++ h.entryRun.2)
        else (afterDeps.1, afterDeps.2)
      if h.entryRun.1 then
        if ¬ h.toolsRun.1 then (false, afterEntry.2 ++ h.toolsRun.2)
        else afterEntry
      else afterEntry
    else afterDeps

/-- `SchemaValidator.validate` for the v1.1.0 validator: handle schema
version `"1.1.0"` itself, otherwise delegate to the next validator of the
chain, and without one fail with the single unsupported-version error. -/
def v110Validate (next : Option (String → Bool × List String))
    (schemaVersion : String) (pkgDirPresent : Bool) (h : HookRuns) :
    Bool × List String :=
  if schemaVersion = "1.1.0" then v110ValidateBody pkgDirPresent h
  else
    match next with
    | some nv => nv schemaVersion
    | none => (false, ["Unsupported schema version: " ++ schemaVersion])

/-- `ValidatorFactory.create_validator_chain` today returns the v1.1.0
validator alone (`next_validator = None`). -/
def chainValidate (schemaVersion : String) (pkgDirPresent : Bool)
    (h : HookRuns) : Bool × List String :=
  v110Validate none schemaVersion pkgDirPresent h

/-! ### `DependencyResolver.validate_dependencies` and
`_build_dependency_graph` (`dependency_resolver.py`)

Dependency dicts flowing through the resolver's queues carry a flat
`type`/`uri` layout.  A missing or empty `name` is modelled as `""` (both
are falsy where the source tests `if dep.get('name')`).  The filesystem is a
snapshot: the set of existing directories, and the parsed
`hatch_metadata.json` of each directory that has one (a file whose JSON is
malformed raises the same caught error as a missing one and is modelled as
absent). -/

/-- A dependency dict in the resolver's flat layout. -/
structure BDep where
  name : String
  version_constraint : Option String
  dtype : Option String
  uri : Option String
  deriving Repr, DecidableEq

/-- A parsed local-package manifest (the parts the resolver reads). -/
structure LocalMeta where
  version : Option String
  hatch_dependencies : List BDep
  deriving Repr, DecidableEq

/-- The filesystem snapshot. -/
structure FS where
  dirs : List String
  metas : List (String × LocalMeta)
  deriving Repr, DecidableEq

/-- Strip `file://` and resolve a relative path against the base directory
(`base_dir / path`; POSIX join, inputs assumed free of `.`/`..`
segments). -/
def resolveUriPath (uri : String) (baseDir : Option String) : String :=
  let p := strDrop uri 7
  if strStartsWith p "/" then p
  else match baseDir with
    | some bd => bd ++ "/" ++ p
    | none => p

/-- `_get_local_package_metadata`: the parsed manifest of the directory, or
`none` for the raised `DependencyResolutionError` (missing or unreadable
file). -/
def getLocalPackageMetadata (fs : FS) (path : String) : Option LocalMeta :=
  (fs.metas.find? (fun m => m.1 = path)).map Prod.snd

/-- `validate_version_constraint(dep_name, version_constraint)`; the
`str(e)` suffix of the Python message is omitted from the model. -/
def validateVersionConstraint (depName : String) (c : Option String) :
    Bool × List String :=
  if ¬ isTruthy c then (true, [])
  else match parseSpecSet (c.getD "") with
    | some _ => (true, [])
    | none =>
      (false, ["Invalid version constraint '" ++ c.getD "" ++ "' for '"
        ++ depName ++ "'"])

/-- `is_version_compatible(installed, constraint)`: `True` on a falsy
constraint, `False` on any parse failure (the caught exception). -/
def isVersionCompatible (installed : String) (c : Option String) : Bool :=
  if ¬ isTruthy c then true
  else match parseSpecSet (c.getD "") with
    | none => false
    | some specs =>
      match specContains specs installed with
      | none => false
      | some b => b

/-- `_validate_local_dependency`: check uri presence and scheme, resolve the
path, require an existing directory and a readable manifest, check the
version constraint against the manifest's version, and return the
manifest's dependencies as the transitive work list. -/
def validateLocalDependency (fs : FS) (dep : BDep) (baseDir : Option String) :
    Bool × List String × List BDep :=
  if ¬ isTruthy dep.uri then
    (false, ["Local dependency '" ++ dep.name
      ++ "' is missing required field 'uri'"], [])
  else
    let uri := dep.uri.getD ""
    if ¬ strStartsWith uri "file://" then
      (false, ["Local dependency URI must start with 'file://' for '"
        ++ dep.name ++ "'"], [])
    else
      let path := resolveUriPath uri baseDir
      if ¬ path ∈ fs.dirs then
        (false, ["Local dependency path does not exist: " ++ uri], [])
      else
        match getLocalPackageMetadata fs path with
        | none =>
          (false, ["Metadata file not found: " ++ path
            ++ "/hatch_metadata.json"], [])
        | some md =>
          if isTruthy dep.version_constraint ∧ isTruthy md.version ∧
              ¬ isVersionCompatible (md.version.getD "")
                dep.version_constraint then
            (false, ["Local dependency '" ++ dep.name ++ "' version "
              ++ md.version.getD "" ++ " does not satisfy constraint "
              ++ dep.version_constraint.getD ""], md.hatch_dependencies)
          else (true, [], md.hatch_dependencies)

/-- `_validate_remote_dependency`: registry presence, package existence,
and — only under a truthy constraint — a satisfying version. -/
def validateRemoteDependency (reg : Option Registry) (dep : BDep) :
    Bool × List String :=
  match reg with
  | none =>
    (false, ["No registry data available to validate remote dependency '"
      ++ dep.name ++ "'"])
  | some _ =>
    match findPackageInRegistry reg dep.name with
    | none =>
      (false, ["Remote dependency '" ++ dep.name
        ++ "' not found in registry"])
    | some _ =>
      if isTruthy dep.version_constraint then
        match getPackageVersion reg dep.name dep.version_constraint with
        | none =>
          (false, ["No version of '" ++ dep.name
            ++ "' satisfies constraint " ++ dep.version_constraint.getD ""])
        | some _ => (true, [])
      else (true, [])

/-- The `while to_validate:` loop of `validate_dependencies`.  Fuel is spent
only when a dependency is actually processed; popping a nameless entry (an
error) or an already-validated name (a skip) is free, so runs of different
fuel agree wherever neither exhausts.  `none` is fuel exhaustion.  The
Python message for a nameless entry interpolates the whole dict; the model
keeps the fixed prefix. -/
def vdLoop (fs : FS) (reg : Option Registry) (pkgDir : Option String) :
    Nat → List BDep → List String → List String → Bool →
    Option (Bool × List String)
  | _, [], _, errors, valid => some (valid, errors)
  | fuel, dep :: rest, validated, errors, valid =>
    if dep.name = "" then
      vdLoop fs reg pkgDir fuel rest validated
        (errors ++ ["Dependency missing required 'name' field"]) false
    else if dep.name ∈ validated then
      vdLoop fs reg pkgDir fuel rest validated errors valid
    else
      match fuel with
      | 0 => none
      | Nat.succ f =>
        let validated' := validated ++ [dep.name]
        let (cOk, cErrs) :=
          validateVersionConstraint dep.name dep.version_constraint
        if ¬ cOk then
          vdLoop fs reg pkgDir f rest validated' (errors ++ cErrs) false
        else
          match dep.dtype.getD "remote" with
          | "local" =>
            let (lOk, lErrs, tds) := validateLocalDependency fs dep pkgDir
            let queued := tds.filter (fun t => t.name ∉ validated')
            vdLoop fs reg pkgDir f (rest ++ queued) validated'
              (errors ++ if lOk then [] else lErrs) (valid ∧ lOk)
          | "remote" =>
            let (rOk, rErrs) := validateRemoteDependency reg dep
            vdLoop fs reg pkgDir f rest validated'
              (errors ++ if rOk then [] else rErrs) (valid ∧ rOk)
          | _ => vdLoop fs reg pkgDir f rest validated' errors valid
termination_by fuel queue => (fuel, queue.length)

/-- `validate_dependencies(dependencies, package_dir)` with a fuel generous
enough for every input (one unit per distinct processable name). -/
def validateDependencies (fs : FS) (reg : Option Registry)
    (pkgDir : Option String) (deps : List BDep) :
    Option (Bool × List String) :=
  let fuel := deps.length +
    (fs.metas.map (fun m => m.2.hatch_dependencies.length)).sum + 1
  vdLoop fs reg pkgDir fuel deps [] [] true

/-- The per-entry bookkeeping of `_build_dependency_graph`: from a list of
transitive dependency dicts, the names appended to the current node's
adjacency list (every truthy name, in order) and the dicts appended to the
work queue (those whose name is not yet processed). -/
def graphAdds (trans : List BDep) (processed : List String) :
    List String × List BDep :=
  trans.foldl
    (fun (acc : List String × List BDep) d =>
      if d.name = "" then acc
      else (acc.1 ++ [d.name],
        if d.name ∈ processed then acc.2 else acc.2 ++ [d]))
    ([], [])

/-- Dependency items of a reconstructed record, as re-queued dicts. -/
def fullDepsAsBDeps (fd : FullDeps) : List BDep :=
  fd.dependencies.map (fun p => ⟨p.1, some p.2, none, none⟩)

mutual

/-- The `while unprocessed:` loop of `_build_dependency_graph`: pop, skip
already-processed names (free of fuel), otherwise register the name with an
empty adjacency list and expand it — a local dependency through its
manifest (a missing manifest is a caught error, a no-op), anything else
through the pending-update metadata or the registry reconstruction.  `none`
is divergence: either this loop's fuel or a version-chain walk inside
reconstruction ran out. -/
def bgLoop (fs : FS) (reg : Option Registry) (pkgDir : Option String)
    (pending : Option (String × LocalMeta)) :
    Nat → List BDep → List String → List (String × List String) →
    Option (List (String × List String))
  | _, [], _, graph => some graph
  | fuel, dep :: rest, processed, graph =>
    if dep.name ∈ processed then
      bgLoop fs reg pkgDir pending fuel rest processed graph
    else
      match fuel with
      | 0 => none
      | Nat.succ f =>
        let processed' := processed ++ [dep.name]
        let graph₁ := dictSet graph dep.name []
        if dep.dtype.getD "remote" = "local" then
          if isTruthy dep.uri ∧ strStartsWith (dep.uri.getD "") "file://" then
            match getLocalPackageMetadata fs
                (resolveUriPath (dep.uri.getD "") pkgDir) with
            | none => bgLoop fs reg pkgDir pending f rest processed' graph₁
            | some md =>
              let (names, queued) := graphAdds md.hatch_dependencies processed'
              bgLoop fs reg pkgDir pending f (rest ++ queued) processed'
                (dictSet graph₁ dep.name names)
          else bgLoop fs reg pkgDir pending f rest processed' graph₁
        else
          match pending with
          | some (pname, pmd) =>
            if ¬ pname = "" ∧ dep.name = pname then
              let (names, queued) := graphAdds pmd.hatch_dependencies processed'
              bgLoop fs reg pkgDir pending f (rest ++ queued) processed'
                (dictSet graph₁ dep.name names)
            else
              bgRemote fs reg pkgDir pending f dep rest processed' graph₁
          | none => bgRemote fs reg pkgDir pending f dep rest processed' graph₁
termination_by fuel queue => (fuel, queue.length + 1)

/-- The registry arm of the remote branch of `_build_dependency_graph`. -/
def bgRemote (fs : FS) (reg : Option Registry) (pkgDir : Option String)
    (pending : Option (String × LocalMeta)) (f : Nat) (dep : BDep)
    (rest : List BDep) (processed' : List String)
    (graph₁ : List (String × List String)) :
    Option (List (String × List String)) :=
  match getPackageVersion reg dep.name dep.version_constraint with
  | none => bgLoop fs reg pkgDir pending f rest processed' graph₁
  | some vd =>
    match findPackageInRegistry reg dep.name with
    | none => bgLoop fs reg pkgDir pending f rest processed' graph₁
    | some _ =>
      match getFullPackageDependencies reg dep.name vd.version with
      | none => none
      | some fd =>
        let (names, queued) := graphAdds (fullDepsAsBDeps fd) processed'
        bgLoop fs reg pkgDir pending f (rest ++ queued) processed'
          (dictSet graph₁ dep.name names)
termination_by (f + 1, 0)

end

/-- All dependency names occurring in the registry's diff lists (the names
a registry reconstruction can produce). -/
def regDepNames (reg : Option Registry) : List String :=
  match reg with
  | none => []
  | some r =>
    (r.repositories.foldr (fun repo acc => repo.packages ++ acc) []).foldr
      (fun p acc =>
        p.versions.foldr
          (fun v acc' =>
            v.hatch_dependencies_added.map RDep.name ++
            v.hatch_dependencies_modified.map RDep.name ++ acc')
          acc)
      []

/-- All dependency names a manifest on the filesystem can contribute. -/
def fsDepNames (fs : FS) : List String :=
  fs.metas.foldr (fun m acc => m.2.hatch_dependencies.map BDep.name ++ acc) []

/-- The finite universe of names `_build_dependency_graph` can ever process:
the initial declarations plus everything the filesystem, the registry and
the pending-update metadata can enqueue. -/
def bgUniverse (deps : List BDep) (fs : FS) (reg : Option Registry)
    (pending : Option (String × LocalMeta)) : List String :=
  (deps.map BDep.name ++ fsDepNames fs ++ regDepNames reg ++
    (match pending with
     | some (_, pmd) => pmd.hatch_dependencies.map BDep.name
     | none => [])).dedup

/-- `_build_dependency_graph(dependencies, package_dir, pending_update)`:
the loop above, seeded with the named declarations, with one fuel unit per
universe name (proved sufficient below). -/
def buildDependencyGraph (fs : FS) (reg : Option Registry)
    (pkgDir : Option String) (pending : Option (String × LocalMeta))
    (deps : List BDep) : Option (List (String × List String)) :=
  bgLoop fs reg pkgDir pending
    ((bgUniverse deps fs reg pending).length + 1)
    (deps.filter (fun d => ¬ d.name = "")) [] []

/-! ### The v1.1.0 dependency validation strategy
(`schemas/v1_1_0/dependency_validation_strategy.py`)

Dependency dicts here carry a nested type object
(`dep['type'] = {'type': 'local'|'remote', 'uri': ...}`).  Every function
returns, besides its result, the ledger of filesystem paths it probed
(`Path.exists`/`is_dir`/`open`): the empty ledger means the call performed
no filesystem access. -/

/-- The nested type object of a v1.1.0 dependency dict. -/
structure TypeObj where
  ttype : Option String
  turi : Option String
  deriving Repr, DecidableEq

/-- A v1.1.0 hatch dependency dict. -/
structure SDep where
  sname : Option String
  version_constraint : Option String
  ty : Option TypeObj
  deriving Repr, DecidableEq

/-- A v1.1.0 python dependency dict. -/
structure PyDepIn where
  pname : Option String
  version_constraint : Option String
  deriving Repr, DecidableEq

/-- The dependency-bearing part of a v1.1.0 package manifest. -/
structure SMeta where
  hatch_dependencies : List SDep
  python_dependencies : List PyDepIn
  deriving Repr, DecidableEq

/-- Filesystem snapshot for the v1.1.0 strategy (manifests in the nested
dependency layout). -/
structure SFS where
  dirs : List String
  metas : List (String × SMeta)
  deriving Repr, DecidableEq

/-- Modelled from the spec: `ValidationContext`
(`core/validation_context.py` is not in `src/`): the registry handle and
policy flags passed explicitly through one validation call (§3), plus the
`pending_update` scratch entry read by graph building. -/
structure VCtx where
  registry : Option Registry
  allowLocal : Bool
  packageDir : Option String
  pendingName : Option String
  deriving Repr, DecidableEq

/-- Python's rendering of `dep.get('name')` inside an f-string: a missing
name prints as `None`. -/
def nameRepr (n : Option String) : String :=
  n.getD "None"

/-- `dep.get('type', {}).get('type') == 'local'`. -/
def sDepIsLocal (d : SDep) : Bool :=
  match d.ty with
  | some t => t.ttype = some "local"
  | none => false

/-- Modelled from the spec: `VersionConstraintValidator.validate_constraint`
(`utils/version_utils.py` is not in `src/`): parse the comma-separated
comparator expression, reporting the raw string on malformed syntax
(§4.2). -/
def vcValidateConstraint (c : String) : Bool × String :=
  match parseSpecSet c with
  | some _ => (true, "")
  | none => (false, c)

/-- Modelled from the spec: `RegistryService.validate_package_exists`
(`registry/registry_service.py` is not in `src/`): delegate to the v1.1.0
accessor's package lookup (§4.3), with a not-found message. -/
def rsValidatePackageExists (r : Registry) (n : String) : Bool × String :=
  if packageExists r n then (true, "")
  else (false, "Package '" ++ n ++ "' not found in registry")

/-- Modelled from the spec: `RegistryService.validate_version_compatibility`:
some listed version satisfies the constraint, via the accessor's
`find_compatible_version` (§4.3). -/
def rsValidateVersionCompatibility (r : Registry) (n c : String) :
    Bool × String :=
  match findCompatibleVersion r n (some c) with
  | some _ => (true, "")
  | none => (false, "no compatible version found")

/-- `_validate_local_dependency` (v1.1.0): uri presence and scheme (no
filesystem access yet), then the directory probe and the manifest-file
probe, each recorded in the ledger. -/
def v11ValidateLocal (fs : SFS) (ctx : VCtx) (dep : SDep) (depName : String) :
    (Bool × List String) × List String :=
  let uri := match dep.ty with
    | some t => t.turi
    | none => none
  if ¬ isTruthy uri then
    ((false, ["Local dependency '" ++ depName ++ "' missing URI"]), [])
  else if ¬ strStartsWith (uri.getD "") "file://" then
    ((false, ["Local dependency '" ++ depName
      ++ "' URI must start with 'file://'"]), [])
  else
    let path := resolveUriPath (uri.getD "") ctx.packageDir
    if ¬ path ∈ fs.dirs then
      ((false, ["Local dependency '" ++ depName
        ++ "' path does not exist: " ++ path]), [path])
    else
      let mp := path ++ "/hatch_metadata.json"
      if (fs.metas.find? (fun m => m.1 = path)).isNone then
        ((false, ["Local dependency '" ++ depName
          ++ "' missing hatch_metadata.json: " ++ mp]), [path, mp])
      else ((true, []), [path, mp])

/-- `_validate_registry_dependency` (v1.1.0): existence, then — only under
a truthy constraint — compatibility. -/
def v11ValidateRegistry (r : Registry) (dep : SDep) (depName : String) :
    Bool × List String :=
  let (ex, exErr) := rsValidatePackageExists r depName
  if ¬ ex then
    (false, ["Registry dependency '" ++ depName ++ "' not found: " ++ exErr])
  else if isTruthy dep.version_constraint then
    let (cp, cpErr) := rsValidateVersionCompatibility r depName
      (dep.version_constraint.getD "")
    if ¬ cp then
      (false, ["No version of '" ++ depName ++ "' satisfies constraint "
        ++ dep.version_constraint.getD "" ++ ": " ++ cpErr])
    else (true, [])
  else (true, [])

/-- `_validate_single_hatch_dependency` (v1.1.0): require a name, check the
constraint syntax, then dispatch on the nested type — local path checks, or
the registry lookup for `remote`/absent, or an unknown-type error. -/
def v11ValidateSingle (fs : SFS) (r : Registry) (ctx : VCtx) (dep : SDep) :
    (Bool × List String) × List String :=
  match dep.sname with
  | none => ((false, ["Hatch dependency missing name"]), [])
  | some depName =>
    if depName = "" then ((false, ["Hatch dependency missing name"]), [])
    else
      let (cOk, cRaw) :=
        if isTruthy dep.version_constraint then
          vcValidateConstraint (dep.version_constraint.getD "")
        else (true, "")
      let cErrs := if cOk then []
        else ["Invalid version constraint for '" ++ depName ++ "': " ++ cRaw]
      let tyName := match dep.ty with
        | some t => t.ttype
        | none => none
      match tyName with
      | some "local" =>
        let ((lOk, lErrs), acc) := v11ValidateLocal fs ctx dep depName
        ((cOk ∧ lOk, cErrs ++ lErrs), acc)
      | some "remote" =>
        let (rOk, rErrs) := v11ValidateRegistry r dep depName
        ((cOk ∧ rOk, cErrs ++ rErrs), [])
      | none =>
        let (rOk, rErrs) := v11ValidateRegistry r dep depName
        ((cOk ∧ rOk, cErrs ++ rErrs), [])
      | some other =>
        ((false, cErrs ++ ["Unknown dependency type for '" ++ depName
          ++ "': " ++ other]), [])

mutual

/-- `_add_local_dependency_graph` (v1.1.0), fuelled: probe the manifest
file; when present, add one edge per named child and recurse into the
children whose nested type is local.  The recursion consults no processed
set, so cyclic local manifests exhaust every fuel (`none`); the Python
original recurses until the interpreter's recursion limit fires (the
resulting caught `RecursionError` is not modelled). -/
def v11AddLocalGraph (fs : SFS) (ctx : VCtx) :
    Nat → SDep → Graph → Option (Graph × List String)
  | 0, _, _ => none
  | Nat.succ f, dep, g =>
    let depName := nameRepr dep.sname
    let uri := match dep.ty with
      | some t => t.turi
      | none => none
    if ¬ (isTruthy uri ∧ strStartsWith (uri.getD "") "file://") then
      some (g, [])
    else
      let path := resolveUriPath (uri.getD "") ctx.packageDir
      let mp := path ++ "/hatch_metadata.json"
      match fs.metas.find? (fun m => m.1 = path) with
      | none => some (g, [mp])
      | some pm =>
        (v11AddLocalChildren fs ctx f depName pm.2.hatch_dependencies g).map
          (fun r => (r.1, mp :: r.2))
termination_by fuel _ _ => (fuel, 0)

/-- The `for local_dep in local_hatch_deps:` loop of
`_add_local_dependency_graph` (v1.1.0). -/
def v11AddLocalChildren (fs : SFS) (ctx : VCtx) :
    Nat → String → List SDep → Graph → Option (Graph × List String)
  | _, _, [], g => some (g, [])
  | f, parent, c :: cs, g =>
    if isTruthy c.sname then
      let g₁ := addDependency g parent (c.sname.getD "")
      if sDepIsLocal c then
        match v11AddLocalGraph fs ctx f c g₁ with
        | none => none
        | some (g₂, acc) =>
          (v11AddLocalChildren fs ctx f parent cs g₂).map
            (fun r => (r.1, acc ++ r.2))
      else v11AddLocalChildren fs ctx f parent cs g₁
    else v11AddLocalChildren fs ctx f parent cs g
termination_by f _ cs _ => (f, cs.length + 1)

end

/-- A registry-reconstructed dependency dict re-read as a v1.1.0 strategy
dict: the wire format carries no nested type object, so the child is
treated as remote. -/
def rdepAsSDep (d : RDep) : SDep :=
  ⟨some d.name, d.version_constraint, none⟩

mutual

/-- `_add_remote_dependency_graph` (v1.1.0), fuelled: skip nameless or
already-processed names, mark the name processed, find a compatible version
and the reconstructed record through the registry service, then add one
edge per named child and recurse — local children through the local walk,
others here, sharing the processed set.  Every failure inside is caught and
logged, a no-op. -/
def v11AddRemoteGraph (fs : SFS) (ctx : VCtx) (r : Registry) :
    Nat → SDep → Graph → List String → Option (Graph × List String × List String)
  | 0, _, _, _ => none
  | Nat.succ f, dep, g, processed =>
    if ¬ isTruthy dep.sname ∨ dep.sname.getD "" ∈ processed then
      some (g, processed, [])
    else
      let depName := dep.sname.getD ""
      let processed' := processed ++ [depName]
      match findCompatibleVersion r depName dep.version_constraint with
      | none => some (g, processed', [])
      | some cv =>
        match getPackageDependenciesRC r depName (some cv) with
        | none => none
        | some none => some (g, processed', [])
        | some (some md) =>
          v11AddRemoteChildren fs ctx r f depName
            (md.hatch_dependencies.map rdepAsSDep) g processed'
termination_by fuel _ _ _ => (fuel, 0)

/-- The `for remote_dep in remote_hatch_deps:` loop of
`_add_remote_dependency_graph` (v1.1.0). -/
def v11AddRemoteChildren (fs : SFS) (ctx : VCtx) (r : Registry) :
    Nat → String → List SDep → Graph → List String →
    Option (Graph × List String × List String)
  | _, _, [], g, processed => some (g, processed, [])
  | f, parent, c :: cs, g, processed =>
    if isTruthy c.sname then
      let cn := c.sname.getD ""
      let g₁ := addDependency g parent cn
      if cn ∉ processed then
        if sDepIsLocal c then
          match v11AddLocalGraph fs ctx f c g₁ with
          | none => none
          | some (g₂, acc) =>
            (v11AddRemoteChildren fs ctx r f parent cs g₂ processed).map
              (fun t => (t.1, t.2.1, acc ++ t.2.2))
        else
          match v11AddRemoteGraph fs ctx r f c g₁ processed with
          | none => none
          | some (g₂, processed₂, acc) =>
            (v11AddRemoteChildren fs ctx r f parent cs g₂ processed₂).map
              (fun t => (t.1, t.2.1, acc ++ t.2.2))
      else v11AddRemoteChildren fs ctx r f parent cs g₁ processed
    else v11AddRemoteChildren fs ctx r f parent cs g processed
termination_by f _ cs _ _ => (f, cs.length + 1)

end

/-- `_build_dependency_graph` (v1.1.0): current package from the
pending-update entry (default `current_package`), one edge per named
declaration, then the local or remote transitive walk, the processed set
shared across the remote walks. -/
def v11BuildGraph (fs : SFS) (ctx : VCtx) (r : Registry) (fuel : Nat)
    (deps : List SDep) : Option (Graph × List String) :=
  let pkgName := ctx.pendingName.getD "current_package"
  let g₀ := addPackage ⟨[]⟩ pkgName
  deps.foldl
    (fun acc dep =>
      match acc with
      | none => none
      | some (g, processed, accs) =>
        if isTruthy dep.sname then
          let g₁ := addDependency g pkgName (dep.sname.getD "")
          if sDepIsLocal dep then
            match v11AddLocalGraph fs ctx fuel dep g₁ with
            | none => none
            | some (g₂, acc₂) => some (g₂, processed, accs ++ acc₂)
          else
            match v11AddRemoteGraph fs ctx r fuel dep g₁ processed with
            | none => none
            | some (g₂, processed₂, acc₂) =>
              some (g₂, processed₂, accs ++ acc₂)
        else some (g, processed, accs))
    (some (g₀, [], []))
  |>.map (fun t => (t.1, t.2.2))

/-- Cycle errors as formatted by both strategies:
one `Circular dependency detected: A -> B -> A` line per cycle. -/
def cycleErrors (cycles : List (List String)) : List String :=
  cycles.map (fun c => "Circular dependency detected: "
    ++ String.intercalate " -> " c)

/-- `_validate_hatch_dependencies` (v1.1.0): validate each declaration,
then build the transitive graph and report each detected cycle. -/
def v11ValidateHatch (fs : SFS) (ctx : VCtx) (r : Registry) (fuel : Nat)
    (deps : List SDep) : Option ((Bool × List String) × List String) :=
  let step1 := deps.foldl
    (fun (acc : (Bool × List String) × List String) dep =>
      let ((ok, errs), a) := v11ValidateSingle fs r ctx dep
      ((acc.1.1 ∧ ok, acc.1.2 ++ if ok then [] else errs), acc.2 ++ a))
    ((true, []), [])
  match v11BuildGraph fs ctx r fuel deps with
  | none => none
  | some (g, acc₂) =>
    let (hasC, cycles) := detectCycles g
    some ((step1.1.1 ∧ ¬ hasC,
      step1.1.2 ++ if hasC then cycleErrors cycles else []),
      step1.2 ++ acc₂)

/-- `_validate_python_dependencies` (v1.1.0): name presence and constraint
syntax only. -/
def v11ValidatePython (deps : List PyDepIn) : Bool × List String :=
  deps.foldl
    (fun (acc : Bool × List String) dep =>
      if ¬ isTruthy dep.pname then
        (false, acc.2 ++ ["Python dependency missing name"])
      else if isTruthy dep.version_constraint then
        let (cOk, cRaw) := vcValidateConstraint (dep.version_constraint.getD "")
        if ¬ cOk then
          (false, acc.2 ++ ["Invalid version constraint for Python dependency '"
            ++ dep.pname.getD "" ++ "': " ++ cRaw])
        else acc
      else acc)
    (true, [])

/-- `validate_dependencies` (v1.1.0 strategy): missing registry data fails
at once; with local dependencies disallowed, any local-typed declaration
fails at once, one error per local declaration, before anything else runs;
otherwise the hatch pipeline (per-declaration checks, graph, cycles), then
the python checks, all errors accumulated.  The second component is the
ledger of filesystem paths the call probed. -/
def v11ValidateDependencies (fs : SFS) (ctx : VCtx) (fuel : Nat)
    (meta : SMeta) : Option ((Bool × List String) × List String) :=
  match ctx.registry with
  | none =>
    some ((false, ["No registry data available for dependency validation"]), [])
  | some r =>
    let hatch := meta.hatch_dependencies
    let locals := hatch.filter sDepIsLocal
    if ¬ ctx.allowLocal ∧ ¬ locals.isEmpty then
      some ((false, locals.map (fun d =>
        "Local dependency '" ++ nameRepr d.sname
          ++ "' not allowed in this context")), [])
    else
      let hatchPart :=
        if ¬ hatch.isEmpty then v11ValidateHatch fs ctx r fuel hatch
        else some ((true, []), [])
      match hatchPart with
      | none => none
      | some ((hOk, hErrs), hAcc) =>
        let pys := meta.python_dependencies
        let (pOk, pErrs) :=
          if ¬ pys.isEmpty then v11ValidatePython pys else (true, [])
        some ((hOk ∧ pOk, hErrs ++ pErrs), hAcc)


/-! ### The v1.2.0 dependency validation strategy
(`package/v1_2_0/dependency_validation.py`)

Dependencies live in a unified `dependencies.hatch` array and local-ness is
inferred from a path-like name (`/`, `\\` or `.`).  The same
filesystem-access ledger convention applies. -/

/-- A v1.2.0 hatch dependency dict (registry-reconstructed children may
carry a nested type object). -/
structure V12Dep where
  name : Option String
  version_constraint : Option String
  ty : Option TypeObj
  deriving Repr, DecidableEq

/-- The dependency-bearing part of a v1.2.0 manifest:
`dependencies.hatch`. -/
structure V12Meta where
  hatch : List V12Dep
  deriving Repr, DecidableEq

/-- Filesystem snapshot for the v1.2.0 strategy. -/
structure V12FS where
  dirs : List String
  metas : List (String × V12Meta)
  deriving Repr, DecidableEq

/-- `_is_path_like(name)`: the name contains a path separator or a dot. -/
def isPathLike (n : String) : Bool :=
  n.toList.any (fun ch => ch = '/' ∨ ch = '\\' ∨ ch = '.')

/-- `_parse_hatch_dep_name`: split a `repository:package` qualifier at the
first colon. -/
def parseHatchDepName (n : String) : Option String × String :=
  if n.data.any (fun ch => ch = ':') then
    (some ⟨n.data.takeWhile (fun ch => ¬ ch = ':')⟩,
     ⟨(n.data.dropWhile (fun ch => ¬ ch = ':')).tail⟩)
  else (none, n)

/-- Resolve a bare path-like name against the package directory. -/
def resolvePlainPath (p : String) (baseDir : Option String) : String :=
  if strStartsWith p "/" then p
  else match baseDir with
    | some bd => bd ++ "/" ++ p
    | none => p

/-- Modelled from the spec: `RegistryService.repository_exists`
(`registry/registry_service.py` is not in `src/`; §4.4 requires a qualified
dependency's repository to exist). -/
def rsRepositoryExists (r : Registry) (repo : String) : Bool :=
  r.repositories.any (fun rp => rp.name = repo)

/-- Modelled from the spec: `RegistryService.package_exists` with a
`repo_name` qualifier: the package must exist inside that repository. -/
def rsPackageExistsIn (r : Registry) (pkg repo : String) : Bool :=
  match r.repositories.find? (fun rp => rp.name = repo) with
  | some rp => rp.packages.any (fun p => p.name = pkg)
  | none => false

/-- `_validate_local_dependency` (v1.2.0): resolve the path-like name,
require an existing directory (a missing or non-directory path gets the one
`path is not a directory` message) and a manifest file; ledger entries per
probe. -/
def v12ValidateLocal (fs : V12FS) (ctx : VCtx) (depName : String) :
    (Bool × List String) × List String :=
  let path := resolvePlainPath depName ctx.packageDir
  if ¬ path ∈ fs.dirs then
    ((false, ["Local dependency '" ++ depName
      ++ "' path is not a directory: " ++ path]), [path])
  else
    let mp := path ++ "/hatch_metadata.json"
    if (fs.metas.find? (fun m => m.1 = path)).isNone then
      ((false, ["Local dependency '" ++ depName
        ++ "' missing hatch_metadata.json: " ++ mp]), [path, mp])
    else ((true, []), [path, mp])

/-- `_validate_registry_dependency` (v1.2.0): repository and package
existence (qualified or not), then — under a truthy constraint —
compatibility, queried with the full (possibly qualified) name as the
source does. -/
def v12ValidateRegistry (r : Registry) (dep : V12Dep) (depName : String) :
    Bool × List String :=
  let (repo?, pkg) := parseHatchDepName depName
  let exPart : Option (List String) :=
    match repo? with
    | some repo =>
      if ¬ rsRepositoryExists r repo then
        some ["Repository '" ++ repo ++ "' not found in registry for dependency '"
          ++ depName ++ "'"]
      else if ¬ rsPackageExistsIn r pkg repo then
        some ["Package '" ++ pkg ++ "' not found in repository '" ++ repo
          ++ "' for dependency '" ++ depName ++ "'"]
      else none
    | none =>
      if ¬ packageExists r pkg then
        some ["Registry dependency '" ++ pkg
          ++ "' not found in registry for dependency '" ++ depName ++ "'"]
      else none
  match exPart with
  | some errs => (false, errs)
  | none =>
    if isTruthy dep.version_constraint then
      let (cp, cpErr) := rsValidateVersionCompatibility r depName
        (dep.version_constraint.getD "")
      if ¬ cp then
        (false, ["No version of '" ++ depName ++ "' satisfies constraint "
          ++ dep.version_constraint.getD "" ++ ": " ++ cpErr])
      else (true, [])
    else (true, [])

/-- `_validate_single_hatch_dependency` (v1.2.0): require a name, check the
constraint syntax, then: a path-like name with local dependencies
disallowed fails at once with the `not allowed` error and no filesystem
access; a path-like name otherwise goes through the local path checks; any
other name through the registry checks. -/
def v12ValidateSingle (fs : V12FS) (r : Registry) (ctx : VCtx)
    (dep : V12Dep) : (Bool × List String) × List String :=
  if ¬ isTruthy dep.name then
    ((false, ["Hatch dependency missing name"]), [])
  else
    let depName := dep.name.getD ""
    let (cOk, cRaw) :=
      if isTruthy dep.version_constraint then
        vcValidateConstraint (dep.version_constraint.getD "")
      else (true, "")
    let cErrs := if cOk then []
      else ["Invalid version constraint for '" ++ depName ++ "': " ++ cRaw]
    if isPathLike depName then
      if ¬ ctx.allowLocal then
        ((false, cErrs ++ ["Local dependency '" ++ depName
          ++ "' not allowed in this context"]), [])
      else
        let ((lOk, lErrs), acc) := v12ValidateLocal fs ctx depName
        ((cOk ∧ lOk, cErrs ++ lErrs), acc)
    else
      let (rOk, rErrs) := v12ValidateRegistry r dep depName
      ((cOk ∧ rOk, cErrs ++ rErrs), [])

/-- `_add_local_dependency_graph` (v1.2.0): probe the manifest; when it
exists, the loop over its hatch children calls the undefined
`_infer_dependency_type` on the first named child — an `AttributeError`
re-raised as a `ValidationError` (`Except.error`, the graph mutations
discarded with the raise); a manifest with no named children returns
quietly, as does a missing manifest (`metadata_path.exists()` false). -/
def v12AddLocalGraph (fs : V12FS) (ctx : VCtx) (dep : V12Dep) (g : Graph) :
    Except String (Graph × List String) :=
  let depName := nameRepr dep.name
  let path := resolvePlainPath depName ctx.packageDir
  let mp := path ++ "/hatch_metadata.json"
  match fs.metas.find? (fun m => m.1 = path) with
  | none => Except.ok (g, [mp])
  | some pm =>
    match pm.2.hatch.find? (fun c => isTruthy c.name) with
    | none => Except.ok (g, [mp])
    | some _ =>
      Except.error ("Could not load metadata for local dependency '"
        ++ depName ++ "'")

mutual

/-- `_add_remote_dependency_graph` (v1.2.0), fuelled: as the v1.1.0 walk,
but raising (`Except.error`) instead of silently skipping when no
compatible version or no registry record is found. -/
def v12AddRemoteGraph (fs : V12FS) (ctx : VCtx) (r : Registry) :
    Nat → V12Dep → Graph → List String →
    Option (Except String (Graph × List String × List String))
  | 0, _, _, _ => none
  | Nat.succ f, dep, g, processed =>
    if ¬ isTruthy dep.name ∨ dep.name.getD "" ∈ processed then
      some (Except.ok (g, processed, []))
    else
      let depName := dep.name.getD ""
      let processed' := processed ++ [depName]
      match findCompatibleVersion r depName dep.version_constraint with
      | none =>
        some (Except.error ("Error processing remote dependency '" ++ depName
          ++ "': No compatible version found for remote dependency '"
          ++ depName ++ "'"))
      | some cv =>
        match getPackageDependenciesRC r depName (some cv) with
        | none => none
        | some none => some (Except.ok (g, processed', []))
        | some (some md) =>
          v12AddRemoteChildren fs ctx r f depName
            (md.hatch_dependencies.map (fun d =>
              (⟨some d.name, d.version_constraint, none⟩ : V12Dep)))
            g processed'
termination_by fuel _ _ _ => (fuel, 0)

/-- The child loop of `_add_remote_dependency_graph` (v1.2.0). -/
def v12AddRemoteChildren (fs : V12FS) (ctx : VCtx) (r : Registry) :
    Nat → String → List V12Dep → Graph → List String →
    Option (Except String (Graph × List String × List String))
  | _, _, [], g, processed => some (Except.ok (g, processed, []))
  | f, parent, c :: cs, g, processed =>
    if isTruthy c.name then
      let cn := c.name.getD ""
      let g₁ := addDependency g parent cn
      if cn ∉ processed then
        if (match c.ty with
            | some t => decide (t.ttype = some "local")
            | none => false) then
          match v12AddLocalGraph fs ctx c g₁ with
          | Except.error e => some (Except.error e)
          | Except.ok (g₂, acc) =>
            (v12AddRemoteChildren fs ctx r f parent cs g₂ processed).map
              (fun res => res.map (fun t => (t.1, t.2.1, acc ++ t.2.2)))
        else
          match v12AddRemoteGraph fs ctx r f c g₁ processed with
          | none => none
          | some (Except.error e) => some (Except.error e)
          | some (Except.ok (g₂, processed₂, acc)) =>
            (v12AddRemoteChildren fs ctx r f parent cs g₂ processed₂).map
              (fun res => res.map (fun t => (t.1, t.2.1, acc ++ t.2.2)))
      else v12AddRemoteChildren fs ctx r f parent cs g₁ processed
    else v12AddRemoteChildren fs ctx r f parent cs g processed
termination_by f _ cs _ _ => (f, cs.length + 1)

end

/-- `_build_dependency_graph` (v1.2.0): as the v1.1.0 build, but
dispatching on a path-like name, and wrapping any raise in the
`Error building dependency graph` message. -/
def v12BuildGraph (fs : V12FS) (ctx : VCtx) (r : Registry) (fuel : Nat)
    (deps : List V12Dep) :
    Option (Except String (Graph × List String)) :=
  let pkgName := ctx.pendingName.getD "current_package"
  let g₀ := addPackage ⟨[]⟩ pkgName
  (deps.foldl
    (fun acc dep =>
      match acc with
      | none => none
      | some (Except.error e) => some (Except.error e)
      | some (Except.ok (g, processed, accs)) =>
        if isTruthy dep.name then
          let g₁ := addDependency g pkgName (dep.name.getD "")
          if isPathLike (dep.name.getD "") then
            match v12AddLocalGraph fs ctx dep g₁ with
            | Except.error e => some (Except.error e)
            | Except.ok (g₂, acc₂) =>
              some (Except.ok (g₂, processed, accs ++ acc₂))
          else
            match v12AddRemoteGraph fs ctx r fuel dep g₁ processed with
            | none => none
            | some (Except.error e) => some (Except.error e)
            | some (Except.ok (g₂, processed₂, acc₂)) =>
              some (Except.ok (g₂, processed₂, accs ++ acc₂))
        else some (Except.ok (g, processed, accs)))
    (some (Except.ok (g₀, [], []))))
  |>.map (fun res =>
    match res with
    | Except.error e =>
      Except.error ("Error building dependency graph: " ++ e)
    | Except.ok t => Except.ok (t.1, t.2.2))

/-- `_validate_hatch_dependencies` (v1.2.0): validate each declaration,
then build the graph — a raise becomes one
`Error analyzing dependency graph` entry — and report each cycle. -/
def v12ValidateHatch (fs : V12FS) (ctx : VCtx) (r : Registry) (fuel : Nat)
    (deps : List V12Dep) : Option ((Bool × List String) × List String) :=
  let step1 := deps.foldl
    (fun (acc : (Bool × List String) × List String) dep =>
      let ((ok, errs), a) := v12ValidateSingle fs r ctx dep
      ((acc.1.1 ∧ ok, acc.1.2 ++ if ok then [] else errs), acc.2 ++ a))
    ((true, []), [])
  match v12BuildGraph fs ctx r fuel deps with
  | none => none
  | some (Except.error e) =>
    some ((false, step1.1.2 ++ ["Error analyzing dependency graph: " ++ e]),
      step1.2)
  | some (Except.ok (g, acc₂)) =>
    let (hasC, cycles) := detectCycles g
    some ((step1.1.1 ∧ ¬ hasC,
      step1.1.2 ++ if hasC then cycleErrors cycles else []),
      step1.2 ++ acc₂)

/-- `validate_dependencies` (v1.2.0 strategy): the missing-registry raise
is modelled with the message its handler means to produce (the handler
itself reads variables bound only later — a slip not modelled); otherwise
the hatch pipeline runs when `dependencies.hatch` is nonempty. -/
def v12ValidateDependencies (fs : V12FS) (ctx : VCtx) (fuel : Nat)
    (meta : V12Meta) : Option ((Bool × List String) × List String) :=
  match ctx.registry with
  | none =>
    some ((false, ["Error during dependency validation: No registry data available for dependency validation"]), [])
  | some r =>
    if ¬ meta.hatch.isEmpty then v12ValidateHatch fs ctx r fuel meta.hatch
    else some ((true, []), [])


/-! ### Concrete instances used by the theorems below -/

/-- Shorthand: a version entry carrying only hatch diffs. -/
def mkEntry (v : String) (b : Option String) (added : List RDep)
    (removed : List String) : VersionEntry :=
  ⟨v, b, added, removed, [], [], [], [], []⟩

/-- The spec's worked chain: `v1` adds `D1`, `v2` (base `v1`) adds `D2`,
`v3` (base `v2`) removes `D1`. -/
def chainPkg : Package :=
  ⟨"pkg", some "3.0.0",
    [mkEntry "1.0.0" none [⟨"D1", some ">=1.0", none⟩] [],
     mkEntry "2.0.0" (some "1.0.0") [⟨"D2", none, none⟩] [],
     mkEntry "3.0.0" (some "2.0.0") [] ["D1"]]⟩

/-- A registry holding `chainPkg`. -/
def chainReg : Registry := ⟨[⟨"main", [chainPkg]⟩]⟩

/-- A package whose `v2` re-adds a name already added by `v1`. -/
def dupAddPkg : Package :=
  ⟨"pkg", none,
    [mkEntry "1.0.0" none [⟨"D1", some "c1", none⟩] [],
     mkEntry "2.0.0" (some "1.0.0") [⟨"D1", some "c2", none⟩] []]⟩

/-- The second (re-adding) entry of `dupAddPkg`. -/
def dupAddV2 : VersionEntry :=
  mkEntry "2.0.0" (some "1.0.0") [⟨"D1", some "c2", none⟩] []

/-- A package whose single entry names an absent base version. -/
def missingBasePkg : Package :=
  ⟨"pkg", none, [mkEntry "2.0.0" (some "1.0.0") [⟨"D2", none, none⟩] []]⟩

/-- A registry holding `missingBasePkg`. -/
def missingBaseReg : Registry := ⟨[⟨"main", [missingBasePkg]⟩]⟩

/-- A package listing `1.0.0`, `1.2.0`, `2.0.0` with no latest marker. -/
def threeVerPkg : Package :=
  ⟨"p", none,
    [mkEntry "1.0.0" none [] [], mkEntry "1.2.0" none [] [],
     mkEntry "2.0.0" none [] []]⟩

/-- A registry holding `threeVerPkg`. -/
def threeVerReg : Registry := ⟨[⟨"main", [threeVerPkg]⟩]⟩

/-- A package listing `2.0.0` before `1.0.0`, with no latest marker. -/
def descVerPkg : Package :=
  ⟨"p", none, [mkEntry "2.0.0" none [] [], mkEntry "1.0.0" none [] []]⟩

/-- A registry holding `descVerPkg`. -/
def descVerReg : Registry := ⟨[⟨"main", [descVerPkg]⟩]⟩

/-- Hook outcomes where the schema and dependency hooks pass, the
entry-point hook fails with `E`, and the tools hook would fail with `T`. -/
def entryFailHooks : HookRuns :=
  ⟨(true, []), (true, []), (false, ["E"]), (false, ["T"])⟩

/-- v1.2.0 context of the frame counterexample: registry supplied, local
dependencies disallowed, package directory `/p`. -/
def v12Ctx : VCtx := ⟨some ⟨[]⟩, false, some "/p", none⟩

/-- Empty filesystem for the v1.2.0 frame counterexample. -/
def v12Fs : V12FS := ⟨[], []⟩

/-- v1.2.0 metadata declaring one path-like dependency. -/
def v12Meta1 : V12Meta := ⟨[⟨some "loc/pkgA", none, none⟩]⟩

/-- Two local manifests pointing at each other: `/a` declares a local
dependency on `/b` and conversely. -/
def cycFS : SFS :=
  ⟨["/a", "/b"],
    [("/a", ⟨[⟨some "B", none, some ⟨some "local", some "file:///b"⟩⟩], []⟩),
     ("/b", ⟨[⟨some "A", none, some ⟨some "local", some "file:///a"⟩⟩], []⟩)]⟩

/-- The declaration entering the cyclic local pair at `/a`. -/
def cycDep : SDep := ⟨some "A", none, some ⟨some "local", some "file:///a"⟩⟩

/-- Context for the cyclic-local run: registry supplied, locals allowed. -/
def cycCtx : VCtx := ⟨some ⟨[]⟩, true, none, none⟩

/-- The v1.1.0 local graph walk diverges on this input: every fuel is
exhausted (the Python recursion exceeds every finite depth). -/
def V11LocalDiverges (fs : SFS) (ctx : VCtx) (dep : SDep) : Prop :=
  ∀ fuel g, v11AddLocalGraph fs ctx fuel dep g = none


/-- The constraint-satisfying candidates among a package's listed versions
(those that parse and meet every comparator). -/
def satisfyingVersions (reg : Registry) (pname : String)
    (specs : List (VOp × List Nat)) : List String :=
  (getPackageVersions reg pname).filter
    (fun v => match parseVersion v with
      | some pv => specs.all (specHolds pv)
      | none => false)

/-- White-node count of a DFS state over the package universe: the measure
showing `dfsFuel` suffices. -/
def whiteCount (g : Graph) (s : DfsState) : Nat :=
  ((getAllPackages g).filter (fun p => colorOf s p = 0)).length

/-- Well-formedness of a DFS state: the path lists exactly the gray nodes,
without repetition, consecutive path entries are edges, `fin` lists exactly
the black nodes, and every colour is one of white/gray/black. -/
def DfsInv (g : Graph) (s : DfsState) : Prop :=
  s.path.Nodup ∧
  (∀ n, colorOf s n = 1 ↔ n ∈ s.path) ∧
  (∀ n, colorOf s n = 2 ↔ n ∈ s.fin) ∧
  s.fin.Nodup ∧
  List.Chain' (Step g) s.path ∧
  (∀ n, colorOf s n = 0 ∨ colorOf s n = 1 ∨ colorOf s n = 2)

/-- Edge-respecting blackening order: every edge source is blackened after
its target (this holds along any run that records no cycle). -/
def FinInv (g : Graph) (s : DfsState) : Prop :=
  ∀ a ∈ s.fin, ∀ b, Step g a b →
    b ∈ s.fin ∧ s.fin.indexOf b < s.fin.indexOf a

/-- Occurrences of `n` among the direct dependencies of `a`. -/
def cntE (g : Graph) (a n : String) : Nat :=
  (adjGet g a).count n

/-- The initial in-degree of `n`: one per occurrence as an edge target, as
`topological_sort` counts it. -/
def indeg0 (g : Graph) (n : String) : Int :=
  (g.adj.map (fun p => ((p.2.count n : Nat) : Int))).sum

/-- The in-degree mass already removed by the popped nodes. -/
def poppedSum (g : Graph) (res : List String) (n : String) : Int :=
  (res.map (fun a => ((cntE g a n : Nat) : Int))).sum

/-- The loop invariant of Kahn's algorithm as `topological_sort` runs it. -/
def KInv (g : Graph) (queue : List String) (deg : List (String × Int))
    (result : List String) : Prop :=
  (deg.map Prod.fst).Nodup ∧
  (∀ n, n ∈ deg.map Prod.fst ↔ n ∈ getAllPackages g) ∧
  (∀ n ∈ getAllPackages g,
    dictGetD deg n 0 = indeg0 g n - poppedSum g result n) ∧
  result.Nodup ∧ queue.Nodup ∧
  (∀ n ∈ queue, n ∉ result) ∧
  (∀ n ∈ queue, n ∈ getAllPackages g) ∧
  (∀ n ∈ result, n ∈ getAllPackages g) ∧
  (∀ n ∈ getAllPackages g, dictGetD deg n 0 ≤ 0 →
    n ∈ result ∨ n ∈ queue) ∧
  (∀ n, (n ∈ result ∨ n ∈ queue) → indeg0 g n ≤ poppedSum g result n) ∧
  (∀ (r₁ r₂ : List String) (b : String), result = r₁ ++ b :: r₂ →
    ∀ a, Step g a b → a ∈ r₁)

/-! ## Theorems -/

/-- Helper: a fold preserves an invariant preserved by each step. -/
theorem foldl_preserve {α β : Type} {P : α → Prop} (f : α → β → α)
    (l : List β) (a : α) (h : ∀ x y, P x → P (f x y)) (ha : P a) :
    P (l.foldl f a) := by
  induction l generalizing a with
  | nil => exact ha
  | cons b bs ih => exact ih _ (h _ _ ha)

/-- C9. A schema version matched by no validator in the chain is rejected
with exactly the one unsupported-version error, whatever the hook outcomes
would have been (so no hook is invoked). -/
theorem unsupported_version_rejected (v : String) (pd : Bool) (h : HookRuns)
    (hv : ¬ v = "1.1.0") :
    chainValidate v pd h = (false, ["Unsupported schema version: " ++ v]) := by
  simp [chainValidate, v110Validate, hv]

/-- Witness for C9 at schema version `9.9.9`. -/
theorem unsupported_version_rejected_witness :
    chainValidate "9.9.9" true ⟨(true, []), (true, []), (true, []), (true, [])⟩
      = (false, ["Unsupported schema version: 9.9.9"]) :=
  unsupported_version_rejected "9.9.9" true _ (by decide)

/-- C6 counterexample. With the schema hook passing, a package directory
present, the entry-point hook failing with `E` and the tools hook reporting
`T`, validation returns only `E`: the tools hook's outcome is dropped (it is
not even invoked), refuting "the dependencies, entry_point, and tools hooks
all run independently and all of their errors are accumulated". -/
theorem hooks_not_independent :
    chainValidate "1.1.0" true entryFailHooks = (false, ["E"]) ∧
      "T" ∉ (chainValidate "1.1.0" true entryFailHooks).2 := by
  constructor
  · rfl
  · decide

/-- C6 amended. A failing schema check short-circuits with exactly the
schema errors (no other hook touched); when it passes, the dependency hook
always contributes, the entry-point hook only when a package directory is
present, and the tools hook only when the entry-point hook succeeded, the
errors of the hooks that ran accumulating in order. -/
theorem validate_hook_flow (pd : Bool) (h : HookRuns) :
    (¬ h.schemaRun.1 → v110ValidateBody pd h = (false, h.schemaRun.2)) ∧
    (h.schemaRun.1 →
      v110ValidateBody pd h =
        ((h.depsRun.1 && (!pd || (h.entryRun.1 && h.toolsRun.1))),
         (if h.depsRun.1 then [] else h.depsRun.2) ++
           (if pd then
              (if h.entryRun.1 then
                 (if h.toolsRun.1 then [] else h.toolsRun.2)
               else h.entryRun.2)
            else []))) := by
  obtain ⟨⟨sv, se⟩, ⟨dv, de⟩, ⟨ev, ee⟩, ⟨tv, te⟩⟩ := h
  cases sv <;> cases dv <;> cases ev <;> cases tv <;> cases pd <;>
    simp [v110ValidateBody]

/-- Witness for C6 amended: the gating at concrete hook outcomes. -/
theorem validate_hook_flow_witness :
    v110ValidateBody true entryFailHooks = (false, ["E"]) := by
  have h := (validate_hook_flow true entryFailHooks).2 (by decide)
  simpa [entryFailHooks] using h


/-- Keys of a dict after assignment: unchanged when the key was present,
extended by the key otherwise. -/
theorem dictSet_keys {α : Type} (d : List (String × α)) (k : String) (v : α) :
    (dictSet d k v).map Prod.fst =
      if d.any (fun p => p.1 = k) then d.map Prod.fst
      else d.map Prod.fst ++ [k] := by
  unfold dictSet
  by_cases h : d.any (fun p => p.1 = k)
  · simp only [h, if_true, List.map_map]
    apply List.map_congr_left
    intro p _
    by_cases hp : p.1 = k
    · simp [hp]
    · simp [hp]
  · simp [h]

/-- Assignment preserves key uniqueness. -/
theorem dictSet_keys_nodup {α : Type} {d : List (String × α)} {k : String}
    {v : α} (h : (d.map Prod.fst).Nodup) :
    ((dictSet d k v).map Prod.fst).Nodup := by
  rw [dictSet_keys]
  by_cases hm : d.any (fun p => p.1 = k)
  · simpa [hm] using h
  · have hk : k ∉ d.map Prod.fst := by
      simp only [List.any_eq_true, decide_eq_true_eq] at hm
      simp only [List.mem_map]
      rintro ⟨p, hp, rfl⟩
      exact hm ⟨p, hp, rfl⟩
    simp [hm, List.nodup_append, h, hk]

/-- Deletion preserves key uniqueness. -/
theorem dictDel_keys_nodup {α : Type} {d : List (String × α)} {k : String}
    (h : (d.map Prod.fst).Nodup) :
    ((dictDel d k).map Prod.fst).Nodup := by
  exact List.Nodup.sublist (List.Sublist.map _ (List.filter_sublist d)) h

/-- Replaying one version entry preserves uniqueness of the hatch
dependency names. -/
theorem applyEntry_keys_nodup {st : ReconState} {ver : VersionEntry}
    (h : (st.dependencies.map Prod.fst).Nodup) :
    ((applyEntry st ver).dependencies.map Prod.fst).Nodup := by
  unfold applyEntry
  simp only
  apply foldl_preserve
    (P := fun d : List (String × String) => (d.map Prod.fst).Nodup)
  · intro x y hx
    by_cases hm : dictMem x y.name
    · simpa [hm] using dictSet_keys_nodup hx
    · simpa [hm] using hx
  · apply foldl_preserve
      (P := fun d : List (String × String) => (d.map Prod.fst).Nodup)
    · intro x y hx
      by_cases hm : dictMem x y
      · simpa [hm] using dictDel_keys_nodup hx
      · simpa [hm] using hx
    · apply foldl_preserve
        (P := fun d : List (String × String) => (d.map Prod.fst).Nodup)
      · intro x y hx
        exact dictSet_keys_nodup hx
      · exact h

/-- C1 counterexample. In the accessor's reconstruction
(`_reconstruct_package_version`), an entry re-adding a name already present
appends a second dict of that name: reconstructing `dupAddPkg` at its
second version yields two dependencies both named `D1`, refuting
"added dependencies are inserted/overwritten by name" and "the returned
record never contains two dependencies with the same name". -/
theorem reconstruct_duplicate_names :
    (reconstructPackageVersion dupAddPkg dupAddV2).map
        (fun m => m.hatch_dependencies.map RDep.name) = some ["D1", "D1"] ∧
      ¬ (["D1", "D1"] : List String).Nodup := by
  constructor
  · rfl
  · decide

/-- C1 amended. In the resolver's reconstruction
(`_reconstruct_dependencies`) the replay is dict-based exactly as the claim
states: the returned record never holds two dependencies of one name, a
modification naming an absent dependency is a no-op, and the worked chain
`v1(adds D1) → v2(base v1, adds D2) → v3(base v2, removes D1)` reconstructs
to exactly `{D2}`; the accessor's list-based reconstruction agrees on that
chain (its divergence is the duplicate-append of the counterexample). -/
theorem reconstruct_replay_semantics :
    (∀ chain : List VersionEntry,
      ((reconstructDependencies chain).dependencies.map Prod.fst).Nodup) ∧
    (∀ (st : ReconState) (v : String) (b : Option String) (dep : RDep),
      dictMem st.dependencies dep.name = false →
      applyEntry st ⟨v, b, [], [], [dep], [], [], [], []⟩ = st) ∧
    getFullPackageDependencies (some chainReg) "pkg" "3.0.0" =
      some ⟨[("D2", "")], [], []⟩ ∧
    (reconstructPackageVersion chainPkg
        (mkEntry "3.0.0" (some "2.0.0") [] ["D1"])).map
      (fun m => m.hatch_dependencies.map RDep.name) = some ["D2"] := by
  refine ⟨?_, ?_, rfl, rfl⟩
  · intro chain
    unfold reconstructDependencies
    simp only
    have : ∀ st : ReconState, (st.dependencies.map Prod.fst).Nodup →
        (((chain.foldl applyEntry st).dependencies.map Prod.fst)).Nodup := by
      intro st hst
      apply foldl_preserve
        (P := fun st : ReconState => (st.dependencies.map Prod.fst).Nodup)
      · intro x y hx
        exact applyEntry_keys_nodup hx
      · exact hst
    exact this ⟨[], [], []⟩ (by simp)
  · intro st v b dep hmem
    unfold applyEntry
    simp only [List.foldl_nil, List.foldl_cons, hmem, Bool.false_eq_true,
      if_false]
    cases st
    rfl

/-- Witness for C1 amended: the no-op modification at a concrete state. -/
theorem reconstruct_replay_semantics_witness :
    applyEntry ⟨[("A", "c")], [], []⟩
        ⟨"1.0.0", none, [], [], [⟨"X", some "c2", none⟩], [], [], [], []⟩ =
      ⟨[("A", "c")], [], []⟩ :=
  reconstruct_replay_semantics.2.1 ⟨[("A", "c")], [], []⟩ "1.0.0" none
    ⟨"X", some "c2", none⟩ (by decide)


/-- A walk ending at a missing base logged exactly the one error naming it,
and that base is listed by no version entry. -/
theorem chainWalk_missing_log :
    ∀ (fuel : Nat) (pkg : Package) (cur : VersionEntry)
      (chain : List VersionEntry) (b : String) (log : List String),
      chainWalk fuel pkg cur = some (chain, ChainExit.missing b, log) →
      log = [baseNotFoundMsg b pkg.name] ∧
        pkg.versions.find? (fun v => v.version = b) = none := by
  intro fuel
  induction fuel with
  | zero => intro pkg cur chain b log h; simp [chainWalk] at h
  | succ f ih =>
    intro pkg cur chain b log h
    unfold chainWalk at h
    split at h
    · simp at h
    · split at h
      · rename_i b' hb hf
        simp only [Option.some.injEq, Prod.mk.injEq] at h
        obtain ⟨_, hex, hlog⟩ := h
        cases hex
        exact ⟨hlog.symm, hf⟩
      · rename_i b' hb nxt hf
        cases hw : chainWalk f pkg nxt with
        | none => rw [hw] at h; simp at h
        | some r =>
          rw [hw] at h
          simp only [Option.map_some', Option.some.injEq, Prod.mk.injEq] at h
          obtain ⟨_, hex, hlog⟩ := h
          obtain ⟨ch', ex', lg'⟩ := r
          exact ih pkg nxt ch' b log (by rw [hw]; simp_all)

/-- More fuel never changes a walk that already returned. -/
theorem chainWalk_fuel_mono :
    ∀ (fuel k : Nat) (pkg : Package) (cur : VersionEntry)
      (r : List VersionEntry × ChainExit × List String),
      chainWalk fuel pkg cur = some r →
      chainWalk (fuel + k) pkg cur = some r := by
  intro fuel
  induction fuel with
  | zero => intro k pkg cur r h; simp [chainWalk] at h
  | succ f ih =>
    intro k pkg cur r h
    have hs : f + 1 + k = (f + k) + 1 := by omega
    rw [hs]
    unfold chainWalk at h ⊢
    split at h
    · exact h
    · split at h
      · exact h
      · rename_i b' hb nxt hf
        cases hw : chainWalk f pkg nxt with
        | none => rw [hw] at h; simp at h
        | some r' => rw [ih k pkg nxt r' hw]; rw [hw] at h; exact h

/-- C2 counterexample. Reconstructing `missingBasePkg` at version `2.0.0`,
whose `base_version` `1.0.0` is listed nowhere, returns an ordinary record
built from the truncated chain — no error value of any kind (the code base
has no `ReconstructionError`), refuting "reconstruction stops and fails
with a ReconstructionError that names the missing version". -/
theorem missing_base_reconstruction_succeeds :
    getFullPackageDependencies (some missingBaseReg) "pkg" "2.0.0" =
      some ⟨[("D2", "")], [], []⟩ := rfl

/-- C2 amended. When the chain walk meets a `base_version` absent from the
package's entries it stops there, logs exactly one error naming the missing
version (which indeed no entry lists), terminates under every larger fuel,
and reconstruction proceeds on the truncated chain, returning an ordinary
record to the caller — so the rest of the run trivially continues. -/
theorem chain_walk_missing_base (pkg : Package) (start : VersionEntry)
    (chain : List VersionEntry) (b : String) (log : List String)
    (h : getVersionChain pkg start = some (chain, ChainExit.missing b, log)) :
    log = [baseNotFoundMsg b pkg.name] ∧
    (∀ v ∈ pkg.versions, ¬ v.version = b) ∧
    (∀ k, chainWalk (chainFuel pkg + k) pkg start =
      chainWalk (chainFuel pkg) pkg start) ∧
    (∀ (reg : Option Registry) (pname pver : String),
      findPackageInRegistry reg pname = some pkg →
      pkg.versions.find? (fun v => v.version = pver) = some start →
      getFullPackageDependencies reg pname pver =
        some (reconstructDependencies chain)) := by
  unfold getVersionChain at h
  cases hw : chainWalk (chainFuel pkg) pkg start with
  | none => rw [hw] at h; simp at h
  | some r =>
    rw [hw] at h
    obtain ⟨ch', ex', lg'⟩ := r
    simp only [Option.map_some', Option.some.injEq, Prod.mk.injEq] at h
    obtain ⟨hchain, hex, hlog⟩ := h
    cases hex
    obtain ⟨hl, hf⟩ := chainWalk_missing_log _ pkg start ch' b log
      (by rw [hw, hlog])
    refine ⟨hl, ?_, ?_, ?_⟩
    · intro v hv hveq
      have := List.find?_eq_none.mp hf v hv
      simp [hveq] at this
    · intro k
      exact chainWalk_fuel_mono _ k pkg start _ hw
    · intro reg pname pver hreg hver
      simp only [getFullPackageDependencies, hreg, hver, getVersionChain, hw,
        Option.map_some']
      simp [hchain, hlog]

/-- Witness for C2 amended at the concrete missing-base package. -/
theorem chain_walk_missing_base_witness :
    (∀ v ∈ missingBasePkg.versions, ¬ v.version = "1.0.0") ∧
    getFullPackageDependencies (some missingBaseReg) "pkg" "2.0.0" =
      some (reconstructDependencies
        [mkEntry "2.0.0" (some "1.0.0") [⟨"D2", none, none⟩] []]) := by
  have h := chain_walk_missing_base missingBasePkg
    (mkEntry "2.0.0" (some "1.0.0") [⟨"D2", none, none⟩] [])
    [mkEntry "2.0.0" (some "1.0.0") [⟨"D2", none, none⟩] []]
    "1.0.0" [baseNotFoundMsg "1.0.0" "pkg"] (by rfl)
  exact ⟨h.2.1, h.2.2.2 (some missingBaseReg) "pkg" "2.0.0" rfl rfl⟩


/-- Comparing a version with itself yields `eq`. -/
theorem vcmp_self : ∀ a : List Nat, vcmp a a = Ordering.eq := by
  intro a
  induction a with
  | nil => simp [vcmp, allZero]
  | cons x as ih => simp [vcmp, ih]

/-- A version never exceeds itself padded: `vcmp [] c` is `eq` or `lt`. -/
theorem vcmp_nil_not_gt (c : List Nat) : ¬ vcmp [] c = Ordering.gt := by
  by_cases h : allZero c <;> simp [vcmp, h]

/-- Against the empty version, `gt` means some nonzero component. -/
theorem vcmp_to_nil_gt_iff :
    ∀ b : List Nat, vcmp b [] = Ordering.gt ↔ allZero b = false := by
  intro b
  induction b with
  | nil => simp [vcmp, allZero]
  | cons y bs ih =>
    by_cases hy : y = 0
    · subst hy
      simpa [vcmp, allZero] using ih
    · simp [vcmp, allZero, hy]

/-- Against the empty version, `lt` is impossible. -/
theorem vcmp_to_nil_not_lt :
    ∀ b : List Nat, ¬ vcmp b [] = Ordering.lt := by
  intro b
  induction b with
  | nil => simp [vcmp, allZero]
  | cons y bs ih =>
    by_cases hy : y = 0
    · simpa [vcmp, hy] using ih
    · simp [vcmp, hy]

/-- An all-zero version exceeds nothing. -/
theorem vcmp_allZero_not_gt :
    ∀ a c : List Nat, allZero a = true → ¬ vcmp a c = Ordering.gt := by
  intro a
  induction a with
  | nil => intro c _; exact vcmp_nil_not_gt c
  | cons x as ih =>
    intro c hz
    simp only [allZero, Bool.and_eq_true, decide_eq_true_eq] at hz
    obtain ⟨hx, has⟩ := hz
    subst hx
    cases c with
    | nil =>
      rw [vcmp_to_nil_gt_iff]
      simp [allZero, has]
    | cons z cs =>
      by_cases hz0 : z = 0
      · subst hz0
        simpa [vcmp] using ih cs has
      · simp [vcmp, Nat.pos_of_ne_zero hz0]

/-- Not exceeding an all-zero version forces all-zero. -/
theorem vcmp_le_allZero :
    ∀ a b : List Nat, allZero b = true → ¬ vcmp a b = Ordering.gt →
      allZero a = true := by
  intro a
  induction a with
  | nil => intro b _ _; rfl
  | cons x as ih =>
    intro b hb h
    cases b with
    | nil =>
      rw [vcmp_to_nil_gt_iff] at h
      simpa using h
    | cons y bs =>
      simp only [allZero, Bool.and_eq_true, decide_eq_true_eq] at hb
      obtain ⟨hy, hbs⟩ := hb
      subst hy
      have hx : x = 0 := by
        by_contra hx
        exact h (by simp [vcmp, Nat.pos_of_ne_zero hx])
      subst hx
      have has : ¬ vcmp as bs = Ordering.gt := by
        intro hgt
        exact h (by simpa [vcmp] using hgt)
      simp [allZero, ih bs hbs has]

/-- `gt` one way round is `lt` the other. -/
theorem vcmp_gt_iff : ∀ a b : List Nat,
    vcmp a b = Ordering.gt ↔ vcmp b a = Ordering.lt := by
  intro a
  induction a with
  | nil =>
    intro b
    constructor
    · intro h
      exact absurd h (vcmp_nil_not_gt b)
    · intro h
      exact absurd h (vcmp_to_nil_not_lt b)
  | cons x as ih =>
    intro b
    cases b with
    | nil =>
      rw [vcmp_to_nil_gt_iff]
      by_cases hz : allZero (x :: as) <;> simp [vcmp, hz]
    | cons y bs =>
      by_cases hxy : x < y
      · simp [vcmp, hxy, Nat.lt_asymm hxy]
      · by_cases hyx : y < x
        · simp [vcmp, hxy, hyx]
        · simp [vcmp, hxy, hyx, ih bs]

/-- Transitivity of "not greater" for the padded numeric comparison. -/
theorem vcmp_le_trans :
    ∀ (n : Nat) (a b c : List Nat),
      a.length + b.length + c.length ≤ n →
      ¬ vcmp a b = Ordering.gt → ¬ vcmp b c = Ordering.gt →
      ¬ vcmp a c = Ordering.gt := by
  intro n
  induction n with
  | zero =>
    intro a b c hlen h1 h2
    match a, b, c with
    | [], b', c' => exact vcmp_nil_not_gt c'
    | x :: _, _, _ => simp at hlen
  | succ n ih =>
    intro a b c hlen h1 h2
    match a, b, c with
    | [], b', c' => exact vcmp_nil_not_gt c'
    | x :: as, [], [] => exact h1
    | x :: as, [], z :: cs =>
      have hz : allZero (x :: as) = true := by
        by_contra h
        exact h1 ((vcmp_to_nil_gt_iff (x :: as)).mpr (by simpa using h))
      exact vcmp_allZero_not_gt (x :: as) (z :: cs) hz
    | x :: as, y :: bs, [] =>
      have hb : allZero (y :: bs) = true := by
        by_contra hb
        exact h2 ((vcmp_to_nil_gt_iff (y :: bs)).mpr (by simpa using hb))
      have ha : allZero (x :: as) = true := vcmp_le_allZero _ _ hb h1
      rw [vcmp_to_nil_gt_iff]
      simp [ha]
    | x :: as, y :: bs, z :: cs =>
      have hxy : ¬ y < x := by
        intro hlt
        exact h1 (by simp [vcmp, Nat.lt_asymm hlt, hlt])
      have hyz : ¬ z < y := by
        intro hlt
        exact h2 (by simp [vcmp, Nat.lt_asymm hlt, hlt])
      by_cases hxz : x < z
      · simp [vcmp, hxz]
      · have hzx : ¬ z < x := by omega
        have hx_eq : x = z := by omega
        have hyx : y = x := by omega
        subst hx_eq
        subst hyx
        simp only [vcmp, Nat.lt_irrefl, if_false] at h1 h2 ⊢
        exact ih as bs cs (by simp at hlen ⊢; omega) h1 h2

/-- Membership is preserved by ascending insertion. -/
theorem mem_insertAscBy {α : Type} (key : α → List Nat) (y : α)
    (M : List α) (x : α) :
    x ∈ insertAscBy key y M ↔ x = y ∨ x ∈ M := by
  induction M with
  | nil => simp [insertAscBy]
  | cons z zs ih =>
    unfold insertAscBy
    by_cases h : ¬ vcmp (key z) (key y) = Ordering.lt
    · rw [if_pos h]
      simp
    · rw [if_neg h]
      simp [ih]
      tauto

/-- Membership is preserved by the ascending sort. -/
theorem mem_sortAscBy {α : Type} (key : α → List Nat) (l : List α) (x : α) :
    x ∈ sortAscBy key l ↔ x ∈ l := by
  induction l with
  | nil => simp [sortAscBy]
  | cons z zs ih =>
    unfold sortAscBy at ih ⊢
    simp [mem_insertAscBy, ih]

/-- Ascending insertion preserves the ascending chain. -/
theorem chain_insertAscBy {α : Type} (key : α → List Nat) (x : α) :
    ∀ M : List α,
      List.Chain' (fun a b => ¬ vcmp (key a) (key b) = Ordering.gt) M →
      List.Chain' (fun a b => ¬ vcmp (key a) (key b) = Ordering.gt)
        (insertAscBy key x M) := by
  intro M
  induction M with
  | nil => intro _; simp [insertAscBy]
  | cons y ys ih =>
    intro hM
    unfold insertAscBy
    by_cases h : ¬ vcmp (key y) (key x) = Ordering.lt
    · rw [if_pos h]
      refine List.Chain'.cons ?_ hM
      rw [vcmp_gt_iff]
      exact h
    · rw [if_neg h]
      rw [Decidable.not_not] at h
      rw [List.chain'_cons']
      refine ⟨?_, ih (List.Chain'.tail hM)⟩
      intro b hb
      cases ys with
      | nil =>
        simp [insertAscBy] at hb
        subst hb
        intro hgt
        rw [h] at hgt
        simp at hgt
      | cons w ws =>
        unfold insertAscBy at hb
        by_cases hw : ¬ vcmp (key w) (key x) = Ordering.lt
        · rw [if_pos hw] at hb
          simp only [List.head?_cons, Option.mem_def, Option.some.injEq] at hb
          subst hb
          intro hgt
          rw [h] at hgt
          simp at hgt
        · rw [if_neg hw] at hb
          simp only [List.head?_cons, Option.mem_def, Option.some.injEq] at hb
          subst hb
          exact (List.chain'_cons.mp hM).1

/-- The ascending sort produces an ascending chain. -/
theorem chain_sortAscBy {α : Type} (key : α → List Nat) (l : List α) :
    List.Chain' (fun a b => ¬ vcmp (key a) (key b) = Ordering.gt)
      (sortAscBy key l) := by
  induction l with
  | nil => simp [sortAscBy]
  | cons z zs ih => exact chain_insertAscBy key z _ ih

/-- In an ascending chain the last element dominates every element. -/
theorem chain_getLast_max {α : Type} (key : α → List Nat) :
    ∀ (l : List α) (m : α),
      List.Chain' (fun a b => ¬ vcmp (key a) (key b) = Ordering.gt) l →
      l.getLast? = some m →
      ∀ y ∈ l, ¬ vcmp (key y) (key m) = Ordering.gt := by
  intro l
  induction l with
  | nil => intro m _ hm; simp at hm
  | cons a t ih =>
    intro m hc hm y hy
    cases t with
    | nil =>
      simp at hm hy
      subst hm
      subst hy
      simp [vcmp_self]
    | cons b t' =>
      have hlast : (b :: t').getLast? = some m := by
        simpa [List.getLast?_cons_cons] using hm
      rcases List.mem_cons.mp hy with rfl | hyt
      · have hab : ¬ vcmp (key y) (key b) = Ordering.gt :=
          (List.chain'_cons.mp hc).1
        have hbm : ¬ vcmp (key b) (key m) = Ordering.gt :=
          ih m (List.Chain'.tail hc) hlast b (by simp)
        exact vcmp_le_trans
          ((key y).length + (key b).length + (key m).length)
          _ _ _ (le_refl _) hab hbm
      · exact ih m (List.Chain'.tail hc) hlast y hyt

/-- The last element of the ascending sort of a nonempty list exists, comes
from the list, and is a maximum of it. -/
theorem sortAscBy_max {α : Type} (key : α → List Nat) (l : List α)
    (h : ¬ l = []) :
    ∃ m, (sortAscBy key l).getLast? = some m ∧ m ∈ l ∧
      ∀ y ∈ l, ¬ vcmp (key y) (key m) = Ordering.gt := by
  have hne : sortAscBy key l ≠ [] := by
    intro hempty
    cases l with
    | nil => exact h rfl
    | cons z zs =>
      have hz : z ∈ sortAscBy key (z :: zs) := by
        rw [mem_sortAscBy]
        simp
      rw [hempty] at hz
      simp at hz
  have hm := List.getLast?_eq_getLast_of_ne_nil hne
  refine ⟨(sortAscBy key l).getLast hne, hm, ?_, ?_⟩
  · rw [← mem_sortAscBy key l]
    exact List.getLast_mem hne
  · intro y hy
    exact chain_getLast_max key _ _ (chain_sortAscBy key l) hm y
      ((mem_sortAscBy key l y).mpr hy)

/-- Membership is preserved by descending insertion. -/
theorem mem_insertDescBy {α : Type} (key : α → List Nat) (y : α)
    (M : List α) (x : α) :
    x ∈ insertDescBy key y M ↔ x = y ∨ x ∈ M := by
  induction M with
  | nil => simp [insertDescBy]
  | cons z zs ih =>
    unfold insertDescBy
    by_cases h : ¬ vcmp (key z) (key y) = Ordering.gt
    · rw [if_pos h]
      simp
    · rw [if_neg h]
      simp [ih]
      tauto

/-- Membership is preserved by the descending sort. -/
theorem mem_sortDescBy {α : Type} (key : α → List Nat) (l : List α) (x : α) :
    x ∈ sortDescBy key l ↔ x ∈ l := by
  induction l with
  | nil => simp [sortDescBy]
  | cons z zs ih =>
    unfold sortDescBy at ih ⊢
    simp [mem_insertDescBy, ih]

/-- Descending insertion preserves the descending chain. -/
theorem chain_insertDescBy {α : Type} (key : α → List Nat) (x : α) :
    ∀ M : List α,
      List.Chain' (fun a b => ¬ vcmp (key a) (key b) = Ordering.lt) M →
      List.Chain' (fun a b => ¬ vcmp (key a) (key b) = Ordering.lt)
        (insertDescBy key x M) := by
  intro M
  induction M with
  | nil => intro _; simp [insertDescBy]
  | cons y ys ih =>
    intro hM
    unfold insertDescBy
    by_cases h : ¬ vcmp (key y) (key x) = Ordering.gt
    · rw [if_pos h]
      refine List.Chain'.cons ?_ hM
      intro hlt
      rw [vcmp_gt_iff] at h
      exact h hlt
    · rw [if_neg h]
      rw [Decidable.not_not] at h
      rw [List.chain'_cons']
      refine ⟨?_, ih (List.Chain'.tail hM)⟩
      intro b hb
      cases ys with
      | nil =>
        simp [insertDescBy] at hb
        subst hb
        intro hlt
        rw [h] at hlt
        simp at hlt
      | cons w ws =>
        unfold insertDescBy at hb
        by_cases hw : ¬ vcmp (key w) (key x) = Ordering.gt
        · rw [if_pos hw] at hb
          simp only [List.head?_cons, Option.mem_def, Option.some.injEq] at hb
          subst hb
          intro hlt
          rw [h] at hlt
          simp at hlt
        · rw [if_neg hw] at hb
          simp only [List.head?_cons, Option.mem_def, Option.some.injEq] at hb
          subst hb
          exact (List.chain'_cons.mp hM).1

/-- The descending sort produces a descending chain. -/
theorem chain_sortDescBy {α : Type} (key : α → List Nat) (l : List α) :
    List.Chain' (fun a b => ¬ vcmp (key a) (key b) = Ordering.lt)
      (sortDescBy key l) := by
  induction l with
  | nil => simp [sortDescBy]
  | cons z zs ih => exact chain_insertDescBy key z _ ih

/-- Transitivity of "not smaller". -/
theorem vcmp_ge_trans (a b c : List Nat)
    (h1 : ¬ vcmp a b = Ordering.lt) (h2 : ¬ vcmp b c = Ordering.lt) :
    ¬ vcmp a c = Ordering.lt := by
  rw [← vcmp_gt_iff] at h1 h2 ⊢
  exact vcmp_le_trans (c.length + b.length + a.length) c b a (by omega) h2 h1

/-- The head of a descending chain dominates every element. -/
theorem chain_head_max {α : Type} (key : α → List Nat) :
    ∀ (t : List α) (a : α),
      List.Chain' (fun u v => ¬ vcmp (key u) (key v) = Ordering.lt) (a :: t) →
      ∀ y ∈ t, ¬ vcmp (key a) (key y) = Ordering.lt := by
  intro t
  induction t with
  | nil => intro a _ y hy; simp at hy
  | cons b t' ih =>
    intro a hc y hy
    have hab : ¬ vcmp (key a) (key b) = Ordering.lt :=
      (List.chain'_cons.mp hc).1
    rcases List.mem_cons.mp hy with rfl | hyt
    · exact hab
    · exact vcmp_ge_trans _ _ _ hab
        (ih b (List.Chain'.tail hc) y hyt)

/-- The head of the descending sort of a nonempty list exists, comes from
the list, and is a maximum of it. -/
theorem sortDescBy_max {α : Type} (key : α → List Nat) (l : List α)
    (h : ¬ l = []) :
    ∃ m, (sortDescBy key l).head? = some m ∧ m ∈ l ∧
      ∀ y ∈ l, ¬ vcmp (key y) (key m) = Ordering.gt := by
  cases hs : sortDescBy key l with
  | nil =>
    exfalso
    cases l with
    | nil => exact h rfl
    | cons z zs =>
      have hz : z ∈ sortDescBy key (z :: zs) := by
        rw [mem_sortDescBy]
        simp
      rw [hs] at hz
      simp at hz
  | cons m t =>
    refine ⟨m, rfl, ?_, ?_⟩
    · rw [← mem_sortDescBy key l]
      rw [hs]
      simp
    · intro y hy
      rw [← mem_sortDescBy key l, hs] at hy
      have hchain := chain_sortDescBy key l
      rw [hs] at hchain
      rcases List.mem_cons.mp hy with rfl | hyt
      · simp [vcmp_self]
      · intro hgt
        rw [vcmp_gt_iff] at hgt
        exact chain_head_max key t m hchain y hyt hgt


/-- The satisfying-candidate pairs `(version, parsed)` that
`find_compatible_version`'s filtering loop produces. -/
def satisfyingPairs (specs : List (VOp × List Nat)) (vs : List String) :
    List (String × List Nat) :=
  vs.filterMap (fun v =>
    match parseVersion v with
    | some pv => if specs.all (specHolds pv) then some (v, pv) else none
    | none => none)

/-- When every listed version parses, the filtering loop succeeds with
exactly the satisfying pairs. -/
theorem fcv_fold_eq (specs : List (VOp × List Nat)) :
    ∀ vs : List String, (∀ v ∈ vs, (parseVersion v).isSome) →
      (vs.foldr
        (fun v acc =>
          match acc, parseVersion v with
          | some l, some pv =>
            if specs.all (specHolds pv) then some ((v, pv) :: l) else some l
          | _, _ => none)
        (some [])) = some (satisfyingPairs specs vs) := by
  intro vs
  induction vs with
  | nil => intro _; simp [satisfyingPairs]
  | cons v vs ih =>
    intro hall
    have hv : (parseVersion v).isSome := hall v (by simp)
    obtain ⟨pv, hpv⟩ := Option.isSome_iff_exists.mp hv
    have hrest := ih (fun w hw => hall w (by simp [hw]))
    simp only [List.foldr_cons, hrest, hpv, satisfyingPairs, List.filterMap_cons]
    by_cases hh : specs.all (specHolds pv)
    · simp [hh, satisfyingPairs]
    · simp [hh, satisfyingPairs]

/-- First components of the satisfying pairs: the satisfying versions. -/
theorem satisfyingPairs_map_fst (specs : List (VOp × List Nat)) :
    ∀ vs : List String,
      (satisfyingPairs specs vs).map Prod.fst =
        vs.filter (fun v =>
          match parseVersion v with
          | some pv => specs.all (specHolds pv)
          | none => false) := by
  intro vs
  induction vs with
  | nil => simp [satisfyingPairs]
  | cons v vs ih =>
    simp only [satisfyingPairs, List.filterMap_cons, List.filter_cons]
    cases hpv : parseVersion v with
    | none => simpa [satisfyingPairs, hpv] using ih
    | some pv =>
      by_cases hh : specs.all (specHolds pv)
      · simpa [satisfyingPairs, hpv, hh] using ih
      · simpa [satisfyingPairs, hpv, hh] using ih

/-- Each satisfying pair records its version's parse. -/
theorem satisfyingPairs_parse (specs : List (VOp × List Nat)) :
    ∀ (vs : List String) (p : String × List Nat),
      p ∈ satisfyingPairs specs vs → parseVersion p.1 = some p.2 := by
  intro vs
  induction vs with
  | nil => intro p hp; simp [satisfyingPairs] at hp
  | cons v vs ih =>
    intro p hp
    simp only [satisfyingPairs, List.filterMap_cons] at hp
    cases hpv : parseVersion v with
    | none =>
      simp only [hpv] at hp
      exact ih p hp
    | some pv =>
      simp only [hpv] at hp
      by_cases hh : specs.all (specHolds pv)
      · simp only [hh, if_true] at hp
        rcases List.mem_cons.mp hp with rfl | hmem
        · exact hpv
        · exact ih p hmem
      · rw [if_neg hh] at hp
        exact ih p hp

/-- The satisfying `(entry, parsed)` pairs that `get_package_version`'s
filtering loop produces over the package's version entries. -/
def satisfyingEntryPairs (specs : List (VOp × List Nat))
    (vs : List VersionEntry) : List (VersionEntry × List Nat) :=
  vs.filterMap (fun v =>
    match parseVersion v.version with
    | some pv => if specs.all (specHolds pv) then some (v, pv) else none
    | none => none)

/-- The listed version entries that satisfy the specifier set. -/
def satisfyingEntries (specs : List (VOp × List Nat))
    (vs : List VersionEntry) : List VersionEntry :=
  vs.filter (fun v =>
    match parseVersion v.version with
    | some pv => specs.all (specHolds pv)
    | none => false)

/-- When every listed entry's version parses, `get_package_version`'s
filtering loop succeeds with exactly the satisfying entry pairs. -/
theorem collectSatisfying_eq (specs : List (VOp × List Nat)) :
    ∀ vs : List VersionEntry,
      (∀ v ∈ vs, (parseVersion v.version).isSome) →
      collectSatisfying specs vs = some (satisfyingEntryPairs specs vs) := by
  intro vs
  induction vs with
  | nil => intro _; simp [collectSatisfying, satisfyingEntryPairs]
  | cons v vs ih =>
    intro hall
    obtain ⟨pv, hpv⟩ := Option.isSome_iff_exists.mp (hall v (by simp))
    have hrest := ih (fun w hw => hall w (by simp [hw]))
    simp only [collectSatisfying, hpv, hrest, satisfyingEntryPairs,
      List.filterMap_cons]
    by_cases hh : specs.all (specHolds pv)
    · simp [hh, satisfyingEntryPairs]
    · simp [hh, satisfyingEntryPairs]

/-- First components of the satisfying entry pairs: the satisfying
entries. -/
theorem satisfyingEntryPairs_map_fst (specs : List (VOp × List Nat)) :
    ∀ vs : List VersionEntry,
      (satisfyingEntryPairs specs vs).map Prod.fst =
        satisfyingEntries specs vs := by
  intro vs
  induction vs with
  | nil => simp [satisfyingEntryPairs, satisfyingEntries]
  | cons v vs ih =>
    simp only [satisfyingEntryPairs, satisfyingEntries, List.filterMap_cons,
      List.filter_cons]
    cases hpv : parseVersion v.version with
    | none => simpa [satisfyingEntryPairs, satisfyingEntries, hpv] using ih
    | some pv =>
      by_cases hh : specs.all (specHolds pv)
      · simpa [satisfyingEntryPairs, satisfyingEntries, hpv, hh] using ih
      · simpa [satisfyingEntryPairs, satisfyingEntries, hpv, hh] using ih

/-- Each satisfying entry pair records its entry's version parse. -/
theorem satisfyingEntryPairs_parse (specs : List (VOp × List Nat)) :
    ∀ (vs : List VersionEntry) (p : VersionEntry × List Nat),
      p ∈ satisfyingEntryPairs specs vs →
      parseVersion p.1.version = some p.2 := by
  intro vs
  induction vs with
  | nil => intro p hp; simp [satisfyingEntryPairs] at hp
  | cons v vs ih =>
    intro p hp
    simp only [satisfyingEntryPairs, List.filterMap_cons] at hp
    cases hpv : parseVersion v.version with
    | none =>
      simp only [hpv] at hp
      exact ih p hp
    | some pv =>
      simp only [hpv] at hp
      by_cases hh : specs.all (specHolds pv)
      · simp only [hh, if_true] at hp
        rcases List.mem_cons.mp hp with rfl | hmem
        · exact hpv
        · exact ih p hmem
      · rw [if_neg hh] at hp
        exact ih p hp

/-- C5 counterexample. With no constraint, the accessor's
`find_compatible_version` returns the last listed version — here `1.0.0`,
although `2.0.0` is listed (and numerically greater), and the per-package
layout it reads has no latest marker at all; the resolver's
`get_package_version` without a `latest_version` marker returns `None`
rather than the numeric maximum. -/
theorem no_constraint_not_maximum :
    findCompatibleVersion descVerReg "p" none = some "1.0.0" ∧
    getPackageVersions descVerReg "p" = ["2.0.0", "1.0.0"] ∧
    getPackageVersion (some descVerReg) "p" none = none ∧
    descVerPkg.latest_version = none := by
  refine ⟨rfl, rfl, rfl, rfl⟩

/-- C5 amended. With versions listed and no constraint, the accessor's
`find_compatible_version` returns the last listed version (not a declared
latest, not the numeric maximum) and the resolver's `get_package_version`
returns the entry named by the `latest_version` marker, `None` when the
marker is absent.  With a constraint whose comparators parse, over listed
versions that all parse, `find_compatible_version` returns `None` when no
candidate satisfies it and otherwise a satisfying candidate that is
numerically maximal among the satisfying ones, and the resolver's
`get_package_version` likewise returns `None` when no listed entry
satisfies the constraint (in particular on an empty version list) and
otherwise a satisfying entry numerically maximal among the satisfying
ones; on the worked example both functions select `1.2.0` from
`1.0.0/1.2.0/2.0.0` under `>=1.0.0,<2.0.0`. -/
theorem find_compatible_version_behaviour :
    (∀ (reg : Registry) (pname : String),
      ¬ getPackageVersions reg pname = [] →
      findCompatibleVersion reg pname none =
        (getPackageVersions reg pname).getLast?) ∧
    (∀ (reg : Registry) (pname c : String) (specs : List (VOp × List Nat)),
      ¬ c = "" →
      parseSpecSet c = some specs →
      (∀ v ∈ getPackageVersions reg pname, (parseVersion v).isSome) →
      ¬ getPackageVersions reg pname = [] →
      ((satisfyingVersions reg pname specs = [] →
          findCompatibleVersion reg pname (some c) = none) ∧
       (¬ satisfyingVersions reg pname specs = [] →
          ∃ m, findCompatibleVersion reg pname (some c) = some m ∧
            m ∈ satisfyingVersions reg pname specs ∧
            ∀ w ∈ satisfyingVersions reg pname specs,
              ¬ vcmp ((parseVersion w).getD []) ((parseVersion m).getD []) =
                Ordering.gt))) ∧
    (∀ (reg : Option Registry) (pname : String) (pkg : Package),
      findPackageInRegistry reg pname = some pkg →
      ((pkg.latest_version = none → getPackageVersion reg pname none = none) ∧
       (∀ lv, pkg.latest_version = some lv →
          getPackageVersion reg pname none =
            pkg.versions.find? (fun v => v.version = lv)))) ∧
    (∀ (reg : Option Registry) (pname c : String) (pkg : Package)
      (specs : List (VOp × List Nat)),
      findPackageInRegistry reg pname = some pkg →
      ¬ c = "" →
      parseSpecSet c = some specs →
      (∀ v ∈ pkg.versions, (parseVersion v.version).isSome) →
      ((satisfyingEntries specs pkg.versions = [] →
          getPackageVersion reg pname (some c) = none) ∧
       (¬ satisfyingEntries specs pkg.versions = [] →
          ∃ m, getPackageVersion reg pname (some c) = some m ∧
            m ∈ satisfyingEntries specs pkg.versions ∧
            ∀ w ∈ satisfyingEntries specs pkg.versions,
              ¬ vcmp ((parseVersion w.version).getD [])
                  ((parseVersion m.version).getD []) = Ordering.gt))) ∧
    findCompatibleVersion threeVerReg "p" (some ">=1.0.0,<2.0.0") =
      some "1.2.0" ∧
    (getPackageVersion (some threeVerReg) "p"
        (some ">=1.0.0,<2.0.0")).map VersionEntry.version = some "1.2.0" := by
  refine ⟨?_, ?_, ?_, ?_, by decide, by decide⟩
  · intro reg pname hne
    unfold findCompatibleVersion
    simp [List.isEmpty_iff, hne, isTruthy]
  · intro reg pname c specs hc hparse hall hne
    have hct : isTruthy (some c) = true := by
      simpa [isTruthy] using hc
    have hfold := fcv_fold_eq specs (getPackageVersions reg pname) hall
    constructor
    · intro hS
      have hpairs : satisfyingPairs specs (getPackageVersions reg pname)
          = [] := by
        have hmap := satisfyingPairs_map_fst specs (getPackageVersions reg pname)
        unfold satisfyingVersions at hS
        rw [hS] at hmap
        exact List.map_eq_nil_iff.mp hmap
      unfold findCompatibleVersion
      simp [List.isEmpty_iff, hne, hct, hparse, hfold, hpairs]
    · intro hS
      have hpairs : ¬ satisfyingPairs specs (getPackageVersions reg pname)
          = [] := by
        intro hempty
        have hmap := satisfyingPairs_map_fst specs (getPackageVersions reg pname)
        rw [hempty] at hmap
        apply hS
        unfold satisfyingVersions
        rw [← hmap]
        rfl
      obtain ⟨mp, hlast, hmem, hmax⟩ :=
        sortAscBy_max Prod.snd
          (satisfyingPairs specs (getPackageVersions reg pname)) hpairs
      refine ⟨mp.1, ?_, ?_, ?_⟩
      · unfold findCompatibleVersion
        simp [List.isEmpty_iff, hne, hct, hparse, hfold, hpairs, hlast]
      · have hmap := satisfyingPairs_map_fst specs (getPackageVersions reg pname)
        unfold satisfyingVersions
        rw [← hmap]
        exact List.mem_map_of_mem Prod.fst hmem
      · intro w hw
        have hmap := satisfyingPairs_map_fst specs (getPackageVersions reg pname)
        unfold satisfyingVersions at hw
        rw [← hmap] at hw
        obtain ⟨pw, hpw, hpwf⟩ := List.mem_map.mp hw
        have h1 := satisfyingPairs_parse specs _ pw hpw
        have h2 := satisfyingPairs_parse specs _ mp hmem
        rw [← hpwf, h1, h2]
        simpa using hmax pw hpw
  · intro reg pname pkg hreg
    constructor
    · intro hlv
      simp [getPackageVersion, hreg, isTruthy, hlv]
    · intro lv hlv
      simp [getPackageVersion, hreg, isTruthy, hlv]
  · intro reg pname c pkg specs hreg hc hparse hall
    have hct : isTruthy (some c) = true := by
      simpa [isTruthy] using hc
    have hcoll := collectSatisfying_eq specs pkg.versions hall
    have hmap := satisfyingEntryPairs_map_fst specs pkg.versions
    constructor
    · intro hS
      have hpairs : satisfyingEntryPairs specs pkg.versions = [] := by
        rw [hS] at hmap
        exact List.map_eq_nil_iff.mp hmap
      unfold getPackageVersion
      rw [hreg]
      simp [hct, hparse, hcoll, hpairs]
    · intro hS
      have hpairs : ¬ satisfyingEntryPairs specs pkg.versions = [] := by
        intro hempty
        rw [hempty] at hmap
        simp at hmap
        exact hS hmap
      obtain ⟨mp, hhead, hmem, hmax⟩ := sortDescBy_max Prod.snd _ hpairs
      refine ⟨mp.1, ?_, ?_, ?_⟩
      · unfold getPackageVersion
        rw [hreg]
        simp [hct, hparse, hcoll, List.isEmpty_iff, hpairs, hhead]
      · rw [← hmap]
        exact List.mem_map_of_mem Prod.fst hmem
      · intro w hw
        rw [← hmap] at hw
        obtain ⟨pw, hpw, hpwf⟩ := List.mem_map.mp hw
        have h1 := satisfyingEntryPairs_parse specs _ pw hpw
        have h2 := satisfyingEntryPairs_parse specs _ mp hmem
        rw [← hpwf, h1, h2]
        simpa using hmax pw hpw


/-- Witness for C5 amended at the concrete registries. -/
theorem find_compatible_version_behaviour_witness :
    findCompatibleVersion descVerReg "p" none = some "1.0.0" ∧
    getPackageVersion (some threeVerReg) "p" none = none ∧
    (∃ m, findCompatibleVersion threeVerReg "p" (some ">=1.0.0,<2.0.0") =
        some m ∧
      m ∈ satisfyingVersions threeVerReg "p"
        [(VOp.vge, [1, 0, 0]), (VOp.vlt, [2, 0, 0])] ∧
      ∀ w ∈ satisfyingVersions threeVerReg "p"
        [(VOp.vge, [1, 0, 0]), (VOp.vlt, [2, 0, 0])],
        ¬ vcmp ((parseVersion w).getD []) ((parseVersion m).getD []) =
          Ordering.gt) ∧
    getPackageVersion (some threeVerReg) "p" (some ">=3.0.0") = none ∧
    (∃ m, getPackageVersion (some threeVerReg) "p"
        (some ">=1.0.0,<2.0.0") = some m ∧
      m ∈ satisfyingEntries [(VOp.vge, [1, 0, 0]), (VOp.vlt, [2, 0, 0])]
        threeVerPkg.versions ∧
      ∀ w ∈ satisfyingEntries [(VOp.vge, [1, 0, 0]), (VOp.vlt, [2, 0, 0])]
        threeVerPkg.versions,
        ¬ vcmp ((parseVersion w.version).getD [])
          ((parseVersion m.version).getD []) = Ordering.gt) := by
  refine ⟨?_, ?_, ?_, ?_, ?_⟩
  · have h := find_compatible_version_behaviour.1 descVerReg "p" (by decide)
    simpa using h
  · exact (find_compatible_version_behaviour.2.2.1 (some threeVerReg) "p"
      threeVerPkg (by decide)).1 (by decide)
  · exact (find_compatible_version_behaviour.2.1 threeVerReg "p"
      ">=1.0.0,<2.0.0" [(VOp.vge, [1, 0, 0]), (VOp.vlt, [2, 0, 0])]
      (by decide) (by decide) (by decide) (by decide)).2 (by decide)
  · exact (find_compatible_version_behaviour.2.2.2.1 (some threeVerReg)
      "p" ">=3.0.0" threeVerPkg [(VOp.vge, [3, 0, 0])] (by decide)
      (by decide) (by decide) (by decide)).1 (by decide)
  · exact (find_compatible_version_behaviour.2.2.2.1 (some threeVerReg)
      "p" ">=1.0.0,<2.0.0" threeVerPkg
      [(VOp.vge, [1, 0, 0]), (VOp.vlt, [2, 0, 0])] (by decide)
      (by decide) (by decide) (by decide)).2 (by decide)


/-- Popping a queue entry whose non-empty name is already validated, or is
the name of an earlier entry still in the queue, is a no-op of the
`validate_dependencies` loop: the run equals the run without that entry
(skip steps are fuel-free, so both runs consume identical fuel). -/
theorem vdLoop_skip_dup (fs : FS) (reg : Option Registry)
    (pkgDir : Option String) :
    ∀ (xs : List BDep) (fuel : Nat) (ys : List BDep) (d : BDep)
      (v e : List String) (flag : Bool),
      ¬ d.name = "" →
      (d.name ∈ v ∨ ∃ x ∈ xs, x.name = d.name) →
      vdLoop fs reg pkgDir fuel (xs ++ d :: ys) v e flag =
        vdLoop fs reg pkgDir fuel (xs ++ ys) v e flag := by
  intro xs
  induction xs with
  | nil =>
    intro fuel ys d v e flag hname hmem
    have hv : d.name ∈ v := by
      rcases hmem with hv | ⟨x, hx, _⟩
      · exact hv
      · simp at hx
    simp only [List.nil_append]
    conv_lhs => rw [vdLoop.eq_def]
    simp [hname, hv]
  | cons x xs ih =>
    intro fuel ys d v e flag hname hmem
    have hmem' : ∀ w : List String, v ⊆ w →
        (d.name ∈ w ∨ ∃ y ∈ xs, y.name = d.name) ∨ x.name = d.name := by
      intro w hw
      rcases hmem with hv | ⟨y, hy, hn⟩
      · exact Or.inl (Or.inl (hw hv))
      · rcases List.mem_cons.mp hy with rfl | hy'
        · exact Or.inr hn
        · exact Or.inl (Or.inr ⟨y, hy', hn⟩)
    simp only [List.cons_append]
    conv_lhs => rw [vdLoop.eq_def]
    conv_rhs => rw [vdLoop.eq_def]
    by_cases hx0 : x.name = ""
    · simp only [if_pos hx0]
      apply ih fuel ys d v _ false hname
      rcases hmem' v (List.Subset.refl v) with h | h
      · exact h
      · exact absurd (hx0 ▸ h).symm hname
    · by_cases hxv : x.name ∈ v
      · simp only [if_neg hx0, if_pos hxv]
        apply ih fuel ys d v e flag hname
        rcases hmem' v (List.Subset.refl v) with h | h
        · exact h
        · exact Or.inl (h ▸ hxv)
      · simp only [if_neg hx0, if_neg hxv]
        cases fuel with
        | zero => rfl
        | succ f =>
          have hsub : v ⊆ v ++ [x.name] := by
            intro a ha; exact List.mem_append_left _ ha
          have hmem2 : d.name ∈ v ++ [x.name] ∨ ∃ y ∈ xs, y.name = d.name := by
            rcases hmem' (v ++ [x.name]) hsub with h | h
            · exact h
            · exact Or.inl (by simp [h])
          rcases hvc : validateVersionConstraint x.name x.version_constraint
            with ⟨cOk, cErrs⟩
          simp only [hvc]
          split
          · exact ih _ _ _ _ _ _ hname hmem2
          · split
            · simp only [List.append_assoc, List.cons_append]
              exact ih _ _ _ _ _ _ hname hmem2
            · exact ih _ _ _ _ _ _ hname hmem2
            · exact ih _ _ _ _ _ _ hname hmem2

/-- **C10**: in `validate_dependencies`, each dependency name is validated at
most once per call.  A later queue entry `d` whose (non-empty) name is
already validated or is declared by an earlier entry in the queue is popped
and skipped outright: the run is identical to the run in which `d` is
absent, so `d`'s own version constraint, type and existence are never
examined and it contributes no error, whatever its other fields.  In
particular the whole call on a duplicated input list behaves exactly as on
the list with the later duplicate deleted. -/
theorem dependency_validated_once (fs : FS) (reg : Option Registry)
    (pkgDir : Option String) (xs ys : List BDep) (d : BDep)
    (hname : ¬ d.name = "") :
    (∀ (fuel : Nat) (v e : List String) (flag : Bool),
      (d.name ∈ v ∨ ∃ x ∈ xs, x.name = d.name) →
      vdLoop fs reg pkgDir fuel (xs ++ d :: ys) v e flag =
        vdLoop fs reg pkgDir fuel (xs ++ ys) v e flag) ∧
    ((∃ x ∈ xs, x.name = d.name) →
      validateDependencies fs reg pkgDir (xs ++ d :: ys) =
        vdLoop fs reg pkgDir
          ((xs ++ d :: ys).length +
            (fs.metas.map (fun m => m.2.hatch_dependencies.length)).sum + 1)
          (xs ++ ys) [] [] true) := by
  constructor
  · intro fuel v e flag hmem
    exact vdLoop_skip_dup fs reg pkgDir xs fuel ys d v e flag hname hmem
  · intro hdup
    unfold validateDependencies
    exact vdLoop_skip_dup fs reg pkgDir xs _ ys d [] [] true hname
      (Or.inr hdup)

theorem dependency_validated_once_witness :
    (vdLoop ⟨[], []⟩ none none 3
        ([BDep.mk "a" none (some "remote") none] ++
          BDep.mk "a" (some "bogus") (some "local") none :: []) ["z"] [] true =
      vdLoop ⟨[], []⟩ none none 3
        ([BDep.mk "a" none (some "remote") none] ++ []) ["z"] [] true) ∧
    (validateDependencies ⟨[], []⟩ none none
        ([BDep.mk "a" none (some "remote") none] ++
          BDep.mk "a" (some "bogus") (some "local") none :: []) =
      vdLoop ⟨[], []⟩ none none
        (([BDep.mk "a" none (some "remote") none] ++
            BDep.mk "a" (some "bogus") (some "local") none :: []).length +
          ((⟨[], []⟩ : FS).metas.map
            (fun m => m.2.hatch_dependencies.length)).sum + 1)
        ([BDep.mk "a" none (some "remote") none] ++ []) [] [] true) := by
  constructor
  · exact (dependency_validated_once ⟨[], []⟩ none none
      [BDep.mk "a" none (some "remote") none] []
      (BDep.mk "a" (some "bogus") (some "local") none) (by decide)).1
      3 ["z"] [] true (Or.inr ⟨BDep.mk "a" none (some "remote") none,
        by simp, rfl⟩)
  · exact (dependency_validated_once ⟨[], []⟩ none none
      [BDep.mk "a" none (some "remote") none] []
      (BDep.mk "a" (some "bogus") (some "local") none) (by decide)).2
      ⟨BDep.mk "a" none (some "remote") none, by simp, rfl⟩


/-! ### C4: termination of the transitive graph expansion -/

theorem dictSet_keys_subset {α : Type} (d : List (String × α)) (k : String)
    (v : α) : (dictSet d k v).map Prod.fst ⊆ d.map Prod.fst ++ [k] := by
  rw [dictSet_keys]
  by_cases h : d.any (fun p => p.1 = k)
  · simp only [h, if_true]
    exact List.subset_append_left _ _
  · simp [h]

theorem mem_keys_foldl_dictSet {α : Type} (g : RDep → α) :
    ∀ (l : List RDep) (d : List (String × α)) (n : String),
      n ∈ (l.foldl (fun d' dep => dictSet d' dep.name (g dep)) d).map
        Prod.fst →
      n ∈ d.map Prod.fst ∨ n ∈ l.map RDep.name := by
  intro l
  induction l with
  | nil => intro d n h; exact Or.inl h
  | cons x xs ih =>
    intro d n h
    rcases ih _ n h with h' | h'
    · rcases List.mem_append.mp (dictSet_keys_subset d x.name (g x) h')
        with h2 | h2
      · exact Or.inl h2
      · have : n = x.name := List.mem_singleton.mp h2
        exact Or.inr (by simp [this])
    · exact Or.inr (by simp [h'])

theorem mem_keys_foldl_keep {α : Type} {β : Type}
    (f : List (String × α) → β → List (String × α))
    (hf : ∀ d b n, n ∈ (f d b).map Prod.fst → n ∈ d.map Prod.fst) :
    ∀ (l : List β) (d : List (String × α)) (n : String),
      n ∈ (l.foldl f d).map Prod.fst → n ∈ d.map Prod.fst := by
  intro l
  induction l with
  | nil => intro d n h; exact h
  | cons x xs ih => intro d n h; exact hf d x n (ih _ n h)

theorem applyEntry_dep_names (st : ReconState) (ver : VersionEntry)
    (n : String)
    (h : n ∈ (applyEntry st ver).dependencies.map Prod.fst) :
    n ∈ st.dependencies.map Prod.fst ∨
      n ∈ ver.hatch_dependencies_added.map RDep.name := by
  unfold applyEntry at h
  simp only at h
  have h2 := mem_keys_foldl_keep
    (fun (d : List (String × String)) (dep : RDep) =>
      if dictMem d dep.name then
        dictSet d dep.name (dep.version_constraint.getD "") else d)
    (by
      intro d b m hm
      by_cases hmem : dictMem d b.name
      · simp only [hmem, if_true] at hm
        rcases List.mem_append.mp
          (dictSet_keys_subset d b.name (b.version_constraint.getD "") hm)
          with h3 | h3
        · exact h3
        · have he : m = b.name := List.mem_singleton.mp h3
          subst he
          unfold dictMem at hmem
          simp only [List.any_eq_true, decide_eq_true_eq] at hmem
          obtain ⟨p, hp, hpe⟩ := hmem
          exact List.mem_map.mpr ⟨p, hp, hpe⟩
      · simpa [hmem] using hm)
    _ _ n h
  have h1 := mem_keys_foldl_keep
    (fun (d : List (String × String)) (nm : String) =>
      if dictMem d nm then dictDel d nm else d)
    (by
      intro d b m hm
      by_cases hmem : dictMem d b
      · simp only [hmem, if_true] at hm
        unfold dictDel at hm
        rcases List.mem_map.mp hm with ⟨p, hp, hpe⟩
        exact List.mem_map.mpr ⟨p, List.mem_of_mem_filter hp, hpe⟩
      · simpa [hmem] using hm)
    _ _ n h2
  exact mem_keys_foldl_dictSet _ _ _ n h1

theorem foldl_applyEntry_names :
    ∀ (chain : List VersionEntry) (st : ReconState) (n : String),
      n ∈ ((chain.foldl applyEntry st).dependencies.map Prod.fst) →
      n ∈ st.dependencies.map Prod.fst ∨
        ∃ e ∈ chain, n ∈ e.hatch_dependencies_added.map RDep.name := by
  intro chain
  induction chain with
  | nil => intro st n h; exact Or.inl h
  | cons e es ih =>
    intro st n h
    rcases ih _ n h with h' | ⟨e', he', hn⟩
    · rcases applyEntry_dep_names st e n h' with h2 | h2
      · exact Or.inl h2
      · exact Or.inr ⟨e, by simp, h2⟩
    · exact Or.inr ⟨e', by simp [he'], hn⟩

theorem reconstruct_dep_names (chain : List VersionEntry) (n : String)
    (h : n ∈ (reconstructDependencies chain).dependencies.map Prod.fst) :
    ∃ e ∈ chain, n ∈ e.hatch_dependencies_added.map RDep.name := by
  unfold reconstructDependencies at h
  simp only at h
  rcases foldl_applyEntry_names chain ⟨[], [], []⟩ n h with h' | h'
  · simp at h'
  · exact h'

theorem foldr_append_eq {α : Type} (f : α → List String) :
    ∀ (l : List α) (acc : List String),
      l.foldr (fun v a => f v ++ a) acc =
        l.foldr (fun v a => f v ++ a) [] ++ acc := by
  intro l
  induction l with
  | nil => intro acc; simp
  | cons x xs ih =>
    intro acc
    simp only [List.foldr_cons, ih acc, List.append_assoc]

theorem mem_foldr_append {α : Type} (f : α → List String) :
    ∀ (l : List α) (acc : List String) (n : String),
      (n ∈ acc ∨ ∃ x ∈ l, n ∈ f x) →
      n ∈ l.foldr (fun v a => f v ++ a) acc := by
  intro l
  induction l with
  | nil =>
    intro acc n h
    rcases h with h | ⟨x, hx, _⟩
    · exact h
    · simp at hx
  | cons x xs ih =>
    intro acc n h
    simp only [List.foldr_cons]
    rcases h with h | ⟨y, hy, hn⟩
    · exact List.mem_append_right _ (ih acc n (Or.inl h))
    · rcases List.mem_cons.mp hy with rfl | hy'
      · exact List.mem_append_left _ hn
      · exact List.mem_append_right _ (ih acc n (Or.inr ⟨y, hy', hn⟩))

theorem mem_regDepNames (r : Registry) (pkg : Package) (e : VersionEntry)
    (n : String)
    (hp : pkg ∈ r.repositories.foldr (fun repo acc => repo.packages ++ acc) [])
    (he : e ∈ pkg.versions)
    (hn : n ∈ e.hatch_dependencies_added.map RDep.name ∨
      n ∈ e.hatch_dependencies_modified.map RDep.name) :
    n ∈ regDepNames (some r) := by
  have hreg_eq : regDepNames (some r) =
      (r.repositories.foldr (fun repo acc => repo.packages ++ acc) []).foldr
        (fun p acc => p.versions.foldr
          (fun v acc' => v.hatch_dependencies_added.map RDep.name ++
            v.hatch_dependencies_modified.map RDep.name ++ acc') acc) [] := rfl
  have hinner : ∀ (vs : List VersionEntry) (acc : List String),
      e ∈ vs →
      n ∈ vs.foldr
        (fun v acc' => v.hatch_dependencies_added.map RDep.name ++
          v.hatch_dependencies_modified.map RDep.name ++ acc') acc := by
    intro vs
    induction vs with
    | nil => intro acc h; simp at h
    | cons v vs' ih =>
      intro acc h
      simp only [List.foldr_cons]
      rcases List.mem_cons.mp h with rfl | h'
      · rcases hn with h2 | h2
        · exact List.mem_append_left _ (List.mem_append_left _ h2)
        · exact List.mem_append_left _ (List.mem_append_right _ h2)
      · exact List.mem_append_right _ (ih acc h')
  have hmono : ∀ (vs : List VersionEntry) (acc : List String),
      n ∈ acc →
      n ∈ vs.foldr
        (fun v acc' => v.hatch_dependencies_added.map RDep.name ++
          v.hatch_dependencies_modified.map RDep.name ++ acc') acc := by
    intro vs
    induction vs with
    | nil => intro acc h; exact h
    | cons v vs' ih2 =>
      intro acc h
      simp only [List.foldr_cons]
      exact List.mem_append_right _ (ih2 acc h)
  rw [hreg_eq]
  revert hp
  generalize r.repositories.foldr (fun repo acc => repo.packages ++ acc) [] = ps
  induction ps with
  | nil => intro hp; simp at hp
  | cons p ps' ih =>
    intro hp
    simp only [List.foldr_cons]
    rcases List.mem_cons.mp hp with rfl | h'
    · exact hinner _ _ he
    · exact hmono _ _ (ih h')

theorem chainWalk_entries (pkg : Package) :
    ∀ (f : Nat) (cur : VersionEntry)
      (r : List VersionEntry × ChainExit × List String),
      chainWalk f pkg cur = some r →
      ∀ e ∈ r.1, e = cur ∨ e ∈ pkg.versions := by
  intro f
  induction f with
  | zero => intro cur r h; simp [chainWalk] at h
  | succ f ih =>
    intro cur r h e he
    rw [chainWalk] at h
    split at h
    · simp only [Option.some_inj] at h
      subst h
      simp only [List.mem_singleton] at he
      exact Or.inl he
    · split at h
      · simp only [Option.some_inj] at h
        subst h
        simp only [List.mem_singleton] at he
        exact Or.inl he
      · rename_i b hb nxt hf
        rcases hw : chainWalk f pkg nxt with _ | r'
        · rw [hw] at h; simp at h
        · rw [hw] at h
          simp only [Option.map_some', Option.some_inj] at h
          subst h
          simp only [List.mem_cons] at he
          rcases he with rfl | he'
          · exact Or.inl rfl
          · rcases ih nxt r' hw e he' with rfl | h2
            · exact Or.inr (List.mem_of_find?_eq_some hf)
            · exact Or.inr h2

theorem gfpd_dep_names (reg : Option Registry) (pname pver : String)
    (fd : FullDeps)
    (h : getFullPackageDependencies reg pname pver = some fd) (n : String)
    (hn : n ∈ fd.dependencies.map Prod.fst) : n ∈ regDepNames reg := by
  unfold getFullPackageDependencies at h
  split at h
  · simp only [Option.some_inj] at h
    subst h
    simp at hn
  · rename_i pkg hfp
    split at h
    · simp only [Option.some_inj] at h
      subst h
      simp at hn
    · rename_i ver hfv
      unfold getVersionChain at h
      rcases hw : chainWalk (chainFuel pkg) pkg ver with _ | w
      · rw [hw] at h; simp at h
      · rw [hw] at h
        simp only [Option.map_some', Option.some_inj] at h
        subst h
        obtain ⟨e, he, hne⟩ := reconstruct_dep_names _ n hn
        have he' : e ∈ w.1 := List.mem_reverse.mp he
        have hev : e ∈ pkg.versions := by
          rcases chainWalk_entries pkg _ ver w hw e he' with rfl | h2
          · exact List.mem_of_find?_eq_some hfv
          · exact h2
        unfold findPackageInRegistry at hfp
        rcases reg with _ | r
        · simp at hfp
        · exact mem_regDepNames r pkg e n (List.mem_of_find?_eq_some hfp)
            hev (Or.inl hne)

theorem mem_fsDepNames (fs : FS) (path : String) (md : LocalMeta)
    (h : getLocalPackageMetadata fs path = some md) (d : BDep)
    (hd : d ∈ md.hatch_dependencies) : d.name ∈ fsDepNames fs := by
  unfold getLocalPackageMetadata at h
  rcases hf : fs.metas.find? (fun m => m.1 = path) with _ | m
  · rw [hf] at h; simp at h
  · rw [hf] at h
    simp only [Option.map_some', Option.some_inj] at h
    subst h
    unfold fsDepNames
    exact mem_foldr_append (fun m => m.2.hatch_dependencies.map BDep.name)
      fs.metas [] d.name
      (Or.inr ⟨m, List.mem_of_find?_eq_some hf,
        List.mem_map.mpr ⟨d, hd, rfl⟩⟩)

theorem graphAdds_queued_mem (trans : List BDep) (processed : List String)
    (d : BDep) (h : d ∈ (graphAdds trans processed).2) : d ∈ trans := by
  unfold graphAdds at h
  have key : ∀ (l : List BDep) (acc : List String × List BDep),
      d ∈ (l.foldl
        (fun (acc : List String × List BDep) d' =>
          if d'.name = "" then acc
          else (acc.1 ++ [d'.name],
            if d'.name ∈ processed then acc.2 else acc.2 ++ [d'])) acc).2 →
      d ∈ acc.2 ∨ d ∈ l := by
    intro l
    induction l with
    | nil => intro acc h'; exact Or.inl h'
    | cons x xs ih =>
      intro acc h'
      rcases ih _ h' with h2 | h2
      · by_cases hx : x.name = ""
        · simp only [hx, if_pos rfl] at h2
          exact Or.inl h2
        · simp only [if_neg hx] at h2
          by_cases hxp : x.name ∈ processed
          · simp only [if_pos hxp] at h2
            exact Or.inl h2
          · simp only [if_neg hxp] at h2
            rcases List.mem_append.mp h2 with h3 | h3
            · exact Or.inl h3
            · have : d = x := List.mem_singleton.mp h3
              exact Or.inr (by simp [this])
      · exact Or.inr (List.mem_cons_of_mem _ h2)
  rcases key trans ([], []) h with h' | h'
  · simp at h'
  · exact h'

theorem bgLoop_adequate (fs : FS) (reg : Option Registry)
    (pkgDir : Option String) (pending : Option (String × LocalMeta))
    (U : List String)
    (hreg : ∀ n v, (getFullPackageDependencies reg n v).isSome = true)
    (hUfs : ∀ n, n ∈ fsDepNames fs → n ∈ U)
    (hUreg : ∀ n, n ∈ regDepNames reg → n ∈ U)
    (hUp : ∀ pname pmd, pending = some (pname, pmd) →
      ∀ d ∈ pmd.hatch_dependencies, d.name ∈ U) :
    ∀ (fuel : Nat) (queue : List BDep) (processed : List String)
      (graph : List (String × List String)),
      processed.Nodup → (∀ p ∈ processed, p ∈ U) →
      (∀ d ∈ queue, d.name ∈ U) →
      U.length < fuel + processed.length →
      (bgLoop fs reg pkgDir pending fuel queue processed graph).isSome
        = true := by
  intro fuel
  induction fuel with
  | zero =>
    intro queue processed graph hnd hpU hqU hlen
    exfalso
    have : processed.length ≤ U.length :=
      List.Subperm.length_le (List.subperm_of_subset hnd hpU)
    omega
  | succ f ihf =>
    intro queue
    induction queue with
    | nil =>
      intro processed graph hnd hpU hqU hlen
      rw [bgLoop.eq_def]
      rfl
    | cons dep rest ihq =>
      intro processed graph hnd hpU hqU hlen
      have hdU : dep.name ∈ U := hqU dep (List.mem_cons_self _ _)
      have hrU : ∀ d ∈ rest, d.name ∈ U :=
        fun d hd => hqU d (List.mem_cons_of_mem _ hd)
      rw [bgLoop.eq_def]
      by_cases hp : dep.name ∈ processed
      · simp only [if_pos hp]
        exact ihq processed graph hnd hpU hrU hlen
      · simp only [if_neg hp]
        have hnd' : (processed ++ [dep.name]).Nodup := by
          simp [List.nodup_append, hnd, hp]
        have hpU' : ∀ p ∈ processed ++ [dep.name], p ∈ U := by
          intro p hp'
          rcases List.mem_append.mp hp' with h | h
          · exact hpU p h
          · rw [List.mem_singleton.mp h]; exact hdU
        have hlen' : U.length < f + (processed ++ [dep.name]).length := by
          simp only [List.length_append, List.length_singleton]
          omega
        have hrem : ∀ (gr : List (String × List String)),
            (bgRemote fs reg pkgDir pending f dep rest
              (processed ++ [dep.name]) gr).isSome = true := by
          intro gr
          rw [bgRemote.eq_def]
          rcases hvd : getPackageVersion reg dep.name dep.version_constraint
            with _ | vd <;> simp only [hvd]
          · exact ihf rest _ gr hnd' hpU' hrU hlen'
          · rcases hpk : findPackageInRegistry reg dep.name with _ | pk <;>
              simp only [hpk]
            · exact ihf rest _ gr hnd' hpU' hrU hlen'
            · rcases hfd : getFullPackageDependencies reg dep.name vd.version
                with _ | fd <;> simp only [hfd]
              · have := hreg dep.name vd.version
                rw [hfd] at this
                simp at this
              · rcases hga : graphAdds (fullDepsAsBDeps fd)
                  (processed ++ [dep.name]) with ⟨names, queued⟩
                simp only [hga]
                apply ihf (rest ++ queued) _ _ hnd' hpU' _ hlen'
                intro d hd
                rcases List.mem_append.mp hd with h | h
                · exact hrU d h
                · have hdm : d ∈ fullDepsAsBDeps fd :=
                    graphAdds_queued_mem _ _ d (by rw [hga]; exact h)
                  unfold fullDepsAsBDeps at hdm
                  rcases List.mem_map.mp hdm with ⟨p, hpm, hpe⟩
                  have hdn : d.name = p.1 := by rw [← hpe]
                  rw [hdn]
                  exact hUreg p.1 (gfpd_dep_names reg dep.name vd.version fd
                    hfd p.1 (List.mem_map.mpr ⟨p, hpm, rfl⟩))
        split
        · split
          · rcases hmd : getLocalPackageMetadata fs
                (resolveUriPath (dep.uri.getD "") pkgDir) with _ | md <;>
              simp only [hmd]
            · exact ihf rest _ _ hnd' hpU' hrU hlen'
            · rcases hga : graphAdds md.hatch_dependencies
                (processed ++ [dep.name]) with ⟨names, queued⟩
              simp only [hga]
              apply ihf (rest ++ queued) _ _ hnd' hpU' _ hlen'
              intro d hd
              rcases List.mem_append.mp hd with h | h
              · exact hrU d h
              · exact hUfs d.name (mem_fsDepNames fs _ md hmd d
                  (graphAdds_queued_mem _ _ d (by rw [hga]; exact h)))
          · exact ihf rest _ _ hnd' hpU' hrU hlen'
        · split
          · rename_i pname pmd
            split
            · apply ihf _ _ _ hnd' hpU' _ hlen'
              intro d hd
              rcases List.mem_append.mp hd with h | h
              · exact hrU d h
              · exact hUp pname pmd rfl d (graphAdds_queued_mem _ _ d h)
            · exact hrem _
          · exact hrem _

theorem buildDependencyGraph_total (fs : FS) (reg : Option Registry)
    (pkgDir : Option String) (pending : Option (String × LocalMeta))
    (deps : List BDep)
    (hreg : ∀ n v, (getFullPackageDependencies reg n v).isSome = true) :
    (buildDependencyGraph fs reg pkgDir pending deps).isSome = true := by
  unfold buildDependencyGraph
  apply bgLoop_adequate fs reg pkgDir pending (bgUniverse deps fs reg pending)
    hreg
  · intro n h
    unfold bgUniverse
    rw [List.mem_dedup]
    simp [h]
  · intro n h
    unfold bgUniverse
    rw [List.mem_dedup]
    simp [h]
  · intro pname pmd hpd d hd
    unfold bgUniverse
    rw [List.mem_dedup]
    rw [hpd]
    simp only [List.mem_append]
    exact Or.inr (List.mem_map.mpr ⟨d, hd, rfl⟩)
  · exact List.nodup_nil
  · intro p hp
    simp at hp
  · intro d hd
    unfold bgUniverse
    rw [List.mem_dedup]
    simp only [List.mem_append]
    exact Or.inl (Or.inl (Or.inl (List.mem_map.mpr
      ⟨d, List.mem_of_mem_filter hd, rfl⟩)))
  · simp

theorem cycStepA (f : Nat) (g : Graph) :
    v11AddLocalGraph cycFS cycCtx (f + 1) cycDep g =
      (v11AddLocalChildren cycFS cycCtx f "A"
        [⟨some "B", none, some ⟨some "local", some "file:///b"⟩⟩] g).map
        (fun r => (r.1, "/a/hatch_metadata.json" :: r.2)) := by
  have h1 : strStartsWith "file:///a" "file://" = true := by decide
  have h2 : resolveUriPath "file:///a" none = "/a" := by decide
  rw [v11AddLocalGraph.eq_def]
  simp [cycDep, cycCtx, cycFS, isTruthy, nameRepr, h1, h2, List.find?]

theorem cycStepB (f : Nat) (g : Graph) :
    v11AddLocalGraph cycFS cycCtx (f + 1)
        ⟨some "B", none, some ⟨some "local", some "file:///b"⟩⟩ g =
      (v11AddLocalChildren cycFS cycCtx f "B" [cycDep] g).map
        (fun r => (r.1, "/b/hatch_metadata.json" :: r.2)) := by
  have h1 : strStartsWith "file:///b" "file://" = true := by decide
  have h2 : resolveUriPath "file:///b" none = "/b" := by decide
  rw [v11AddLocalGraph.eq_def]
  simp [cycDep, cycCtx, cycFS, isTruthy, nameRepr, h1, h2, List.find?]

theorem cycChildNone (f : Nat) (parent : String) (c : SDep) (g : Graph)
    (hname : isTruthy c.sname = true) (hloc : sDepIsLocal c = true)
    (hdiv : ∀ g', v11AddLocalGraph cycFS cycCtx f c g' = none) :
    v11AddLocalChildren cycFS cycCtx f parent [c] g = none := by
  rw [v11AddLocalChildren.eq_def]
  simp [hname, hloc, hdiv]

theorem cycBothDiverge : ∀ fuel,
    (∀ g, v11AddLocalGraph cycFS cycCtx fuel cycDep g = none) ∧
    (∀ g, v11AddLocalGraph cycFS cycCtx fuel
      ⟨some "B", none, some ⟨some "local", some "file:///b"⟩⟩ g = none) := by
  intro fuel
  induction fuel with
  | zero =>
    constructor <;> intro g <;> rw [v11AddLocalGraph.eq_def]
  | succ f ih =>
    constructor
    · intro g
      rw [cycStepA, cycChildNone f "A" _ g (by decide) (by decide) ih.2]
      rfl
    · intro g
      rw [cycStepB, cycChildNone f "B" _ g (by decide) (by decide) ih.1]
      rfl

/-- C4 counterexample: the v1.1.0 strategy's local graph recursion consults
no processed set, so on two local manifests whose dependency declarations
point at each other the expansion exceeds every finite depth (the Python
original recurses until `RecursionError`). -/
theorem v11_local_expansion_diverges : V11LocalDiverges cycFS cycCtx cycDep :=
  fun fuel g => (cycBothDiverge fuel).1 g

/-- **C4**: corrected termination of the transitive expansion.  The
resolver's `_build_dependency_graph` does maintain a shared processed set
keyed by name, and for every declaration list and every underlying
filesystem/registry data whose version-chain walks terminate, the expansion
terminates (the fuel provided in `buildDependencyGraph`, one unit per
universe name, suffices).  The v1.1.0 remote walk likewise consults its
shared processed set: an already-processed name returns immediately with no
expansion.  (The v1.1.0 local recursion, by contrast, consults no processed
set and diverges on cyclic local manifests — see the counterexample.) -/
theorem graph_expansion_termination :
    (∀ (fs : FS) (reg : Option Registry) (pkgDir : Option String)
      (pending : Option (String × LocalMeta)) (deps : List BDep),
      (∀ n v, (getFullPackageDependencies reg n v).isSome = true) →
      (buildDependencyGraph fs reg pkgDir pending deps).isSome = true) ∧
    (∀ (fs : SFS) (ctx : VCtx) (r : Registry) (fuel : Nat) (dep : SDep)
      (g : Graph) (processed : List String),
      dep.sname.getD "" ∈ processed →
      v11AddRemoteGraph fs ctx r (fuel + 1) dep g processed =
        some (g, processed, [])) := by
  constructor
  · intro fs reg pkgDir pending deps hreg
    exact buildDependencyGraph_total fs reg pkgDir pending deps hreg
  · intro fs ctx r fuel dep g processed h
    rw [v11AddRemoteGraph.eq_def]
    simp [h]

theorem graph_expansion_termination_witness :
    (buildDependencyGraph ⟨[], []⟩ none none none
      [⟨"a", none, none, none⟩]).isSome = true ∧
    v11AddRemoteGraph ⟨[], []⟩ ⟨none, true, none, none⟩ ⟨[]⟩ 3
      ⟨some "x", none, none⟩ ⟨[]⟩ ["x"] = some (⟨[]⟩, ["x"], []) :=
  ⟨graph_expansion_termination.1 ⟨[], []⟩ none none none
      [⟨"a", none, none, none⟩] (fun n v => rfl),
    graph_expansion_termination.2 ⟨[], []⟩ ⟨none, true, none, none⟩
      ⟨[]⟩ 2 ⟨some "x", none, none⟩ ⟨[]⟩ ["x"] (by decide)⟩


/-! ### C8: the no-filesystem-access frame for disallowed locals -/

/-- C8 counterexample: in the v1.2.0 strategy, a call with local
dependencies disallowed and one path-like declaration does return
`is_valid = false` with the `not allowed` error — but the subsequent graph
building still probes the filesystem for the local manifest: the access
ledger of the whole call is nonempty. -/
theorem v12_frame_violation :
    v12ValidateDependencies v12Fs v12Ctx 3 v12Meta1 =
      some ((false, ["Local dependency 'loc/pkgA' not allowed in this context"]),
        ["/p/loc/pkgA/hatch_metadata.json"]) ∧
    ∀ res, v12ValidateDependencies v12Fs v12Ctx 3 v12Meta1 = some res →
      ¬ res.2 = [] := by
  constructor
  · decide
  · intro res hres
    have : res = ((false,
        ["Local dependency 'loc/pkgA' not allowed in this context"]),
        ["/p/loc/pkgA/hatch_metadata.json"]) := by
      have h : v12ValidateDependencies v12Fs v12Ctx 3 v12Meta1 =
          some ((false,
            ["Local dependency 'loc/pkgA' not allowed in this context"]),
            ["/p/loc/pkgA/hatch_metadata.json"]) := by decide
      rw [h] at hres
      exact (Option.some_inj.mp hres).symm
    rw [this]
    simp

/-- **C8**: the frame property as the code upholds it.  In the v1.1.0
strategy a call with registry data, local dependencies disallowed and at
least one local-typed declaration fails immediately with one
`not allowed` error per local declaration and an empty filesystem-access
ledger — no filesystem access in the whole call.  In the v1.2.0 strategy
the per-declaration check likewise fails with the `not allowed` error and
performs no filesystem access — but the frame holds only for that phase:
the call's graph-building phase still probes the filesystem (see the
counterexample). -/
theorem local_disallowed_no_fs_access :
    (∀ (fs : SFS) (ctx : VCtx) (fuel : Nat) (meta : SMeta) (r : Registry),
      ctx.registry = some r → ctx.allowLocal = false →
      ¬ (meta.hatch_dependencies.filter sDepIsLocal).isEmpty = true →
      v11ValidateDependencies fs ctx fuel meta =
        some ((false,
          (meta.hatch_dependencies.filter sDepIsLocal).map (fun d =>
            "Local dependency '" ++ nameRepr d.sname
              ++ "' not allowed in this context")), [])) ∧
    (∀ (fs : V12FS) (r : Registry) (ctx : VCtx) (dep : V12Dep),
      ctx.allowLocal = false → isTruthy dep.name = true →
      isPathLike (dep.name.getD "") = true →
      (v12ValidateSingle fs r ctx dep).2 = [] ∧
      (v12ValidateSingle fs r ctx dep).1.1 = false ∧
      ("Local dependency '" ++ dep.name.getD ""
        ++ "' not allowed in this context") ∈ (v12ValidateSingle fs r ctx dep).1.2) := by
  constructor
  · intro fs ctx fuel meta r hr hal hloc
    unfold v11ValidateDependencies
    rw [hr]
    simp only [hal]
    simp [hloc]
  · intro fs r ctx dep hal hname hpath
    unfold v12ValidateSingle
    simp only [hname, hal, hpath]
    simp

theorem local_disallowed_no_fs_access_witness :
    (v11ValidateDependencies ⟨[], []⟩ ⟨some ⟨[]⟩, false, none, none⟩ 3
      ⟨[⟨some "L", none, some ⟨some "local", some "file:///l"⟩⟩], []⟩ =
      some ((false, ["Local dependency 'L' not allowed in this context"]),
        [])) ∧
    (v12ValidateSingle v12Fs ⟨[]⟩ v12Ctx ⟨some "loc/pkgA", none, none⟩).2 =
      [] := by
  constructor
  · have h := local_disallowed_no_fs_access.1 ⟨[], []⟩
      ⟨some ⟨[]⟩, false, none, none⟩ 3
      ⟨[⟨some "L", none, some ⟨some "local", some "file:///l"⟩⟩], []⟩
      ⟨[]⟩ rfl rfl (by decide)
    rw [h]
    decide
  · exact (local_disallowed_no_fs_access.2 v12Fs ⟨[]⟩ v12Ctx
      ⟨some "loc/pkgA", none, none⟩ (by decide) (by decide) (by decide)).1


/-! ### C3 and the cycle-detection half of C7: the three-colour DFS -/

theorem dictGetD_dictSet_self {α : Type} (d : List (String × α))
    (k : String) (v w : α) : dictGetD (dictSet d k v) k w = v := by
  unfold dictGetD dictSet
  by_cases h : d.any (fun p => p.1 = k)
  · rw [if_pos h]
    have hf : List.find? (fun p => decide (p.1 = k))
        (d.map (fun p => if p.1 = k then (k, v) else p)) = some (k, v) := by
      induction d with
      | nil => simp at h
      | cons p ps ih =>
        simp only [List.map_cons]
        by_cases hp : p.1 = k
        · rw [if_pos hp]
          exact List.find?_cons_of_pos _ (by simp)
        · rw [if_neg hp, List.find?_cons_of_neg _ (by simp [hp])]
          apply ih
          simp only [List.any_cons, Bool.or_eq_true_iff] at h
          rcases h with h' | h'
          · simp [hp] at h'
          · exact h'
    rw [hf]
  · rw [if_neg h]
    have hnone : List.find? (fun p => decide (p.1 = k)) d = none := by
      rw [List.find?_eq_none]
      intro p hp
      simp only [List.any_eq_true] at h
      simp only [decide_eq_true_eq]
      intro he
      exact h ⟨p, hp, by simp [he]⟩
    rw [List.find?_append, hnone]
    simp

theorem dictGetD_dictSet_ne {α : Type} (d : List (String × α))
    (k n : String) (v : α) (w : α) (hkn : ¬ k = n) :
    dictGetD (dictSet d k v) n w = dictGetD d n w := by
  unfold dictGetD dictSet
  have hf : ∀ (l : List (String × α)),
      List.find? (fun p => decide (p.1 = n))
        (l.map (fun p => if p.1 = k then (k, v) else p)) =
      List.find? (fun p => decide (p.1 = n)) l := by
    intro l
    induction l with
    | nil => simp
    | cons p ps ih =>
      simp only [List.map_cons]
      by_cases hp : p.1 = n
      · have hpk : ¬ p.1 = k := by rw [hp]; intro he; exact hkn he.symm
        rw [if_neg hpk, List.find?_cons_of_pos _ (by simp [hp]),
          List.find?_cons_of_pos _ (by simp [hp])]
      · by_cases hpk : p.1 = k
        · rw [if_pos hpk, List.find?_cons_of_neg _ (by simp [hkn]),
            List.find?_cons_of_neg _ (by simp [hp])]
          exact ih
        · rw [if_neg hpk, List.find?_cons_of_neg _ (by simp [hp]),
            List.find?_cons_of_neg _ (by simp [hp])]
          exact ih
  by_cases h : d.any (fun p => p.1 = k)
  · rw [if_pos h, hf]
  · rw [if_neg h, List.find?_append]
    cases hfd : List.find? (fun p => decide (p.1 = n)) d
    · simp [hkn]
    · simp

theorem mem_adjGet_allPackages (g : Graph) (n d : String)
    (h : d ∈ adjGet g n) : d ∈ getAllPackages g := by
  unfold adjGet dictGetD at h
  rcases hf : g.adj.find? (fun p => p.1 = n) with _ | p
  · rw [hf] at h; simp at h
  · rw [hf] at h
    unfold getAllPackages
    rw [List.mem_dedup]
    apply List.mem_append_right
    have hp : p ∈ g.adj := List.mem_of_find?_eq_some hf
    exact mem_foldr_append (fun (q : String × List String) => q.2) g.adj [] d
      (Or.inr ⟨p, hp, h⟩)

theorem filter_imp_length_le (l : List String) (p q : String → Bool)
    (h : ∀ x ∈ l, p x = true → q x = true) :
    (l.filter p).length ≤ (l.filter q).length := by
  induction l with
  | nil => simp
  | cons x xs ih =>
    have ih' := ih (fun y hy => h y (List.mem_cons_of_mem _ hy))
    by_cases hx : p x = true
    · rw [List.filter_cons_of_pos hx,
        List.filter_cons_of_pos (h x (List.mem_cons_self _ _) hx)]
      simpa using ih'
    · rw [List.filter_cons_of_neg (by simpa using hx)]
      by_cases hqx : q x = true
      · rw [List.filter_cons_of_pos hqx]
        exact Nat.le_succ_of_le ih'
      · rw [List.filter_cons_of_neg (by simpa using hqx)]
        exact ih'

theorem indexOf_concat_self (l : List String) (a : String) (h : a ∉ l) :
    (l ++ [a]).indexOf a = l.length := by
  rw [List.indexOf_append_of_not_mem h, List.indexOf_cons_self]
  omega

theorem chainTransGen {R : String → String → Prop} :
    ∀ (l : List String) (x y : String), List.Chain' R (x :: l) →
      R ((x :: l).getLast (by simp)) y → Relation.TransGen R x y := by
  intro l
  induction l with
  | nil =>
    intro x y _ hr
    exact Relation.TransGen.single (by simpa using hr)
  | cons z zs ih =>
    intro x y hc hr
    rw [List.chain'_cons] at hc
    exact Relation.TransGen.head hc.1
      (ih z y hc.2 (by simpa [List.getLast_cons] using hr))

theorem filter_length_lt (l : List String) (p q : String → Bool)
    (h : ∀ x ∈ l, p x = true → q x = true) (a : String) (ha : a ∈ l)
    (hqa : q a = true) (hpa : p a = false) :
    (l.filter p).length < (l.filter q).length := by
  induction l with
  | nil => simp at ha
  | cons x xs ih =>
    have himp : ∀ y ∈ xs, p y = true → q y = true :=
      fun y hy => h y (List.mem_cons_of_mem _ hy)
    rcases List.mem_cons.mp ha with rfl | ha'
    · rw [List.filter_cons_of_neg (by simp [hpa]), List.filter_cons_of_pos hqa]
      exact Nat.lt_succ_of_le (filter_imp_length_le xs p q himp)
    · by_cases hx : p x = true
      · rw [List.filter_cons_of_pos hx,
          List.filter_cons_of_pos (h x (List.mem_cons_self _ _) hx)]
        simpa using ih himp ha'
      · rw [List.filter_cons_of_neg (by simpa using hx)]
        by_cases hqx : q x = true
        · rw [List.filter_cons_of_pos hqx]
          exact Nat.lt_succ_of_lt (ih himp ha')
        · rw [List.filter_cons_of_neg (by simpa using hqx)]
          exact ih himp ha'

theorem whiteCount_mono (g : Graph) (s t : DfsState)
    (h : ∀ n, colorOf t n = 0 → colorOf s n = 0) :
    whiteCount g t ≤ whiteCount g s := by
  unfold whiteCount
  apply filter_imp_length_le
  intro x _ hx
  simp only [decide_eq_true_eq] at hx ⊢
  exact h x hx

theorem dfsVisit_spec (g : Graph) :
    ∀ (fuel : Nat) (node : String) (s : DfsState),
      DfsInv g s → node ∈ getAllPackages g → whiteCount g s < fuel →
      (s.path = [] ∨ ∃ parent, s.path.getLast? = some parent ∧
        node ∈ adjGet g parent) →
      DfsInv g (dfsVisit fuel g node s) ∧
      (dfsVisit fuel g node s).path = s.path ∧
      (dfsVisit fuel g node s).ok = s.ok ∧
      (∀ n, colorOf (dfsVisit fuel g node s) n = 1 ↔ colorOf s n = 1) ∧
      (∀ n, colorOf (dfsVisit fuel g node s) n = 0 → colorOf s n = 0) ∧
      (∀ n, colorOf s n = 2 → colorOf (dfsVisit fuel g node s) n = 2) ∧
      ¬ colorOf (dfsVisit fuel g node s) node = 0 ∧
      (colorOf s node = 0 → colorOf (dfsVisit fuel g node s) node = 2) ∧
      (∃ added, (dfsVisit fuel g node s).cycles = s.cycles ++ added) ∧
      (∃ addedF, (dfsVisit fuel g node s).fin = s.fin ++ addedF) ∧
      (∀ c ∈ (dfsVisit fuel g node s).cycles, c ∈ s.cycles ∨ HasCycle g) ∧
      (∀ X, X ∈ adjGet g X → colorOf s X = 0 →
        ¬ colorOf (dfsVisit fuel g node s) X = 0 →
        [X, X] ∈ (dfsVisit fuel g node s).cycles) := by
  intro fuel
  induction fuel with
  | zero =>
    intro node s _ _ hW _
    exact absurd hW (Nat.not_lt_zero _)
  | succ f ihf =>
    intro node s hInv hnodeU hW hpar
    obtain ⟨hnd, hgray, hblack, hfnd, hchain, hwf⟩ := hInv
    by_cases hc1 : colorOf s node = 1
    · -- gray hit: record one cycle, state otherwise unchanged
      have hstep : dfsVisit (f + 1) g node s =
          { s with cycles := s.cycles ++
            [s.path.drop (s.path.indexOf node) ++ [node]] } := by
        simp only [dfsVisit, if_pos hc1]
      rw [hstep]
      have hmem : node ∈ s.path := (hgray node).mp hc1
      have hcyc : HasCycle g := by
        rcases hpar with hnil | ⟨parent, hlast, hadj⟩
        · rw [hnil] at hmem; simp at hmem
        · have hi : s.path.indexOf node < s.path.length :=
            List.indexOf_lt_length.mpr hmem
          have hseg : s.path.drop (s.path.indexOf node) =
              node :: s.path.drop (s.path.indexOf node + 1) := by
            rw [List.drop_eq_getElem_cons hi, List.getElem_indexOf hi]
          have hchain2 : List.Chain' (Step g)
              (s.path.drop (s.path.indexOf node)) := by
            have := hchain
            rw [← List.take_append_drop (s.path.indexOf node) s.path] at this
            exact (List.chain'_append.mp this).2.1
          have hlast2 : (s.path.drop (s.path.indexOf node)).getLast? =
              some parent := by
            rw [← hlast]
            conv_rhs => rw [← List.take_append_drop (s.path.indexOf node) s.path]
            rw [List.getLast?_append_of_ne_nil _ (by rw [hseg]; simp)]
          refine ⟨node, ?_⟩
          rw [hseg] at hchain2 hlast2
          apply chainTransGen _ node node hchain2
          have : (node :: s.path.drop (s.path.indexOf node + 1)).getLast
              (by simp) = parent := by
            have h2 := List.getLast?_eq_getLast_of_ne_nil
              (l := node :: s.path.drop (s.path.indexOf node + 1)) (by simp)
            rw [h2] at hlast2
            exact Option.some_inj.mp hlast2
          rw [this]
          exact hadj
      refine ⟨⟨hnd, hgray, hblack, hfnd, hchain, hwf⟩, rfl, rfl,
        fun n => Iff.rfl, fun n h => h, fun n h => h, ?_, ?_, ?_, ?_, ?_, ?_⟩
      · show ¬ colorOf s node = 0
        rw [hc1]; simp
      · intro h0
        rw [hc1] at h0; simp at h0
      · exact ⟨[s.path.drop (s.path.indexOf node) ++ [node]], rfl⟩
      · exact ⟨[], (List.append_nil _).symm⟩
      · intro c hc
        simp only [List.mem_append] at hc
        rcases hc with hc | _
        · exact Or.inl hc
        · exact Or.inr hcyc
      · intro X _ hX0 hX1
        exact absurd hX0 hX1
    · by_cases hc2 : colorOf s node = 2
      · -- black hit: no-op
        have hstep : dfsVisit (f + 1) g node s = s := by
          simp only [dfsVisit, if_neg hc1, if_pos hc2]
        rw [hstep]
        refine ⟨⟨hnd, hgray, hblack, hfnd, hchain, hwf⟩, rfl, rfl,
          fun n => Iff.rfl, fun n h => h, fun n h => h, ?_, ?_,
          ⟨[], (List.append_nil _).symm⟩, ⟨[], (List.append_nil _).symm⟩,
          fun c hc => Or.inl hc, ?_⟩
        · rw [hc2]; simp
        · intro h0; rw [hc2] at h0; simp at h0
        · intro X _ hX0 hX1
          exact absurd hX0 hX1
      · -- white: gray the node, visit children, blacken
        have hc0 : colorOf s node = 0 := by
          rcases hwf node with h | h | h
          · exact h
          · exact absurd h hc1
          · exact absurd h hc2
        have hnp : node ∉ s.path := fun h => hc1 ((hgray node).mpr h)
        have hnf : node ∉ s.fin := fun h => hc2 ((hblack node).mpr h)
        have hcol1self : colorOf
            { s with colors := dictSet s.colors node 1, path := s.path ++ [node] } node = 1 := by
          simp only [colorOf]
          exact dictGetD_dictSet_self _ _ _ _
        have hcol1ne : ∀ n, ¬ node = n → colorOf
            { s with colors := dictSet s.colors node 1, path := s.path ++ [node] } n = colorOf s n := by
          intro n hne
          simp only [colorOf]
          exact dictGetD_dictSet_ne _ _ _ _ _ hne
        have hInv1 : DfsInv g { s with colors := dictSet s.colors node 1, path := s.path ++ [node] } := by
          refine ⟨?_, ?_, ?_, hfnd, ?_, ?_⟩
          · simp only
            rw [List.nodup_append]
            exact ⟨hnd, List.nodup_singleton _, by simp [hnp]⟩
          · intro n
            by_cases hne : node = n
            · subst hne
              simp only [hcol1self, List.mem_append, List.mem_singleton]
              simp
            · rw [hcol1ne n hne]
              simp only [List.mem_append, List.mem_singleton]
              constructor
              · intro h; exact Or.inl ((hgray n).mp h)
              · intro h
                rcases h with h | h
                · exact (hgray n).mpr h
                · exact absurd h.symm hne
          · intro n
            by_cases hne : node = n
            · subst hne
              rw [hcol1self]
              simp [hnf]
            · rw [hcol1ne n hne]
              exact hblack n
          · simp only
            rcases hpar with hnil | ⟨parent, hlast, hadj⟩
            · rw [hnil]; simp
            · rw [List.chain'_append]
              refine ⟨hchain, List.chain'_singleton _, ?_⟩
              intro x hx y hy
              simp only [List.head?_cons, Option.mem_def, Option.some_inj] at hy
              rw [hlast] at hx
              simp only [Option.mem_def, Option.some_inj] at hx
              subst hx; subst hy
              exact hadj
          · intro n
            by_cases hne : node = n
            · subst hne; rw [hcol1self]; simp
            · rw [hcol1ne n hne]; exact hwf n
        have hW1 : whiteCount g { s with colors := dictSet s.colors node 1, path := s.path ++ [node] } < whiteCount g s := by
          apply filter_length_lt _ _ _ _ node hnodeU
          · simp [hc0]
          · simp [hcol1self]
          · intro x _ hx
            simp only [decide_eq_true_eq] at hx ⊢
            by_cases hne : node = x
            · subst hne; rw [hcol1self] at hx; simp at hx
            · rw [hcol1ne x hne] at hx; exact hx
        have hWf1 : whiteCount g { s with colors := dictSet s.colors node 1, path := s.path ++ [node] } < f := by
          omega
        -- the loop over the children, all at fuel f
        have hFold : ∀ (children : List String) (st : DfsState),
            (∀ d ∈ children, d ∈ adjGet g node) →
            DfsInv g st →
            st.path = s.path ++ [node] →
            (∀ n, colorOf st n = 1 ↔ colorOf
              { s with colors := dictSet s.colors node 1, path := s.path ++ [node] } n = 1) →
            whiteCount g st < f →
            DfsInv g (children.foldl (fun acc d => dfsVisit f g d acc) st) ∧
            (children.foldl (fun acc d => dfsVisit f g d acc) st).path
              = st.path ∧
            (children.foldl (fun acc d => dfsVisit f g d acc) st).ok
              = st.ok ∧
            (∀ n, colorOf (children.foldl (fun acc d => dfsVisit f g d acc) st)
              n = 1 ↔ colorOf st n = 1) ∧
            (∀ n, colorOf (children.foldl (fun acc d => dfsVisit f g d acc) st)
              n = 0 → colorOf st n = 0) ∧
            (∀ n, colorOf st n = 2 → colorOf
              (children.foldl (fun acc d => dfsVisit f g d acc) st) n = 2) ∧
            (∃ added, (children.foldl (fun acc d => dfsVisit f g d acc)
              st).cycles = st.cycles ++ added) ∧
            (∃ addedF, (children.foldl (fun acc d => dfsVisit f g d acc)
              st).fin = st.fin ++ addedF) ∧
            (∀ c ∈ (children.foldl (fun acc d => dfsVisit f g d acc)
              st).cycles, c ∈ st.cycles ∨ HasCycle g) ∧
            (∀ X, X ∈ adjGet g X → colorOf st X = 0 →
              ¬ colorOf (children.foldl (fun acc d => dfsVisit f g d acc) st)
                X = 0 →
              [X, X] ∈ (children.foldl (fun acc d => dfsVisit f g d acc)
                st).cycles) ∧
            (node ∈ children → [node, node] ∈
              (children.foldl (fun acc d => dfsVisit f g d acc) st).cycles) ∧
            (∀ d ∈ children, ¬ colorOf
              (children.foldl (fun acc d => dfsVisit f g d acc) st) d = 0) := by
          intro children
          induction children with
          | nil =>
            intro st _ hInvSt _ _ _
            refine ⟨hInvSt, rfl, rfl, fun n => Iff.rfl, fun n h => h,
              fun n h => h, ⟨[], (List.append_nil _).symm⟩,
              ⟨[], (List.append_nil _).symm⟩, fun c hc => Or.inl hc,
              ?_, ?_, ?_⟩
            · intro X _ h0 h1; exact absurd h0 h1
            · intro h; simp at h
            · intro d hd; simp at hd
          | cons c cs ihc =>
            intro st hcs hInvSt hpathSt hgraySt hWst
            have hcadj : c ∈ adjGet g node := hcs c (List.mem_cons_self _ _)
            have hcU : c ∈ getAllPackages g :=
              mem_adjGet_allPackages g node c hcadj
            have hparc : st.path = [] ∨ ∃ parent,
                st.path.getLast? = some parent ∧ c ∈ adjGet g parent := by
              right
              refine ⟨node, ?_, hcadj⟩
              rw [hpathSt]
              rw [List.getLast?_append_of_ne_nil _ (by simp)]
              simp
            obtain ⟨cInv, cpath, cok, cgray, cwhite, cblack, cnode0, cnode2,
              ccycadd, cfinadd, csound, cflip⟩ :=
              ihf c st hInvSt hcU hWst hparc
            have hWst1 : whiteCount g (dfsVisit f g c st) < f :=
              Nat.lt_of_le_of_lt (whiteCount_mono g st _ cwhite) hWst
            have hgraySt1 : ∀ n, colorOf (dfsVisit f g c st) n = 1 ↔ colorOf
                { s with colors := dictSet s.colors node 1, path := s.path ++ [node] } n = 1 :=
              fun n => (cgray n).trans (hgraySt n)
            obtain ⟨fInv, fpath, fok, fgray, fwhite, fblack, fcycadd, ffinadd,
              fsound, fflip, fnodeC, fchild⟩ :=
              ihc (dfsVisit f g c st)
                (fun d hd => hcs d (List.mem_cons_of_mem _ hd))
                cInv (cpath.trans hpathSt) hgraySt1 hWst1
            simp only [List.foldl_cons]
            refine ⟨fInv, fpath.trans cpath, fok.trans cok,
              fun n => (fgray n).trans (cgray n),
              fun n h => cwhite n (fwhite n h),
              fun n h => fblack n (cblack n h), ?algcyc, ?algfin, ?algsound,
              ?algflip, ?algnode, ?algchild⟩
            case algcyc =>
              obtain ⟨a₁, ha₁⟩ := ccycadd
              obtain ⟨a₂, ha₂⟩ := fcycadd
              exact ⟨a₁ ++ a₂, by rw [ha₂, ha₁, List.append_assoc]⟩
            case algfin =>
              obtain ⟨a₁, ha₁⟩ := cfinadd
              obtain ⟨a₂, ha₂⟩ := ffinadd
              exact ⟨a₁ ++ a₂, by rw [ha₂, ha₁, List.append_assoc]⟩
            case algsound =>
              intro cy hcy
              rcases fsound cy hcy with h | h
              · exact csound cy h
              · exact Or.inr h
            case algflip =>
              intro X hXX hX0 hX1
              by_cases hXc : colorOf (dfsVisit f g c st) X = 0
              · obtain ⟨a₂, ha₂⟩ := fcycadd
                exact fflip X hXX hXc hX1
              · have hXrec := cflip X hXX hX0 hXc
                obtain ⟨a₂, ha₂⟩ := fcycadd
                rw [ha₂]
                exact List.mem_append_left _ hXrec
            case algnode =>
              intro hnc
              rcases List.mem_cons.mp hnc with rfl | hcs'
              · -- the call on the gray node records exactly [node, node]
                have hng : colorOf st node = 1 := by
                  rw [hgraySt node]
                  exact hcol1self
                have hrec : dfsVisit f g node st =
                    { st with cycles := st.cycles ++
                      [st.path.drop (st.path.indexOf node) ++ [node]] } := by
                  cases f with
                  | zero => exact absurd hWst (Nat.not_lt_zero _)
                  | succ f2 => simp only [dfsVisit, if_pos hng]
                have hidx : st.path.indexOf node = s.path.length := by
                  rw [hpathSt]
                  exact indexOf_concat_self s.path node hnp
                have hval : st.path.drop (st.path.indexOf node) = [node] := by
                  rw [hidx, hpathSt, List.drop_left]
                have hmm2 : [node, node] ∈ (dfsVisit f g node st).cycles := by
                  rw [hrec]
                  simp only [hval]
                  simp
                obtain ⟨a₂, ha₂⟩ := fcycadd
                rw [ha₂]
                exact List.mem_append_left _ hmm2
              · exact fnodeC hcs'
            case algchild =>
              intro d hd
              rcases List.mem_cons.mp hd with rfl | hd'
              · intro h0
                exact cnode0 (fwhite d h0)
              · exact fchild d hd'
        obtain ⟨fInv, fpath, fok, fgray, fwhite, fblack, fcycadd, ffinadd,
          fsound, fflip, fnodeC, fchild⟩ :=
          hFold (adjGet g node)
            { s with colors := dictSet s.colors node 1, path := s.path ++ [node] }
            (fun d hd => hd) hInv1 rfl (fun n => Iff.rfl) hWf1
        have hstep : dfsVisit (f + 1) g node s =
            { (adjGet g node).foldl (fun acc d => dfsVisit f g d acc) { s with colors := dictSet s.colors node 1, path := s.path ++ [node] } with
              colors := dictSet ((adjGet g node).foldl (fun acc d => dfsVisit f g d acc) { s with colors := dictSet s.colors node 1, path := s.path ++ [node] }).colors node 2
              path := ((adjGet g node).foldl (fun acc d => dfsVisit f g d acc) { s with colors := dictSet s.colors node 1, path := s.path ++ [node] }).path.dropLast
              fin := ((adjGet g node).foldl (fun acc d => dfsVisit f g d acc) { s with colors := dictSet s.colors node 1, path := s.path ++ [node] }).fin ++ [node] } := by
          simp only [dfsVisit, if_neg hc1, if_neg hc2]
        rw [hstep]
        try dsimp only
        set F := (adjGet g node).foldl (fun acc d => dfsVisit f g d acc)
          { s with colors := dictSet s.colors node 1, path := s.path ++ [node] } with hF
        obtain ⟨fnd2, fgrayiff, fblackiff, ffnd, fchain, fwf⟩ := fInv
        have hfin3self : dictGetD (dictSet F.colors node 2) node 0 = 2 :=
          dictGetD_dictSet_self _ _ _ _
        have hfin3ne : ∀ n, ¬ node = n →
            dictGetD (dictSet F.colors node 2) n 0 = colorOf F n :=
          fun n hne => dictGetD_dictSet_ne _ _ _ _ _ hne
        have hpath3 : F.path.dropLast = s.path := by
          rw [fpath]
          try dsimp only
          rw [List.dropLast_concat]
        have hnodegrayF : colorOf F node = 1 := by
          rw [fgray node]
          exact hcol1self
        have hnodenotfinF : node ∉ F.fin := by
          intro h
          have := (fblackiff node).mpr h
          rw [hnodegrayF] at this
          simp at this
        refine ⟨⟨?_, ?_, ?_, ?_, ?_, ?_⟩, hpath3, fok, ?_, ?_, ?_, ?_, ?_,
          ?_, ?_, ?_, ?_⟩
        · try dsimp only
          rw [hpath3]
          exact hnd
        · intro n
          simp only [colorOf]
          try dsimp only
          rw [hpath3]
          by_cases hne : node = n
          · subst hne
            rw [hfin3self]
            simp [hnp]
          · rw [hfin3ne n hne, fgray n]
            rw [hcol1ne n hne]
            exact hgray n
        · intro n
          simp only [colorOf]
          try dsimp only
          by_cases hne : node = n
          · subst hne
            rw [hfin3self]
            simp
          · rw [hfin3ne n hne]
            simp only [List.mem_append, List.mem_singleton]
            rw [fblackiff n]
            constructor
            · intro h; exact Or.inl h
            · intro h
              rcases h with h | h
              · exact h
              · exact absurd h.symm hne
        · try dsimp only
          rw [List.nodup_append]
          exact ⟨ffnd, List.nodup_singleton _, by simp [hnodenotfinF]⟩
        · try dsimp only
          rw [hpath3]
          exact hchain
        · intro n
          simp only [colorOf]
          try dsimp only
          by_cases hne : node = n
          · subst hne
            rw [hfin3self]
            simp
          · rw [hfin3ne n hne]
            exact fwf n
        · intro n
          simp only [colorOf]
          try dsimp only
          by_cases hne : node = n
          · subst hne
            rw [hfin3self]
            have h0d : dictGetD s.colors node 0 = 0 := hc0
            rw [h0d]
            simp
          · rw [hfin3ne n hne]
            rw [fgray n, hcol1ne n hne]
            exact Iff.rfl
        · intro n h0
          simp only [colorOf] at h0
          try dsimp only at h0
          by_cases hne : node = n
          · subst hne
            rw [hfin3self] at h0
            simp at h0
          · rw [hfin3ne n hne] at h0
            have := fwhite n h0
            rw [hcol1ne n hne] at this
            exact this
        · intro n h2
          simp only [colorOf]
          try dsimp only
          by_cases hne : node = n
          · subst hne
            exact hfin3self
          · rw [hfin3ne n hne]
            apply fblack
            rw [hcol1ne n hne]
            exact h2
        · simp only [colorOf]
          try dsimp only
          rw [hfin3self]
          simp
        · intro _
          simp only [colorOf]
          try dsimp only
          exact hfin3self
        · obtain ⟨a, ha⟩ := fcycadd
          exact ⟨a, by rw [ha]⟩
        · obtain ⟨a, ha⟩ := ffinadd
          exact ⟨a ++ [node], by rw [ha, List.append_assoc]⟩
        · intro cy hcy
          try dsimp only at hcy
          exact fsound cy hcy
        · intro X hXX hX0 hX1
          try dsimp only
          by_cases hne : node = X
          · subst hne
            exact fnodeC hXX
          · simp only [colorOf] at hX1
            try dsimp only at hX1
            rw [hfin3ne X hne] at hX1
            apply fflip X hXX _ hX1
            rw [hcol1ne X hne]
            exact hX0

theorem dfsFold_spec (g : Graph) (f : Nat) :
    ∀ (children : List String) (st : DfsState),
      DfsInv g st →
      (∀ d ∈ children, d ∈ getAllPackages g) →
      (∀ d ∈ children, st.path = [] ∨ ∃ parent,
        st.path.getLast? = some parent ∧ d ∈ adjGet g parent) →
      whiteCount g st < f →
      DfsInv g (children.foldl (fun acc d => dfsVisit f g d acc) st) ∧
      (children.foldl (fun acc d => dfsVisit f g d acc) st).path = st.path ∧
      (∀ n, colorOf (children.foldl (fun acc d => dfsVisit f g d acc) st) n
        = 0 → colorOf st n = 0) ∧
      (∀ n, colorOf (children.foldl (fun acc d => dfsVisit f g d acc) st) n
        = 1 ↔ colorOf st n = 1) ∧
      (∀ n, colorOf st n = 2 →
        colorOf (children.foldl (fun acc d => dfsVisit f g d acc) st) n
          = 2) ∧
      (∃ added, (children.foldl (fun acc d => dfsVisit f g d acc) st).cycles
        = st.cycles ++ added) := by
  intro children
  induction children with
  | nil =>
    intro st hInv _ _ _
    exact ⟨hInv, rfl, fun n h => h, fun n => Iff.rfl, fun n h => h,
      ⟨[], (List.append_nil _).symm⟩⟩
  | cons c cs ih =>
    intro st hInv hU hpar hW
    obtain ⟨cInv, cpath, cok, cgray, cwhite, cblack, cnode0, cnode2,
      ccycadd, cfinadd, csound, cflip⟩ :=
      dfsVisit_spec g f c st hInv (hU c (List.mem_cons_self _ _)) hW
        (hpar c (List.mem_cons_self _ _))
    have hW1 : whiteCount g (dfsVisit f g c st) < f :=
      Nat.lt_of_le_of_lt (whiteCount_mono g st _ cwhite) hW
    have hpar1 : ∀ d ∈ cs, (dfsVisit f g c st).path = [] ∨ ∃ parent,
        (dfsVisit f g c st).path.getLast? = some parent ∧
        d ∈ adjGet g parent := by
      intro d hd
      rw [cpath]
      exact hpar d (List.mem_cons_of_mem _ hd)
    obtain ⟨fInv, fpath, fwhite, fgray2, fblack, fcycadd⟩ :=
      ih (dfsVisit f g c st) cInv
        (fun d hd => hU d (List.mem_cons_of_mem _ hd)) hpar1 hW1
    simp only [List.foldl_cons]
    refine ⟨fInv, fpath.trans cpath,
      fun n h => cwhite n (fwhite n h),
      fun n => (fgray2 n).trans (cgray n),
      fun n h => fblack n (cblack n h), ?_⟩
    obtain ⟨a₁, ha₁⟩ := ccycadd
    obtain ⟨a₂, ha₂⟩ := fcycadd
    exact ⟨a₁ ++ a₂, by rw [ha₂, ha₁, List.append_assoc]⟩

theorem dfsVisit_fin (g : Graph) :
    ∀ (fuel : Nat) (node : String) (s : DfsState),
      DfsInv g s → node ∈ getAllPackages g → whiteCount g s < fuel →
      (s.path = [] ∨ ∃ parent, s.path.getLast? = some parent ∧
        node ∈ adjGet g parent) →
      FinInv g s →
      (dfsVisit fuel g node s).cycles = s.cycles →
      FinInv g (dfsVisit fuel g node s) := by
  intro fuel
  induction fuel with
  | zero =>
    intro node s _ _ hW _ _ _
    exact absurd hW (Nat.not_lt_zero _)
  | succ f ihf =>
    intro node s hInv hnodeU hW hpar hFin hcyc
    obtain ⟨hnd, hgray, hblack, hfnd, hchain, hwf⟩ := hInv
    by_cases hc1 : colorOf s node = 1
    · -- the gray hit records a cycle: contradiction with hcyc
      exfalso
      have hstep : dfsVisit (f + 1) g node s =
          { s with cycles := s.cycles ++
            [s.path.drop (s.path.indexOf node) ++ [node]] } := by
        simp only [dfsVisit, if_pos hc1]
      rw [hstep] at hcyc
      simp only at hcyc
      have := List.append_cancel_left
        (hcyc.trans (List.append_nil s.cycles).symm)
      simp at this
    · by_cases hc2 : colorOf s node = 2
      · have hstep : dfsVisit (f + 1) g node s = s := by
          simp only [dfsVisit, if_neg hc1, if_pos hc2]
        rw [hstep]
        exact hFin
      · have hc0 : colorOf s node = 0 := by
          rcases hwf node with h | h | h
          · exact h
          · exact absurd h hc1
          · exact absurd h hc2
        have hnp : node ∉ s.path := fun h => hc1 ((hgray node).mpr h)
        have hnf : node ∉ s.fin := fun h => hc2 ((hblack node).mpr h)
        obtain ⟨cInv, cpath, cok, cgray, cwhite, cblack, cnode0, cnode2,
          ccycadd, cfinadd, csound, cflip⟩ :=
          dfsVisit_spec g (f + 1) node s
            ⟨hnd, hgray, hblack, hfnd, hchain, hwf⟩ hnodeU hW hpar
        have hstep : dfsVisit (f + 1) g node s =
            { (adjGet g node).foldl (fun acc d => dfsVisit f g d acc) { s with colors := dictSet s.colors node 1, path := s.path ++ [node] } with
              colors := dictSet ((adjGet g node).foldl (fun acc d => dfsVisit f g d acc) { s with colors := dictSet s.colors node 1, path := s.path ++ [node] }).colors node 2
              path := ((adjGet g node).foldl (fun acc d => dfsVisit f g d acc) { s with colors := dictSet s.colors node 1, path := s.path ++ [node] }).path.dropLast
              fin := ((adjGet g node).foldl (fun acc d => dfsVisit f g d acc) { s with colors := dictSet s.colors node 1, path := s.path ++ [node] }).fin ++ [node] } := by
          simp only [dfsVisit, if_neg hc1, if_neg hc2]
        have hcol1self : colorOf { s with colors := dictSet s.colors node 1, path := s.path ++ [node] } node = 1 := by
          simp only [colorOf]
          exact dictGetD_dictSet_self _ _ _ _
        have hcol1ne : ∀ n, ¬ node = n → colorOf { s with colors := dictSet s.colors node 1, path := s.path ++ [node] } n = colorOf s n := by
          intro n hne
          simp only [colorOf]
          exact dictGetD_dictSet_ne _ _ _ _ _ hne
        have hInv1 : DfsInv g { s with colors := dictSet s.colors node 1, path := s.path ++ [node] } := by
          refine ⟨?_, ?_, ?_, hfnd, ?_, ?_⟩
          · simp only
            rw [List.nodup_append]
            exact ⟨hnd, List.nodup_singleton _, by simp [hnp]⟩
          · intro n
            by_cases hne : node = n
            · subst hne
              simp only [hcol1self, List.mem_append, List.mem_singleton]
              simp
            · rw [hcol1ne n hne]
              simp only [List.mem_append, List.mem_singleton]
              constructor
              · intro h; exact Or.inl ((hgray n).mp h)
              · intro h
                rcases h with h | h
                · exact (hgray n).mpr h
                · exact absurd h.symm hne
          · intro n
            by_cases hne : node = n
            · subst hne
              rw [hcol1self]
              simp [hnf]
            · rw [hcol1ne n hne]
              exact hblack n
          · simp only
            rcases hpar with hnil | ⟨parent, hlast, hadj⟩
            · rw [hnil]; simp
            · rw [List.chain'_append]
              refine ⟨hchain, List.chain'_singleton _, ?_⟩
              intro x hx y hy
              simp only [List.head?_cons, Option.mem_def, Option.some_inj] at hy
              rw [hlast] at hx
              simp only [Option.mem_def, Option.some_inj] at hx
              subst hx; subst hy
              exact hadj
          · intro n
            by_cases hne : node = n
            · subst hne; rw [hcol1self]; simp
            · rw [hcol1ne n hne]; exact hwf n
        have hFin1 : FinInv g { s with colors := dictSet s.colors node 1, path := s.path ++ [node] } := hFin
        have hW1lt : whiteCount g { s with colors := dictSet s.colors node 1, path := s.path ++ [node] } < f := by
          have hlt : whiteCount g { s with colors := dictSet s.colors node 1, path := s.path ++ [node] } < whiteCount g s := by
            apply filter_length_lt _ _ _ _ node hnodeU
            · simp [hc0]
            · simp [hcol1self]
            · intro x _ hx
              simp only [decide_eq_true_eq] at hx ⊢
              by_cases hne : node = x
              · subst hne; rw [hcol1self] at hx; simp at hx
              · rw [hcol1ne x hne] at hx; exact hx
          omega
        -- the cycle list never grows during this call
        have hcycF : ((adjGet g node).foldl (fun acc d => dfsVisit f g d acc)
            { s with colors := dictSet s.colors node 1, path := s.path ++ [node] }).cycles = s.cycles := by
          have h1 := congrArg DfsState.cycles hstep
          rw [hcyc] at h1
          simpa using h1.symm
        have hFoldFin : ∀ (children : List String) (st : DfsState),
            (∀ d ∈ children, d ∈ adjGet g node) →
            DfsInv g st →
            st.path = s.path ++ [node] →
            whiteCount g st < f →
            FinInv g st →
            (children.foldl (fun acc d => dfsVisit f g d acc) st).cycles
              = st.cycles →
            FinInv g (children.foldl (fun acc d => dfsVisit f g d acc) st) ∧
            (∀ d ∈ children, colorOf
              (children.foldl (fun acc d => dfsVisit f g d acc) st) d
                = 2) := by
          intro children
          induction children with
          | nil =>
            intro st _ _ _ _ hFinSt _
            exact ⟨hFinSt, fun d hd => absurd hd (by simp)⟩
          | cons c cs ihc =>
            intro st hcs hInvSt hpathSt hWst hFinSt hcycSt
            have hcadj : c ∈ adjGet g node := hcs c (List.mem_cons_self _ _)
            have hcU : c ∈ getAllPackages g :=
              mem_adjGet_allPackages g node c hcadj
            have hparc : st.path = [] ∨ ∃ parent,
                st.path.getLast? = some parent ∧ c ∈ adjGet g parent := by
              right
              refine ⟨node, ?_, hcadj⟩
              rw [hpathSt, List.getLast?_append_of_ne_nil _ (by simp)]
              simp
            obtain ⟨dInv, dpath, dok, dgray, dwhite, dblack, dnode0, dnode2,
              dcycadd, dfinadd, dsound, dflip⟩ :=
              dfsVisit_spec g f c st hInvSt hcU hWst hparc
            have hparcs : ∀ d ∈ cs, (dfsVisit f g c st).path = [] ∨
                ∃ parent, (dfsVisit f g c st).path.getLast? = some parent ∧
                d ∈ adjGet g parent := by
              intro d hd
              right
              refine ⟨node, ?_, hcs d (List.mem_cons_of_mem _ hd)⟩
              rw [dpath, hpathSt, List.getLast?_append_of_ne_nil _ (by simp)]
              simp
            have hWd : whiteCount g (dfsVisit f g c st) < f :=
              Nat.lt_of_le_of_lt (whiteCount_mono g st _ dwhite) hWst
            obtain ⟨eInv, epath, ewhite, egray, eblack, ecycadd⟩ :=
              dfsFold_spec g f cs (dfsVisit f g c st) dInv
                (fun d hd => mem_adjGet_allPackages g node d
                  (hcs d (List.mem_cons_of_mem _ hd))) hparcs hWd
            obtain ⟨a₁, ha₁⟩ := dcycadd
            obtain ⟨a₂, ha₂⟩ := ecycadd
            have hsplit : a₁ = [] ∧ a₂ = [] := by
              simp only [List.foldl_cons] at hcycSt
              rw [ha₂, ha₁, List.append_assoc] at hcycSt
              have h1 := List.append_cancel_left
                (hcycSt.trans (List.append_nil st.cycles).symm)
              exact List.append_eq_nil.mp h1
            have hcycd : (dfsVisit f g c st).cycles = st.cycles := by
              rw [ha₁, hsplit.1, List.append_nil]
            have hcblack : colorOf (dfsVisit f g c st) c = 2 := by
              rcases hInvSt.2.2.2.2.2 c with h | h | h
              · exact dnode2 h
              · exfalso
                have hrec : (dfsVisit f g c st).cycles = st.cycles ++
                    [st.path.drop (st.path.indexOf c) ++ [c]] := by
                  cases f with
                  | zero => exact absurd hWst (Nat.not_lt_zero _)
                  | succ f2 =>
                    simp only [dfsVisit, if_pos h]
                rw [hcycd] at hrec
                have := List.append_cancel_left
                  (hrec.symm.trans (List.append_nil st.cycles).symm)
                simp at this
              · exact dblack c h
            have hdFin : FinInv g (dfsVisit f g c st) :=
              ihf c st hInvSt hcU hWst hparc hFinSt hcycd
            have hcyce : (cs.foldl (fun acc d => dfsVisit f g d acc)
                (dfsVisit f g c st)).cycles = (dfsVisit f g c st).cycles := by
              rw [ha₂, hsplit.2, List.append_nil]
            obtain ⟨fFin, fblack2⟩ :=
              ihc (dfsVisit f g c st)
                (fun d hd => hcs d (List.mem_cons_of_mem _ hd)) dInv
                (dpath.trans hpathSt) hWd hdFin hcyce
            simp only [List.foldl_cons]
            refine ⟨fFin, ?_⟩
            intro d hd
            rcases List.mem_cons.mp hd with rfl | hd'
            · exact eblack d hcblack
            · exact fblack2 d hd'
        obtain ⟨fFin, fchildblack⟩ :=
          hFoldFin (adjGet g node)
            { s with colors := dictSet s.colors node 1, path := s.path ++ [node] }
            (fun d hd => hd) hInv1 rfl hW1lt hFin1 hcycF
        obtain ⟨gInv, gpath, gwhite, ggray, gblack, gcycadd⟩ :=
          dfsFold_spec g f (adjGet g node)
            { s with colors := dictSet s.colors node 1, path := s.path ++ [node] }
            hInv1 (fun d hd => mem_adjGet_allPackages g node d hd)
            (by
              intro d hd
              right
              refine ⟨node, ?_, hd⟩
              simp only
              rw [List.getLast?_append_of_ne_nil _ (by simp)]
              simp) hW1lt
        rw [hstep]
        try dsimp only
        set F := (adjGet g node).foldl (fun acc d => dfsVisit f g d acc)
          { s with colors := dictSet s.colors node 1, path := s.path ++ [node] } with hF
        obtain ⟨fnd2, fgrayiff, fblackiff, ffnd, fchain, fwf⟩ := gInv
        have hnodegrayF : colorOf F node = 1 :=
          (ggray node).mpr hcol1self
        have hnodenotfinF : node ∉ F.fin := by
          intro h
          have := (fblackiff node).mpr h
          rw [hnodegrayF] at this
          simp at this
        intro a ha b hab
        simp only at ha ⊢
        rcases List.mem_append.mp ha with haf | han
        · obtain ⟨hbF, hlt⟩ := fFin a haf b hab
          refine ⟨List.mem_append_left _ hbF, ?_⟩
          rw [List.indexOf_append_of_mem hbF, List.indexOf_append_of_mem haf]
          exact hlt
        · have han' : a = node := List.mem_singleton.mp han
          subst han'
          have hbc : b ∈ adjGet g a := hab
          have hbblack : colorOf F b = 2 := fchildblack b hbc
          have hbF : b ∈ F.fin := (fblackiff b).mp hbblack
          refine ⟨List.mem_append_left _ hbF, ?_⟩
          rw [List.indexOf_append_of_mem hbF,
            List.indexOf_append_of_not_mem hnodenotfinF,
            List.indexOf_cons_self]
          have := List.indexOf_lt_length.mpr hbF
          omega

theorem dfsRoots_spec (g : Graph) :
    DfsInv g (dfsRoots g (dfsFuel g)) ∧
    (dfsRoots g (dfsFuel g)).path = [] ∧
    (∀ p ∈ getAllPackages g, ¬ colorOf (dfsRoots g (dfsFuel g)) p = 0) ∧
    (∀ c ∈ (dfsRoots g (dfsFuel g)).cycles, HasCycle g) ∧
    (∀ X, X ∈ adjGet g X → [X, X] ∈ (dfsRoots g (dfsFuel g)).cycles) ∧
    ((dfsRoots g (dfsFuel g)).cycles = [] →
      FinInv g (dfsRoots g (dfsFuel g))) := by
  have hWle : ∀ s : DfsState, whiteCount g s < dfsFuel g := by
    intro s
    unfold whiteCount dfsFuel
    exact Nat.lt_succ_of_le (List.length_filter_le _ _)
  have hRF : ∀ (ps : List String) (s : DfsState),
      (∀ p ∈ ps, p ∈ getAllPackages g) → DfsInv g s → s.path = [] →
      DfsInv g (ps.foldl (fun s p => if colorOf s p = 0 then
        dfsVisit (dfsFuel g) g p s else s) s) ∧
      (ps.foldl (fun s p => if colorOf s p = 0 then
        dfsVisit (dfsFuel g) g p s else s) s).path = [] ∧
      (∀ n, colorOf (ps.foldl (fun s p => if colorOf s p = 0 then
        dfsVisit (dfsFuel g) g p s else s) s) n = 0 → colorOf s n = 0) ∧
      (∃ added, (ps.foldl (fun s p => if colorOf s p = 0 then
        dfsVisit (dfsFuel g) g p s else s) s).cycles = s.cycles ++ added) ∧
      (∀ c ∈ (ps.foldl (fun s p => if colorOf s p = 0 then
        dfsVisit (dfsFuel g) g p s else s) s).cycles,
        c ∈ s.cycles ∨ HasCycle g) ∧
      (∀ X, X ∈ adjGet g X → colorOf s X = 0 →
        ¬ colorOf (ps.foldl (fun s p => if colorOf s p = 0 then
          dfsVisit (dfsFuel g) g p s else s) s) X = 0 →
        [X, X] ∈ (ps.foldl (fun s p => if colorOf s p = 0 then
          dfsVisit (dfsFuel g) g p s else s) s).cycles) ∧
      (∀ p ∈ ps, ¬ colorOf (ps.foldl (fun s p => if colorOf s p = 0 then
        dfsVisit (dfsFuel g) g p s else s) s) p = 0) ∧
      ((ps.foldl (fun s p => if colorOf s p = 0 then
        dfsVisit (dfsFuel g) g p s else s) s).cycles = s.cycles →
        FinInv g s →
        FinInv g (ps.foldl (fun s p => if colorOf s p = 0 then
          dfsVisit (dfsFuel g) g p s else s) s)) := by
    intro ps
    induction ps with
    | nil =>
      intro s _ hInv _
      exact ⟨hInv, by assumption, fun n h => h,
        ⟨[], (List.append_nil _).symm⟩, fun c hc => Or.inl hc,
        fun X _ h0 h1 => absurd h0 h1, fun p hp => absurd hp (by simp),
        fun _ hFin => hFin⟩
    | cons p ps' ih =>
      intro s hps hInv hpath
      by_cases hp0 : colorOf s p = 0
      · simp only [List.foldl_cons, if_pos hp0]
        obtain ⟨cInv, cpath, cok, cgray, cwhite, cblack, cnode0, cnode2,
          ccycadd, cfinadd, csound, cflip⟩ :=
          dfsVisit_spec g (dfsFuel g) p s hInv
            (hps p (List.mem_cons_self _ _)) (hWle s) (Or.inl hpath)
        obtain ⟨fInv, fpath, fwhite, fcycadd, fsound, fflip, fproc, ffin⟩ :=
          ih (dfsVisit (dfsFuel g) g p s)
            (fun q hq => hps q (List.mem_cons_of_mem _ hq)) cInv
            (cpath.trans hpath)
        refine ⟨fInv, fpath, fun n h => cwhite n (fwhite n h), ?_, ?_, ?_,
          ?_, ?_⟩
        · obtain ⟨a₁, ha₁⟩ := ccycadd
          obtain ⟨a₂, ha₂⟩ := fcycadd
          exact ⟨a₁ ++ a₂, by rw [ha₂, ha₁, List.append_assoc]⟩
        · intro c hc
          rcases fsound c hc with h | h
          · exact csound c h
          · exact Or.inr h
        · intro X hXX hX0 hX1
          by_cases hXc : colorOf (dfsVisit (dfsFuel g) g p s) X = 0
          · exact fflip X hXX hXc hX1
          · obtain ⟨a₂, ha₂⟩ := fcycadd
            rw [ha₂]
            exact List.mem_append_left _ (cflip X hXX hX0 hXc)
        · intro q hq
          rcases List.mem_cons.mp hq with rfl | hq'
          · intro h0
            exact cnode0 (fwhite q h0)
          · exact fproc q hq'
        · intro hEq hFin
          obtain ⟨a₁, ha₁⟩ := ccycadd
          obtain ⟨a₂, ha₂⟩ := fcycadd
          rw [ha₂, ha₁, List.append_assoc] at hEq
          have h1 := List.append_cancel_left
            (hEq.trans (List.append_nil s.cycles).symm)
          obtain ⟨he₁, he₂⟩ := List.append_eq_nil.mp h1
          have hcyc1 : (dfsVisit (dfsFuel g) g p s).cycles = s.cycles := by
            rw [ha₁, he₁, List.append_nil]
          have hFin1 : FinInv g (dfsVisit (dfsFuel g) g p s) :=
            dfsVisit_fin g (dfsFuel g) p s hInv
              (hps p (List.mem_cons_self _ _)) (hWle s) (Or.inl hpath)
              hFin hcyc1
          apply ffin _ hFin1
          rw [ha₂, he₂, List.append_nil]
      · simp only [List.foldl_cons, if_neg hp0]
        obtain ⟨fInv, fpath, fwhite, fcycadd, fsound, fflip, fproc, ffin⟩ :=
          ih s (fun q hq => hps q (List.mem_cons_of_mem _ hq)) hInv hpath
        refine ⟨fInv, fpath, fwhite, fcycadd, fsound, fflip, ?_, ffin⟩
        intro q hq
        rcases List.mem_cons.mp hq with rfl | hq'
        · intro h0
          exact hp0 (fwhite q h0)
        · exact fproc q hq'
  have hInit : DfsInv g ⟨[], [], [], [], true⟩ := by
    refine ⟨List.nodup_nil, ?_, ?_, List.nodup_nil, List.chain'_nil, ?_⟩
    · intro n
      simp [colorOf, dictGetD]
    · intro n
      simp [colorOf, dictGetD]
    · intro n
      simp [colorOf, dictGetD]
  obtain ⟨fInv, fpath, fwhite, fcycadd, fsound, fflip, fproc, ffin⟩ :=
    hRF (getAllPackages g) ⟨[], [], [], [], true⟩ (fun p hp => hp) hInit rfl
  refine ⟨fInv, fpath, ?_, ?_, ?_, ?_⟩
  · exact fproc
  · intro c hc
    rcases fsound c hc with h | h
    · simp at h
    · exact h
  · intro X hXX
    apply fflip X hXX
    · simp [colorOf, dictGetD]
    · exact fproc X (mem_adjGet_allPackages g X X hXX)
  · intro hEq
    apply ffin hEq
    intro a ha
    simp at ha

/-- **C3**: `detect_cycles` runs its three-colour DFS from every still-white
root, so it reports every self-loop as the one-element cycle `[X, X]`
(the slice of the path from the node to itself): two self-looping nodes
both get their cycle reported, not only the first one found, and the flag
is set. -/
theorem detect_cycles_reports_all (g : Graph) (X Y : String)
    (hX : X ∈ adjGet g X) (hY : Y ∈ adjGet g Y) :
    [X, X] ∈ (detectCycles g).2 ∧ [Y, Y] ∈ (detectCycles g).2 ∧
    (detectCycles g).1 = true := by
  obtain ⟨_, _, _, _, hself, _⟩ := dfsRoots_spec g
  have hXX := hself X hX
  have hYY := hself Y hY
  refine ⟨hXX, hYY, ?_⟩
  unfold detectCycles
  simp only [decide_eq_true_eq]
  exact List.length_pos.mpr (by
    intro h
    rw [h] at hXX
    simp at hXX)

theorem detect_cycles_reports_all_witness :
    [("A" : String), "A"] ∈
      (detectCycles ⟨[("A", ["A"]), ("B", ["B"])]⟩).2 ∧
    [("B" : String), "B"] ∈
      (detectCycles ⟨[("A", ["A"]), ("B", ["B"])]⟩).2 ∧
    (detectCycles ⟨[("A", ["A"]), ("B", ["B"])]⟩).1 = true :=
  detect_cycles_reports_all ⟨[("A", ["A"]), ("B", ["B"])]⟩ "A" "B"
    (by decide) (by decide)

theorem hasCycle_of_cycles_ne_nil (g : Graph)
    (h : ¬ (dfsRoots g (dfsFuel g)).cycles = []) : HasCycle g := by
  obtain ⟨_, _, _, hsound, _, _⟩ := dfsRoots_spec g
  rcases List.exists_mem_of_ne_nil _ h with ⟨c, hc⟩
  exact hsound c hc

theorem detect_of_hasCycle (g : Graph) (h : HasCycle g) :
    (detectCycles g).1 = true := by
  by_contra hfalse
  have hcyc : (dfsRoots g (dfsFuel g)).cycles = [] := by
    by_contra hne
    apply hfalse
    unfold detectCycles
    simp only [decide_eq_true_eq]
    exact List.length_pos.mpr hne
  obtain ⟨hInv, hpath, hproc, _, _, hfin⟩ := dfsRoots_spec g
  have hFin : FinInv g (dfsRoots g (dfsFuel g)) := hfin hcyc
  obtain ⟨a, ha⟩ := h
  have haU : a ∈ getAllPackages g := by
    cases ha with
    | single hs => exact mem_adjGet_allPackages g a a hs
    | tail _ hs => exact mem_adjGet_allPackages g _ a hs
  have hblacka : a ∈ (dfsRoots g (dfsFuel g)).fin := by
    rcases hInv.2.2.2.2.2 a with h0 | h1 | h2
    · exact absurd h0 (hproc a haU)
    · exfalso
      have := (hInv.2.1 a).mp h1
      rw [hpath] at this
      simp at this
    · exact (hInv.2.2.1 a).mp h2
  have hrank : ∀ x y, Relation.TransGen (Step g) x y →
      x ∈ (dfsRoots g (dfsFuel g)).fin →
      y ∈ (dfsRoots g (dfsFuel g)).fin ∧
      (dfsRoots g (dfsFuel g)).fin.indexOf y <
        (dfsRoots g (dfsFuel g)).fin.indexOf x := by
    intro x y hxy
    induction hxy with
    | single hs =>
      intro hx
      exact hFin x hx _ hs
    | tail h1 hs ih =>
      intro hx
      obtain ⟨hb, hlt⟩ := ih hx
      obtain ⟨hy, hlt2⟩ := hFin _ hb _ hs
      exact ⟨hy, Nat.lt_trans hlt2 hlt⟩
  obtain ⟨_, hlt⟩ := hrank a a ha hblacka
  exact Nat.lt_irrefl _ hlt

theorem detectCycles_acyclic (g : Graph) (h : ¬ HasCycle g) :
    detectCycles g = (false, []) := by
  have hcyc : (dfsRoots g (dfsFuel g)).cycles = [] := by
    by_contra hne
    exact h (hasCycle_of_cycles_ne_nil g hne)
  unfold detectCycles
  simp only [hcyc]
  simp


theorem dictMem_iff {α : Type} (d : List (String × α)) (k : String) :
    dictMem d k = true ↔ k ∈ d.map Prod.fst := by
  unfold dictMem
  simp only [List.any_eq_true, decide_eq_true_eq, List.mem_map]

theorem find?_key_of_nodup (l : List (String × List String))
    (hnd : (l.map Prod.fst).Nodup) (p : String × List String) (hp : p ∈ l) :
    l.find? (fun q => q.1 = p.1) = some p := by
  induction l with
  | nil => simp at hp
  | cons q qs ih =>
    rcases List.mem_cons.mp hp with rfl | hp'
    · exact List.find?_cons_of_pos _ (by simp)
    · by_cases hq : q.1 = p.1
      · exfalso
        rw [List.map_cons, List.nodup_cons] at hnd
        exact hnd.1 (hq ▸ List.mem_map.mpr ⟨p, hp', rfl⟩)
      · rw [List.find?_cons_of_neg _ (by simpa using hq)]
        rw [List.map_cons, List.nodup_cons] at hnd
        exact ih hnd.2 hp'

theorem adjGet_eq_of_key (g : Graph) (hg : (g.adj.map Prod.fst).Nodup)
    (p : String × List String) (hp : p ∈ g.adj) : adjGet g p.1 = p.2 := by
  unfold adjGet dictGetD
  rw [find?_key_of_nodup g.adj hg p hp]

theorem adjGet_eq_nil_of_not_key (g : Graph) (x : String)
    (hx : x ∉ g.adj.map Prod.fst) : adjGet g x = [] := by
  unfold adjGet dictGetD
  have : g.adj.find? (fun q => q.1 = x) = none := by
    rw [List.find?_eq_none]
    intro p hp
    simp only [decide_eq_true_eq]
    intro he
    exact hx (List.mem_map.mpr ⟨p, hp, he⟩)
  rw [this]

theorem keys_subset_allPackages (g : Graph) (k : String)
    (hk : k ∈ g.adj.map Prod.fst) : k ∈ getAllPackages g := by
  unfold getAllPackages
  rw [List.mem_dedup]
  exact List.mem_append_left _ hk

theorem count_filter_eq (a : String) (p : String → Bool) :
    ∀ (l : List String),
      (l.filter p).count a = if p a then l.count a else 0 := by
  intro l
  induction l with
  | nil => simp
  | cons x xs ih =>
    by_cases hx : p x
    · rw [List.filter_cons_of_pos hx]
      by_cases hax : x = a
      · subst hax
        simp only [List.count_cons_self, ih, hx, if_true]
      · rw [List.count_cons_of_ne (by simpa using (Ne.symm hax)),
          List.count_cons_of_ne (by simpa using (Ne.symm hax)), ih]
    · rw [List.filter_cons_of_neg (by simpa using hx)]
      by_cases hax : x = a
      · subst hax
        simp only [ih]
        have : ¬ p x = true := hx
        simp [this]
      · rw [List.count_cons_of_ne (by simpa using (Ne.symm hax)), ih]

theorem perm_split_subset (S T : List String) (hT : T.Nodup) (hS : S.Nodup)
    (hsub : ∀ x ∈ S, x ∈ T) :
    T.Perm (S ++ T.filter (fun x => decide (x ∉ S))) := by
  rw [List.perm_iff_count]
  intro a
  rw [List.count_append, count_filter_eq]
  by_cases haS : a ∈ S
  · have h1 : S.count a = 1 := List.count_eq_one_of_mem hS haS
    have h2 : T.count a = 1 := List.count_eq_one_of_mem hT (hsub a haS)
    simp [h1, h2, haS]
  · have h1 : S.count a = 0 := List.count_eq_zero_of_not_mem haS
    simp [h1, haS]

theorem sum_split_subset (S T : List String) (f : String → Int)
    (hT : T.Nodup) (hS : S.Nodup) (hsub : ∀ x ∈ S, x ∈ T) :
    (T.map f).sum = (S.map f).sum +
      ((T.filter (fun x => decide (x ∉ S))).map f).sum := by
  have hp := perm_split_subset S T hT hS hsub
  have := (hp.map f).sum_eq
  rw [this, List.map_append, List.sum_append]

theorem sum_le_subset (S T : List String) (f : String → Int)
    (hT : T.Nodup) (hS : S.Nodup) (hsub : ∀ x ∈ S, x ∈ T)
    (hf : ∀ x, 0 ≤ f x) :
    (S.map f).sum ≤ (T.map f).sum := by
  rw [sum_split_subset S T f hT hS hsub]
  have : 0 ≤ ((T.filter (fun x => decide (x ∉ S))).map f).sum :=
    List.sum_nonneg (by
      intro x hx
      rcases List.mem_map.mp hx with ⟨y, _, rfl⟩
      exact hf y)
  omega

theorem allPackages_nodup (g : Graph) : (getAllPackages g).Nodup := by
  unfold getAllPackages
  exact List.nodup_dedup _

theorem indeg0_nonneg (g : Graph) (n : String) : 0 ≤ indeg0 g n := by
  unfold indeg0
  apply List.sum_nonneg
  intro x hx
  rcases List.mem_map.mp hx with ⟨p, _, rfl⟩
  exact Int.ofNat_nonneg _

theorem poppedSum_nonneg (g : Graph) (res : List String) (n : String) :
    0 ≤ poppedSum g res n := by
  unfold poppedSum
  apply List.sum_nonneg
  intro x hx
  rcases List.mem_map.mp hx with ⟨p, _, rfl⟩
  exact Int.ofNat_nonneg _

theorem poppedSum_append (g : Graph) (res : List String) (c n : String) :
    poppedSum g (res ++ [c]) n = poppedSum g res n + (cntE g c n : Int) := by
  unfold poppedSum
  rw [List.map_append, List.sum_append]
  simp

theorem indeg0_eq_sum_allPackages (g : Graph)
    (hg : (g.adj.map Prod.fst).Nodup) (n : String) :
    indeg0 g n = ((getAllPackages g).map
      (fun a => ((cntE g a n : Nat) : Int))).sum := by
  have h1 : indeg0 g n = ((g.adj.map Prod.fst).map
      (fun a => ((cntE g a n : Nat) : Int))).sum := by
    unfold indeg0
    rw [List.map_map]
    congr 1
    apply List.map_congr_left
    intro p hp
    simp only [Function.comp_apply]
    unfold cntE
    rw [adjGet_eq_of_key g hg p hp]
  rw [h1]
  rw [sum_split_subset (g.adj.map Prod.fst) (getAllPackages g) _
    (allPackages_nodup g) hg (fun x hx => keys_subset_allPackages g x hx)]
  have h2 : (((getAllPackages g).filter
      (fun x => decide (x ∉ g.adj.map Prod.fst))).map
      (fun a => ((cntE g a n : Nat) : Int))).sum = 0 := by
    apply List.sum_eq_zero
    intro x hx
    rcases List.mem_map.mp hx with ⟨y, hy, rfl⟩
    have hy2 : y ∉ g.adj.map Prod.fst := by
      have := List.of_mem_filter hy
      simpa using this
    unfold cntE
    rw [adjGet_eq_nil_of_not_key g y hy2]
    simp
  omega

theorem pred_in_of_sum (g : Graph) (hg : (g.adj.map Prod.fst).Nodup)
    (res : List String) (hrn : res.Nodup)
    (hrU : ∀ x ∈ res, x ∈ getAllPackages g) (n : String)
    (hE : indeg0 g n ≤ poppedSum g res n) (a : String) (ha : Step g a n) :
    a ∈ res := by
  by_contra hanotin
  have haU : a ∈ getAllPackages g := by
    apply keys_subset_allPackages
    by_contra hkey
    have := adjGet_eq_nil_of_not_key g a hkey
    unfold Step at ha
    rw [this] at ha
    simp at ha
  have hcnt : 1 ≤ (cntE g a n : Int) := by
    unfold cntE
    have := List.count_pos_iff_mem.mpr ha
    omega
  have hresU : ∀ x ∈ res, x ∈
      (getAllPackages g).filter (fun x => decide (¬ x = a)) := by
    intro x hx
    rw [List.mem_filter]
    refine ⟨hrU x hx, ?_⟩
    simp only [decide_eq_true_eq]
    intro he
    exact hanotin (he ▸ hx)
  have h1 : poppedSum g res n ≤ (((getAllPackages g).filter
      (fun x => decide (¬ x = a))).map
      (fun x => ((cntE g x n : Nat) : Int))).sum := by
    unfold poppedSum
    exact sum_le_subset res _ _ (List.Nodup.filter _ (allPackages_nodup g))
      hrn hresU (fun x => Int.ofNat_nonneg _)
  have hsplit : ((getAllPackages g).map
      (fun x => ((cntE g x n : Nat) : Int))).sum =
      (([a]).map (fun x => ((cntE g x n : Nat) : Int))).sum +
      (((getAllPackages g).filter (fun x => decide (x ∉ [a]))).map
        (fun x => ((cntE g x n : Nat) : Int))).sum :=
    sum_split_subset [a] (getAllPackages g) _ (allPackages_nodup g)
      (List.nodup_singleton _) (by simpa using haU)
  have hfe : (getAllPackages g).filter (fun x => decide (x ∉ [a])) =
      (getAllPackages g).filter (fun x => decide (¬ x = a)) := by
    apply List.filter_congr
    intro x _
    simp
  rw [hfe] at hsplit
  rw [indeg0_eq_sum_allPackages g hg n] at hE
  rw [hsplit] at hE
  simp only [List.map_cons, List.map_nil, List.sum_cons, List.sum_nil] at hE
  omega

theorem degMass_dictSet (d : List (String × Int)) (k : String) (v : Int)
    (hnd : (d.map Prod.fst).Nodup) (hk : k ∈ d.map Prod.fst) :
    degMass (dictSet d k v) + (dictGetD d k 0).toNat
      = degMass d + v.toNat := by
  induction d with
  | nil => simp at hk
  | cons p ps ih =>
    rw [List.map_cons, List.nodup_cons] at hnd
    by_cases hp : p.1 = k
    · have hknotps : k ∉ ps.map Prod.fst := hp ▸ hnd.1
      have hset : dictSet (p :: ps) k v = (k, v) :: ps := by
        unfold dictSet
        rw [if_pos (by simp [List.any_cons, hp])]
        simp only [List.map_cons, if_pos hp]
        congr 1
        conv_rhs => rw [← List.map_id ps]
        apply List.map_congr_left
        intro q hq
        have hqk : ¬ q.1 = k :=
          fun he => hknotps (he ▸ List.mem_map.mpr ⟨q, hq, rfl⟩)
        simp [hqk]
      have hget : dictGetD (p :: ps) k 0 = p.2 := by
        unfold dictGetD
        rw [List.find?_cons_of_pos _ (by simp [hp])]
      rw [hset, hget]
      unfold degMass
      simp only [List.map_cons, List.sum_cons]
      omega
    · have hkps : k ∈ ps.map Prod.fst := by
        rcases List.mem_map.mp hk with ⟨q, hq, rfl⟩
        rcases List.mem_cons.mp hq with rfl | hq'
        · exact absurd rfl hp
        · exact List.mem_map.mpr ⟨q, hq', rfl⟩
      have hany : ps.any (fun q => q.1 = k) = true := by
        have := (dictMem_iff ps k).mpr hkps
        exact this
      have hset : dictSet (p :: ps) k v = p :: dictSet ps k v := by
        unfold dictSet
        rw [if_pos (by simp [List.any_cons, hany]), if_pos hany]
        simp [hp]
      have hget : dictGetD (p :: ps) k 0 = dictGetD ps k 0 := by
        unfold dictGetD
        rw [List.find?_cons_of_neg _ (by simp [hp])]
      rw [hset, hget]
      unfold degMass at ih ⊢
      simp only [List.map_cons, List.sum_cons]
      have := ih hnd.2 hkps
      omega

theorem dictSet_keys_of_mem {α : Type} (d : List (String × α)) (k : String)
    (v : α) (hk : k ∈ d.map Prod.fst) :
    (dictSet d k v).map Prod.fst = d.map Prod.fst := by
  rw [dictSet_keys]
  rw [if_pos (show d.any (fun p => p.1 = k) = true from (dictMem_iff d k).mpr hk)]

theorem kahnStepAux (deg₀ : List (String × Int))
    (hnd₀ : (deg₀.map Prod.fst).Nodup) :
    ∀ (l done : List String) (d : List (String × Int)) (pu : List String),
      d.map Prod.fst = deg₀.map Prod.fst →
      (∀ n, dictGetD d n 0 = dictGetD deg₀ n 0 - (done.count n : Int)) →
      (∀ n, n ∈ pu ↔ (0 < dictGetD deg₀ n 0 ∧
        dictGetD deg₀ n 0 ≤ (done.count n : Int))) →
      pu.Nodup →
      (∀ x ∈ l, x ∈ deg₀.map Prod.fst) →
      degMass d + pu.length ≤ degMass deg₀ →
      ((l.foldl (fun (p : List (String × Int) × List String) dep =>
        let d' := dictSet p.1 dep (dictGetD p.1 dep 0 - 1)
        if dictGetD d' dep 0 = 0 then (d', p.2 ++ [dep]) else (d', p.2))
        (d, pu)).1.map Prod.fst = deg₀.map Prod.fst) ∧
      (∀ n, dictGetD (l.foldl (fun (p : List (String × Int) × List String)
        dep =>
        let d' := dictSet p.1 dep (dictGetD p.1 dep 0 - 1)
        if dictGetD d' dep 0 = 0 then (d', p.2 ++ [dep]) else (d', p.2))
        (d, pu)).1 n 0 = dictGetD deg₀ n 0 - ((done ++ l).count n : Int)) ∧
      (∀ n, n ∈ (l.foldl (fun (p : List (String × Int) × List String) dep =>
        let d' := dictSet p.1 dep (dictGetD p.1 dep 0 - 1)
        if dictGetD d' dep 0 = 0 then (d', p.2 ++ [dep]) else (d', p.2))
        (d, pu)).2 ↔ (0 < dictGetD deg₀ n 0 ∧
        dictGetD deg₀ n 0 ≤ ((done ++ l).count n : Int))) ∧
      (l.foldl (fun (p : List (String × Int) × List String) dep =>
        let d' := dictSet p.1 dep (dictGetD p.1 dep 0 - 1)
        if dictGetD d' dep 0 = 0 then (d', p.2 ++ [dep]) else (d', p.2))
        (d, pu)).2.Nodup ∧
      degMass (l.foldl (fun (p : List (String × Int) × List String) dep =>
        let d' := dictSet p.1 dep (dictGetD p.1 dep 0 - 1)
        if dictGetD d' dep 0 = 0 then (d', p.2 ++ [dep]) else (d', p.2))
        (d, pu)).1 +
      (l.foldl (fun (p : List (String × Int) × List String) dep =>
        let d' := dictSet p.1 dep (dictGetD p.1 dep 0 - 1)
        if dictGetD d' dep 0 = 0 then (d', p.2 ++ [dep]) else (d', p.2))
        (d, pu)).2.length ≤ degMass deg₀ := by
  intro l
  induction l with
  | nil =>
    intro done d pu hkeys hval hpu hpund _ hmass
    refine ⟨hkeys, ?_, ?_, hpund, hmass⟩
    · intro n
      rw [List.append_nil]
      exact hval n
    · intro n
      rw [List.append_nil]
      exact hpu n
  | cons x xs ih =>
    intro done d pu hkeys hval hpu hpund hl hmass
    have hxkeys : x ∈ deg₀.map Prod.fst := hl x (List.mem_cons_self _ _)
    have hxd : x ∈ d.map Prod.fst := by rw [hkeys]; exact hxkeys
    have hdnd : (d.map Prod.fst).Nodup := by rw [hkeys]; exact hnd₀
    have hkeys' : (dictSet d x (dictGetD d x 0 - 1)).map Prod.fst
        = deg₀.map Prod.fst := by
      rw [dictSet_keys_of_mem d x _ hxd, hkeys]
    have hval' : ∀ n, dictGetD (dictSet d x (dictGetD d x 0 - 1)) n 0
        = dictGetD deg₀ n 0 - ((done ++ [x]).count n : Int) := by
      intro n
      by_cases hnx : x = n
      · subst hnx
        rw [dictGetD_dictSet_self, hval x]
        rw [List.count_append]
        simp
        omega
      · rw [dictGetD_dictSet_ne d x n _ 0 hnx, hval n, List.count_append]
        have : List.count n [x] = 0 :=
          List.count_eq_zero_of_not_mem (by simp [Ne.symm hnx])
        rw [this]
        simp
    have hmass' : degMass (dictSet d x (dictGetD d x 0 - 1)) +
        (dictGetD d x 0).toNat = degMass d + (dictGetD d x 0 - 1).toNat :=
      degMass_dictSet d x _ hdnd hxd
    have hcount_xs : ∀ n, ((done ++ [x]) ++ xs).count n
        = (done ++ x :: xs).count n := by
      intro n
      rw [List.append_assoc]
      rfl
    simp only [List.foldl_cons]
    by_cases hpush : dictGetD (dictSet d x (dictGetD d x 0 - 1)) x 0 = 0
    · have hdegx : dictGetD deg₀ x 0 = (done.count x : Int) + 1 := by
        have := hval' x
        rw [hpush] at this
        rw [List.count_append] at this
        simp at this
        omega
      have hxnotpu : x ∉ pu := by
        intro hmem
        have := (hpu x).mp hmem
        omega
      have hrec := ih (done ++ [x]) (dictSet d x (dictGetD d x 0 - 1))
        (pu ++ [x]) hkeys' hval'
        (by
          intro n
          by_cases hnx : x = n
          · subst hnx
            rw [List.count_append]
            simp [hdegx]
          · rw [List.count_append]
            have : List.count n [x] = 0 :=
              List.count_eq_zero_of_not_mem (by simp [Ne.symm hnx])
            rw [this]
            simp only [List.mem_append, List.mem_singleton]
            constructor
            · intro h
              rcases h with h | h
              · simpa using (hpu n).mp h
              · exact absurd h.symm hnx
            · intro h
              exact Or.inl ((hpu n).mpr (by simpa using h)))
        (by
          rw [List.nodup_append]
          exact ⟨hpund, List.nodup_singleton _, by simp [hxnotpu]⟩)
        (fun y hy => hl y (List.mem_cons_of_mem _ hy))
        (by
          have h1 : dictGetD d x 0 = 1 := by
            rw [hval x]
            omega
          simp only [List.length_append, List.length_singleton]
          omega)
      simp only [if_pos hpush]
      refine ⟨hrec.1, ?_, ?_, hrec.2.2.2.1, ?_⟩
      · intro n
        rw [← hcount_xs n]
        exact hrec.2.1 n
      · intro n
        rw [← hcount_xs n]
        exact hrec.2.2.1 n
      · exact le_trans (le_of_eq rfl) hrec.2.2.2.2
    · have hrec := ih (done ++ [x]) (dictSet d x (dictGetD d x 0 - 1))
        pu hkeys' hval'
        (by
          intro n
          by_cases hnx : x = n
          · subst hnx
            have hne1 : ¬ dictGetD deg₀ x 0 = (done.count x : Int) + 1 := by
              intro he
              apply hpush
              rw [hval' x, List.count_append]
              simp
              omega
            rw [List.count_append]
            simp only [List.count_singleton]
            constructor
            · intro h
              have := (hpu x).mp h
              constructor
              · exact this.1
              · simp
                omega
            · intro h
              apply (hpu x).mpr
              refine ⟨h.1, ?_⟩
              have h2 := h.2
              simp at h2
              omega
          · rw [List.count_append]
            have : List.count n [x] = 0 :=
              List.count_eq_zero_of_not_mem (by simp [Ne.symm hnx])
            rw [this]
            simpa using hpu n)
        hpund
        (fun y hy => hl y (List.mem_cons_of_mem _ hy))
        (by
          have : (dictGetD d x 0 - 1).toNat ≤ (dictGetD d x 0).toNat := by
            omega
          omega)
      simp only [if_neg hpush]
      refine ⟨hrec.1, ?_, ?_, hrec.2.2.2.1, ?_⟩
      · intro n
        rw [← hcount_xs n]
        exact hrec.2.1 n
      · intro n
        rw [← hcount_xs n]
        exact hrec.2.2.1 n
      · exact hrec.2.2.2.2

theorem kahnStep_spec (g : Graph) (deg : List (String × Int))
    (current : String) (hnd : (deg.map Prod.fst).Nodup)
    (hkeys : ∀ d ∈ adjGet g current, d ∈ deg.map Prod.fst) :
    ((kahnStep g deg current).1.map Prod.fst = deg.map Prod.fst) ∧
    (∀ n, dictGetD (kahnStep g deg current).1 n 0 =
      dictGetD deg n 0 - (cntE g current n : Int)) ∧
    (∀ n, n ∈ (kahnStep g deg current).2 ↔
      (0 < dictGetD deg n 0 ∧
        dictGetD deg n 0 ≤ (cntE g current n : Int))) ∧
    (kahnStep g deg current).2.Nodup ∧
    degMass (kahnStep g deg current).1 +
      (kahnStep g deg current).2.length ≤ degMass deg := by
  have h := kahnStepAux deg hnd (adjGet g current) [] deg [] rfl
    (by intro n; simp)
    (by
      intro n
      simp only [List.not_mem_nil, List.count_nil, Nat.cast_zero,
        false_iff, not_and, not_le]
      intro h
      omega)
    List.nodup_nil hkeys (by simp)
  have heq : kahnStep g deg current =
      (adjGet g current).foldl
        (fun (p : List (String × Int) × List String) dep =>
          let d' := dictSet p.1 dep (dictGetD p.1 dep 0 - 1)
          if dictGetD d' dep 0 = 0 then (d', p.2 ++ [dep]) else (d', p.2))
        (deg, []) := rfl
  rw [heq]
  obtain ⟨h1, h2, h3, h4, h5⟩ := h
  refine ⟨h1, ?_, ?_, h4, h5⟩
  · intro n
    have := h2 n
    rw [List.nil_append] at this
    exact this
  · intro n
    have := h3 n
    rw [List.nil_append] at this
    exact this

theorem sum_ge_of_preds_in (g : Graph) (hg : (g.adj.map Prod.fst).Nodup)
    (res : List String) (hrn : res.Nodup)
    (hrU : ∀ x ∈ res, x ∈ getAllPackages g) (n : String)
    (hall : ∀ a, Step g a n → a ∈ res) :
    indeg0 g n ≤ poppedSum g res n := by
  rw [indeg0_eq_sum_allPackages g hg n]
  rw [sum_split_subset res (getAllPackages g) _ (allPackages_nodup g)
    hrn hrU]
  have hz : (((getAllPackages g).filter (fun x => decide (x ∉ res))).map
      (fun a => ((cntE g a n : Nat) : Int))).sum = 0 := by
    apply List.sum_eq_zero
    intro x hx
    rcases List.mem_map.mp hx with ⟨y, hy, rfl⟩
    have hy2 : y ∉ res := by
      have := List.of_mem_filter hy
      simpa using this
    have : ¬ Step g y n := fun hs => hy2 (hall y hs)
    unfold cntE
    unfold Step at this
    simp [List.count_eq_zero_of_not_mem this]
  unfold poppedSum
  omega

theorem kahnLoop_spec (g : Graph) (hg : (g.adj.map Prod.fst).Nodup) :
    ∀ (fuel : Nat) (queue : List String) (deg : List (String × Int))
      (result : List String),
      KInv g queue deg result →
      queue.length + degMass deg < fuel →
      ∃ res, kahnLoop fuel g queue deg result = some res ∧
        res.Nodup ∧ (∀ n ∈ res, n ∈ getAllPackages g) ∧
        (∃ added, res = result ++ added) ∧
        (∀ n ∈ getAllPackages g, n ∉ res →
          ∃ a, a ∈ getAllPackages g ∧ a ∉ res ∧ Step g a n) ∧
        (∀ (r₁ r₂ : List String) (b : String), res = r₁ ++ b :: r₂ →
          ∀ a, Step g a b → a ∈ r₁) := by
  intro fuel
  induction fuel with
  | zero =>
    intro queue deg result _ hΦ
    exact absurd hΦ (Nat.not_lt_zero _)
  | succ f ihf =>
    intro queue deg result hK hΦ
    obtain ⟨hA, hKeq, hB, hRnd, hQnd, hQR, hQU, hRU, hD, hE, hG⟩ := hK
    cases queue with
    | nil =>
      refine ⟨result, by simp [kahnLoop], hRnd, hRU,
        ⟨[], (List.append_nil _).symm⟩, ?_, hG⟩
      intro n hnU hnres
      have hdegpos : 0 < dictGetD deg n 0 := by
        by_contra hle
        push_neg at hle
        rcases hD n hnU hle with h | h
        · exact hnres h
        · simp at h
      by_contra hnopred
      push_neg at hnopred
      have hall : ∀ a, Step g a n → a ∈ result := by
        intro a ha
        by_contra hanot
        have haU : a ∈ getAllPackages g := by
          apply keys_subset_allPackages
          by_contra hkey
          have := adjGet_eq_nil_of_not_key g a hkey
          unfold Step at ha
          rw [this] at ha
          simp at ha
        exact hnopred a haU hanot ha
      have hsum := sum_ge_of_preds_in g hg result hRnd hRU n hall
      rw [hB n hnU] at hdegpos
      omega
    | cons current rest =>
      have hcurU : current ∈ getAllPackages g :=
        hQU current (List.mem_cons_self _ _)
      have hcurres : current ∉ result := hQR current (List.mem_cons_self _ _)
      have hcurrest : current ∉ rest := (List.nodup_cons.mp hQnd).1
      have hrestnd : rest.Nodup := (List.nodup_cons.mp hQnd).2
      obtain ⟨ksK, ksV, ksP, ksN, ksM⟩ := kahnStep_spec g deg current hA
        (fun d hd => (hKeq d).mpr (mem_adjGet_allPackages g current d hd))
      rcases hks : kahnStep g deg current with ⟨deg', pushes⟩
      rw [hks] at ksK ksV ksP ksN ksM
      simp only at ksK ksV ksP ksN ksM
      have hstep : kahnLoop (f + 1) g (current :: rest) deg result =
          kahnLoop f g (rest ++ pushes) deg' (result ++ [current]) := by
        simp [kahnLoop, hks]
      have hdegqr : ∀ n, (n ∈ result ∨ n ∈ (current :: rest)) →
          dictGetD deg n 0 ≤ 0 := by
        intro n hn
        have hnU : n ∈ getAllPackages g := by
          rcases hn with h | h
          · exact hRU n h
          · exact hQU n h
        rw [hB n hnU]
        have := hE n hn
        omega
      have hpushadj : ∀ n ∈ pushes, n ∈ adjGet g current := by
        intro n hn
        obtain ⟨h1, h2⟩ := (ksP n).mp hn
        unfold cntE at h2
        have : 0 < (adjGet g current).count n := by omega
        exact List.count_pos_iff_mem.mp this
      have hpushU : ∀ n ∈ pushes, n ∈ getAllPackages g :=
        fun n hn => mem_adjGet_allPackages g current n (hpushadj n hn)
      have hKInv' : KInv g (rest ++ pushes) deg' (result ++ [current]) := by
        refine ⟨?_, ?_, ?_, ?_, ?_, ?_, ?_, ?_, ?_, ?_, ?_⟩
        · rw [ksK]; exact hA
        · intro n; rw [ksK]; exact hKeq n
        · intro n hnU
          rw [ksV n, hB n hnU, poppedSum_append]
          unfold cntE
          omega
        · rw [List.nodup_append]
          exact ⟨hRnd, List.nodup_singleton _, by simp [hcurres]⟩
        · rw [List.nodup_append]
          refine ⟨hrestnd, ksN, ?_⟩
          intro n hn1 hn2
          have h1 := hdegqr n (Or.inr (List.mem_cons_of_mem _ hn1))
          have h2 := ((ksP n).mp hn2).1
          omega
        · intro n hn
          simp only [List.mem_append, List.mem_singleton]
          rcases List.mem_append.mp hn with h | h
          · push_neg
            exact ⟨hQR n (List.mem_cons_of_mem _ h),
              fun he => hcurrest (he ▸ h)⟩
          · have h2 := ((ksP n).mp h).1
            push_neg
            constructor
            · intro hmem
              have := hdegqr n (Or.inl hmem)
              omega
            · intro he
              have := hdegqr n (Or.inr (he ▸ List.mem_cons_self _ _))
              omega
        · intro n hn
          rcases List.mem_append.mp hn with h | h
          · exact hQU n (List.mem_cons_of_mem _ h)
          · exact hpushU n h
        · intro n hn
          rcases List.mem_append.mp hn with h | h
          · exact hRU n h
          · rw [List.mem_singleton.mp h]; exact hcurU
        · intro n hnU hdeg'
          rw [ksV n] at hdeg'
          by_cases hd : dictGetD deg n 0 ≤ 0
          · rcases hD n hnU hd with h | h
            · exact Or.inl (List.mem_append_left _ h)
            · rcases List.mem_cons.mp h with rfl | h'
              · exact Or.inl (List.mem_append_right _ (by simp))
              · exact Or.inr (List.mem_append_left _ h')
          · push_neg at hd
            right
            apply List.mem_append_right
            apply (ksP n).mpr
            exact ⟨hd, by omega⟩
        · intro n hn
          have hσ : poppedSum g result n ≤
              poppedSum g (result ++ [current]) n := by
            rw [poppedSum_append]
            have : (0 : Int) ≤ (cntE g current n : Int) := Int.ofNat_nonneg _
            omega
          rw [poppedSum_append]
          rcases hn with h | h
          · rcases List.mem_append.mp h with h' | h'
            · have := hE n (Or.inl h')
              have : (0 : Int) ≤ (cntE g current n : Int) :=
                Int.ofNat_nonneg _
              omega
            · have heq : n = current := List.mem_singleton.mp h'
              subst heq
              have := hE n (Or.inr (List.mem_cons_self _ _))
              have : (0 : Int) ≤ (cntE g n n : Int) := Int.ofNat_nonneg _
              omega
          · rcases List.mem_append.mp h with h' | h'
            · have := hE n (Or.inr (List.mem_cons_of_mem _ h'))
              have : (0 : Int) ≤ (cntE g current n : Int) :=
                Int.ofNat_nonneg _
              omega
            · obtain ⟨h1, h2⟩ := (ksP n).mp h'
              have hnU : n ∈ getAllPackages g := hpushU n h'
              have := hB n hnU
              omega
        · intro r₁ r₂ b hsplit a hab
          cases r₂ with
          | nil =>
            obtain ⟨he1, he2⟩ := List.append_inj hsplit (by
              have := congrArg List.length hsplit
              simp at this
              omega)
            have hbcur : b = current := by
              have := he2
              simp at this
              exact this.symm
            subst hbcur
            rw [← he1]
            exact pred_in_of_sum g hg result hRnd hRU b
              (by
                have := hE b (Or.inr (List.mem_cons_self _ _))
                exact this) a hab
          | cons c r₂' =>
            have hdrop := congrArg List.dropLast hsplit
            rw [List.dropLast_concat] at hdrop
            rw [List.dropLast_append_of_ne_nil _ (by simp)] at hdrop
            have hcr : (b :: c :: r₂').dropLast = b :: (c :: r₂').dropLast :=
              rfl
            rw [hcr] at hdrop
            exact hG r₁ _ b hdrop a hab
      have hΦ' : (rest ++ pushes).length + degMass deg' < f := by
        simp only [List.length_append]
        simp only [List.length_cons] at hΦ
        omega
      obtain ⟨res, heq, hnd2, hU2, ⟨added, hadd⟩, hmiss, hord⟩ :=
        ihf (rest ++ pushes) deg' (result ++ [current]) hKInv' hΦ'
      refine ⟨res, ?_, hnd2, hU2, ⟨current :: added, ?_⟩, hmiss, hord⟩
      · rw [hstep]; exact heq
      · rw [hadd, List.append_assoc]
        rfl

theorem dictGetD_not_mem {α : Type} (d : List (String × α)) (n : String)
    (w : α) (h : ¬ n ∈ d.map Prod.fst) : dictGetD d n w = w := by
  unfold dictGetD
  have hf : d.find? (fun p => decide (p.1 = n)) = none := by
    apply List.find?_eq_none.mpr
    intro p hp
    simp only [decide_eq_true_eq]
    exact fun he => h (List.mem_map.mpr ⟨p, hp, he⟩)
  rw [hf]

theorem degBase_keys :
    ∀ (L : List String) (d₀ : List (String × Int)) (n : String),
      n ∈ ((L.foldl
          (fun d p => if dictMem d p then d else dictSet d p 0) d₀).map
            Prod.fst) ↔
        n ∈ d₀.map Prod.fst ∨ n ∈ L := by
  intro L
  induction L with
  | nil => intro d₀ n; simp
  | cons p L ih =>
    intro d₀ n
    simp only [List.foldl_cons]
    rw [ih]
    by_cases hm : dictMem d₀ p
    · rw [if_pos hm]
      constructor
      · rintro (h | h)
        · exact Or.inl h
        · exact Or.inr (List.mem_cons_of_mem _ h)
      · rintro (h | h)
        · exact Or.inl h
        · rcases List.mem_cons.mp h with rfl | h'
          · exact Or.inl ((dictMem_iff d₀ n).mp hm)
          · exact Or.inr h'
    · rw [if_neg hm]
      rw [show (dictSet d₀ p 0).map Prod.fst = d₀.map Prod.fst ++ [p] from by
        rw [dictSet_keys]
        rw [if_neg (by simpa [dictMem] using hm)]]
      simp only [List.mem_append, List.mem_singleton, List.mem_cons]
      tauto

theorem degBase_nodup :
    ∀ (L : List String) (d₀ : List (String × Int)),
      (d₀.map Prod.fst).Nodup →
      ((L.foldl
          (fun d p => if dictMem d p then d else dictSet d p 0) d₀).map
            Prod.fst).Nodup := by
  intro L
  induction L with
  | nil => intro d₀ h; simpa using h
  | cons p L ih =>
    intro d₀ h
    simp only [List.foldl_cons]
    apply ih
    by_cases hm : dictMem d₀ p
    · rw [if_pos hm]; exact h
    · rw [if_neg hm]; exact dictSet_keys_nodup h

theorem degBase_val :
    ∀ (L : List String) (d₀ : List (String × Int)) (n : String),
      dictGetD (L.foldl
          (fun d p => if dictMem d p then d else dictSet d p 0) d₀) n 0 =
        dictGetD d₀ n 0 := by
  intro L
  induction L with
  | nil => intro d₀ n; rfl
  | cons p L ih =>
    intro d₀ n
    simp only [List.foldl_cons]
    rw [ih]
    by_cases hm : dictMem d₀ p
    · rw [if_pos hm]
    · rw [if_neg hm]
      by_cases hpn : p = n
      · subst hpn
        rw [dictGetD_dictSet_self]
        rw [dictGetD_not_mem]
        intro hk
        exact hm ((dictMem_iff d₀ p).mpr hk)
      · rw [dictGetD_dictSet_ne _ _ _ _ _ hpn]

theorem incFold_val :
    ∀ (l : List String) (d : List (String × Int)) (n : String),
      dictGetD (l.foldl
          (fun d' v => dictSet d' v (dictGetD d' v 0 + 1)) d) n 0 =
        dictGetD d n 0 + (l.count n : Int) := by
  intro l
  induction l with
  | nil => intro d n; simp
  | cons v l ih =>
    intro d n
    simp only [List.foldl_cons]
    rw [ih]
    by_cases hvn : v = n
    · subst hvn
      rw [dictGetD_dictSet_self, List.count_cons_self]
      push_cast
      ring
    · rw [dictGetD_dictSet_ne _ _ _ _ _ hvn,
        List.count_cons_of_ne (fun h => hvn h.symm)]

theorem incFold_keys :
    ∀ (l : List String) (d : List (String × Int)),
      (∀ v ∈ l, v ∈ d.map Prod.fst) →
      (l.foldl (fun d' v => dictSet d' v (dictGetD d' v 0 + 1)) d).map
          Prod.fst = d.map Prod.fst := by
  intro l
  induction l with
  | nil => intro d _; rfl
  | cons v l ih =>
    intro d hv
    simp only [List.foldl_cons]
    have h1 : (dictSet d v (dictGetD d v 0 + 1)).map Prod.fst =
        d.map Prod.fst :=
      dictSet_keys_of_mem _ _ _ (hv v (List.mem_cons_self _ _))
    rw [ih _ (fun w hw => h1 ▸ hv w (List.mem_cons_of_mem _ hw)), h1]

theorem degIncr_val :
    ∀ (A : List (String × List String)) (d : List (String × Int))
      (n : String),
      dictGetD (A.foldl
          (fun d p => p.2.foldl
            (fun d' v => dictSet d' v (dictGetD d' v 0 + 1)) d) d) n 0 =
        dictGetD d n 0 +
          (A.map (fun p => ((p.2.count n : Nat) : Int))).sum := by
  intro A
  induction A with
  | nil => intro d n; simp
  | cons p A ih =>
    intro d n
    simp only [List.foldl_cons, List.map_cons, List.sum_cons]
    rw [ih, incFold_val]
    ring

theorem degIncr_keys :
    ∀ (A : List (String × List String)) (d : List (String × Int)),
      (∀ p ∈ A, ∀ v ∈ p.2, v ∈ d.map Prod.fst) →
      (A.foldl
          (fun d p => p.2.foldl
            (fun d' v => dictSet d' v (dictGetD d' v 0 + 1)) d) d).map
          Prod.fst = d.map Prod.fst := by
  intro A
  induction A with
  | nil => intro d _; rfl
  | cons p A ih =>
    intro d hv
    simp only [List.foldl_cons]
    have h1 := incFold_keys p.2 d (hv p (List.mem_cons_self _ _))
    rw [ih _ (fun q hq w hw =>
      h1 ▸ hv q (List.mem_cons_of_mem _ hq) w hw), h1]

theorem degStart_keys (g : Graph) (n : String) :
    n ∈ (degStart g).map Prod.fst ↔ n ∈ getAllPackages g := by
  unfold degStart
  have htgt : ∀ p ∈ g.adj, ∀ v ∈ p.2,
      v ∈ ((getAllPackages g).foldl
        (fun d p => if dictMem d p then d else dictSet d p 0)
        ([] : List (String × Int))).map Prod.fst := by
    intro p hp v hvp
    rw [degBase_keys]
    right
    unfold getAllPackages
    rw [List.mem_dedup]
    apply List.mem_append_right
    exact mem_foldr_append _ _ _ _ (Or.inr ⟨p, hp, hvp⟩)
  rw [degIncr_keys _ _ htgt, degBase_keys]
  simp

theorem degStart_nodup (g : Graph) :
    ((degStart g).map Prod.fst).Nodup := by
  unfold degStart
  have htgt : ∀ p ∈ g.adj, ∀ v ∈ p.2,
      v ∈ ((getAllPackages g).foldl
        (fun d p => if dictMem d p then d else dictSet d p 0)
        ([] : List (String × Int))).map Prod.fst := by
    intro p hp v hvp
    rw [degBase_keys]
    right
    unfold getAllPackages
    rw [List.mem_dedup]
    apply List.mem_append_right
    exact mem_foldr_append _ _ _ _ (Or.inr ⟨p, hp, hvp⟩)
  rw [degIncr_keys _ _ htgt]
  exact degBase_nodup _ _ (by simp)

theorem degStart_val (g : Graph) (n : String) :
    dictGetD (degStart g) n 0 = indeg0 g n := by
  unfold degStart
  rw [degIncr_val, degBase_val]
  unfold indeg0
  simp [dictGetD]

theorem kahn_init (g : Graph) :
    KInv g
      ((getAllPackages g).filter
        (fun p => dictGetD (degStart g) p 0 = 0))
      (degStart g) [] := by
  refine ⟨degStart_nodup g, degStart_keys g, ?_, List.nodup_nil, ?_,
    ?_, ?_, ?_, ?_, ?_, ?_⟩
  · intro n _
    rw [degStart_val]
    unfold poppedSum
    simp
  · exact List.Nodup.filter _ (allPackages_nodup g)
  · intro n _
    simp
  · intro n hn
    exact List.mem_of_mem_filter hn
  · intro n h
    simp at h
  · intro n hn hle
    right
    rw [degStart_val] at hle
    apply List.mem_filter.mpr
    refine ⟨hn, ?_⟩
    rw [degStart_val]
    have := indeg0_nonneg g n
    simp
    omega
  · intro n hn
    unfold poppedSum
    simp only [List.map_nil, List.sum_nil]
    rcases hn with h | h
    · simp at h
    · have h2 := (List.mem_filter.mp h).2
      rw [degStart_val] at h2
      simp at h2
      omega
  · intro r₁ r₂ b hsplit
    exact absurd hsplit.symm (List.append_ne_nil_of_right_ne_nil _ (by simp))

theorem no_blocked_of_acyclic (g : Graph) (h : ¬ HasCycle g)
    (P : String → Prop) (hPU : ∀ n, P n → n ∈ getAllPackages g)
    (hP : ∀ n, P n → ∃ a, P a ∧ Step g a n) :
    ∀ n, ¬ P n := by
  intro n₀ hn₀
  have hex : ∀ n, ∃ a, (P n → P a ∧ Step g a n) := by
    intro n
    by_cases h' : P n
    · obtain ⟨a, ha⟩ := hP n h'
      exact ⟨a, fun _ => ha⟩
    · exact ⟨n, fun hc => absurd hc h'⟩
  obtain ⟨f, hf⟩ := Classical.axiomOfChoice hex
  have hPk : ∀ k, P (f^[k] n₀) := by
    intro k
    induction k with
    | zero => simpa using hn₀
    | succ k ih =>
      rw [Function.iterate_succ_apply']
      exact (hf _ ih).1
  have hstepk : ∀ k, Step g (f^[k + 1] n₀) (f^[k] n₀) := by
    intro k
    rw [Function.iterate_succ_apply']
    exact (hf _ (hPk k)).2
  have htrans : ∀ i k,
      Relation.TransGen (Step g) (f^[i + k + 1] n₀) (f^[i] n₀) := by
    intro i k
    induction k with
    | zero => exact Relation.TransGen.single (hstepk i)
    | succ k ih =>
      exact Relation.TransGen.head (hstepk (i + k + 1)) ih
  have hmap : ∀ k ∈ Finset.range ((getAllPackages g).length + 1),
      f^[k] n₀ ∈ (getAllPackages g).toFinset :=
    fun k _ => List.mem_toFinset.mpr (hPU _ (hPk k))
  have hcard : (getAllPackages g).toFinset.card <
      (Finset.range ((getAllPackages g).length + 1)).card := by
    rw [Finset.card_range]
    exact Nat.lt_succ_of_le (List.toFinset_card_le _)
  obtain ⟨i, _, j, _, hne, heq⟩ :=
    Finset.exists_ne_map_eq_of_card_lt_of_maps_to hcard hmap
  have hcase : ∀ i j, i < j → f^[i] n₀ = f^[j] n₀ → False := by
    intro i j hij heq'
    have hk : i + (j - i - 1) + 1 = j := by omega
    have ht := htrans i (j - i - 1)
    rw [hk, ← heq'] at ht
    exact h ⟨_, ht⟩
  rcases Nat.lt_or_ge i j with hij | hij
  · exact hcase i j hij heq
  · exact hcase j i (lt_of_le_of_ne hij (Ne.symm hne)) heq.symm

/-- C7: a cyclic graph makes `topological_sort` return `(false, [])`; on an
acyclic graph (with the Python-dict hypothesis that adjacency keys are
unique) `detect_cycles` returns `(false, [])` and `topological_sort` returns
`(true, order)` where the order lists every package exactly once and, for
every edge `a → b`, places `a` strictly before `b` (roots with no incoming
edges first). -/
theorem topological_sort_correct (g : Graph)
    (hg : (g.adj.map Prod.fst).Nodup) :
    (HasCycle g → topologicalSort g = (false, [])) ∧
    (¬ HasCycle g →
      detectCycles g = (false, []) ∧
      (topologicalSort g).1 = true ∧
      (topologicalSort g).2.Nodup ∧
      (∀ n, n ∈ getAllPackages g ↔ n ∈ (topologicalSort g).2) ∧
      (∀ a b, Step g a b → a ∈ (topologicalSort g).2 ∧
        (topologicalSort g).2.indexOf a <
          (topologicalSort g).2.indexOf b)) := by
  constructor
  · intro hc
    unfold topologicalSort
    rw [if_pos (detect_of_hasCycle g hc)]
  · intro hnc
    have hdet := detectCycles_acyclic g hnc
    refine ⟨hdet, ?_⟩
    obtain ⟨res, heq, hnd, hU, ⟨added, hadd⟩, hmiss, hord⟩ :=
      kahnLoop_spec g hg
        (((getAllPackages g).filter
            (fun p => dictGetD (degStart g) p 0 = 0)).length +
          degMass (degStart g) + 1)
        ((getAllPackages g).filter
          (fun p => dictGetD (degStart g) p 0 = 0))
        (degStart g) [] (kahn_init g) (Nat.lt_succ_self _)
    have hall : ∀ n ∈ getAllPackages g, n ∈ res := by
      intro n hn
      by_contra hnres
      refine no_blocked_of_acyclic g hnc
        (fun m => m ∈ getAllPackages g ∧ ¬ m ∈ res) ?_ ?_ n ⟨hn, hnres⟩
      · rintro m ⟨hmU, _⟩
        exact hmU
      · rintro m ⟨hmU, hmres⟩
        obtain ⟨a, haU, hares, hstep⟩ := hmiss m hmU hmres
        exact ⟨a, ⟨haU, hares⟩, hstep⟩
    have hlen : res.length = (getAllPackages g).length := by
      apply Nat.le_antisymm
      · exact (List.subperm_of_subset hnd hU).length_le
      · exact (List.subperm_of_subset (allPackages_nodup g) hall).length_le
    have htopo : topologicalSort g =
        (decide (res.length = (getAllPackages g).length), res) := by
      unfold topologicalSort
      rw [if_neg (by rw [hdet]; simp)]
      dsimp only
      rw [heq]
    rw [htopo]
    refine ⟨by simp [hlen], hnd, ?_, ?_⟩
    · intro n
      exact ⟨hall n, hU n⟩
    · intro a b hab
      have hbU : b ∈ getAllPackages g := mem_adjGet_allPackages g a b hab
      have hbres : b ∈ res := hall b hbU
      obtain ⟨r₁, r₂, hsplit⟩ := List.append_of_mem hbres
      have har₁ : a ∈ r₁ := hord r₁ r₂ b hsplit a hab
      have hbnotr₁ : ¬ b ∈ r₁ := by
        intro hbr₁
        rw [hsplit, List.nodup_append] at hnd
        exact hnd.2.2 hbr₁ (List.mem_cons_self _ _)
      constructor
      · rw [hsplit]
        exact List.mem_append_left _ har₁
      · rw [hsplit]
        rw [List.indexOf_append_of_mem har₁,
          List.indexOf_append_of_not_mem hbnotr₁,
          List.indexOf_cons_self]
        have := List.indexOf_lt_length.mpr har₁
        omega

theorem topological_sort_correct_witness :
    (((⟨[("A", ["B"]), ("B", ["C"])]⟩ : Graph).adj.map Prod.fst).Nodup) ∧
    (¬ HasCycle (⟨[("A", ["B"]), ("B", ["C"])]⟩ : Graph)) ∧
    (topologicalSort (⟨[("A", ["B"]), ("B", ["C"])]⟩ : Graph)).1 = true := by
  have hnc : ¬ HasCycle (⟨[("A", ["B"]), ("B", ["C"])]⟩ : Graph) := by
    intro hc
    have h1 := detect_of_hasCycle _ hc
    have h2 : (detectCycles (⟨[("A", ["B"]), ("B", ["C"])]⟩ : Graph)).1 =
        false := by decide
    rw [h1] at h2
    simp at h2
  exact ⟨by decide, hnc,
    ((topological_sort_correct ⟨[("A", ["B"]), ("B", ["C"])]⟩
      (by decide)).2 hnc).2.1⟩

end HatchProof
